import Mathlib

/-!
# Height fields and diamond-square synthesis

A shallow embedding of classes of the repository:

* `HeightMap` (`Landscapes/include/height_map.hpp`, `Landscapes/source/landscape/height_map.cpp`),
* `ProceduralTerrain` (`MountainViz/src/terrain/ProceduralTerrain.{h,cpp}`),
* `NoiseGenerator` (`Landscapes/include/noise_generator.hpp`,
  `Landscapes/source/utilities/noise_generator.cpp`),
* `SceneConfig` (`Landscapes/include/scene_config.hpp`, `Landscapes/source/core/scene_config.cpp`),
  of which the method `validate` is embedded,
* the terrain settings of `Config` (`MountainViz/include/Config.h`) and of the "Resolution"
  slider (`MountainViz/src/main.cpp`).

Conventions of the embedding.

* `float` is an arbitrary linearly ordered field `F` (exact arithmetic); every definition is
  computable and can be run at `F := ℚ`.
* `int` is `Int`.  Where a computed `int` is turned into a container size (the `resize` call
  of the constructors), a product that leaves the `int` range, or a negative size, has no
  defined result.  An `unsigned int` is a `Nat` reduced modulo `2 ^ 32`, and the conversion
  of a container size to `int` reduces it modulo `2 ^ 32` into the `int` range
  (`sizeToInt`).
* `std::vector<T>` is `List T`, and a C array `float[3]` is `Arr3`.  An access outside the
  container is undefined behaviour in C++; it is modelled by `none`.  So a function returning
  `Option` returns `none` exactly when the C++ code has no defined result (exception or
  undefined behaviour), and `some r` when it returns `r`.
* `for` loops are folds over the list of loop indices (`forIndices`).
* A function whose body is a `throw std::runtime_error(msg)` returns `Except String`, with
  the message of the exception as the error.
* Library functions that are not part of the sources (`glm::normalize`, `sqrt`, `fmod`,
  `log2`, the draws of `std::mt19937`) are parameters.
-/

namespace Parbati

set_option linter.unusedSectionVars false

variable {F : Type} [LinearOrderedField F]

/-! ## Library types -/

/-- The `glm::vec3` triple of floats. -/
structure Vec3 (F : Type) where
  x : F
  y : F
  z : F
deriving DecidableEq

/-- Largest value of a C++ `int` (32 bits). -/
def INT_MAX : Int := 2147483647

/-- The call `v.resize(n, a)` on an empty `std::vector`, where `n` is an `int` expression:
`n` copies of `a`.  A negative `n` converts to a huge `size_t` (the call throws), and an `n`
above `INT_MAX` cannot be the value of an `int` expression. -/
def vecResize {α : Type} (n : Int) (a : α) : Option (List α) :=
  if n < 0 ∨ INT_MAX < n then none else some (List.replicate n.toNat a)

/-- The read `v[i]` of a `std::vector` at an `int` index. -/
def vecGet {α : Type} (v : List α) (i : Int) : Option α :=
  if i < 0 then none else v[i.toNat]?

/-- The write `v[i] = a` of a `std::vector` at an `int` index. -/
def vecSet {α : Type} (v : List α) (i : Int) (a : α) : Option (List α) :=
  if i < 0 ∨ v.length ≤ i.toNat then none else some (v.set i.toNat a)

/-! ## HeightMap -/

/-- The private fields of `class HeightMap`. -/
structure HeightMap (F : Type) where
  _resolution : Int
  _height_data : List F
  _normals : List (Vec3 F)
deriving DecidableEq

/-- The constructor `HeightMap::HeightMap(int resolution)`. -/
def HeightMap.ctor (resolution : Int) : Option (HeightMap F) := do
  let height_data ← vecResize (resolution * resolution) (0 : F)
  let normals ← vecResize (resolution * resolution) (Vec3.mk (0 : F) 1 0)
  pure { _resolution := resolution, _height_data := height_data, _normals := normals }

/-- The helper `HeightMap::_index`. -/
def HeightMap._index (h : HeightMap F) (x y : Int) : Int :=
  y * h._resolution + x

/-- The accessor `HeightMap::get_resolution`. -/
def HeightMap.get_resolution (h : HeightMap F) : Int :=
  h._resolution

/-- The accessor `HeightMap::get_data`: the elevation array. -/
def HeightMap.get_data (h : HeightMap F) : List F :=
  h._height_data

/-- The method `HeightMap::get_height`. -/
def HeightMap.get_height (h : HeightMap F) (x y : Int) : Option F :=
  if x < 0 ∨ x ≥ h._resolution ∨ y < 0 ∨ y ≥ h._resolution then
    some 0
  else
    vecGet h._height_data (h._index x y)

/-- The method `HeightMap::set_height`. -/
def HeightMap.set_height (h : HeightMap F) (x y : Int) (height : F) : Option (HeightMap F) :=
  if x < 0 ∨ x ≥ h._resolution ∨ y < 0 ∨ y ≥ h._resolution then
    some h
  else do
    let height_data ← vecSet h._height_data (h._index x y) height
    pure { h with _height_data := height_data }

/-- The method `HeightMap::get_normal`. -/
def HeightMap.get_normal (h : HeightMap F) (x y : Int) : Option (Vec3 F) :=
  if x < 0 ∨ x ≥ h._resolution ∨ y < 0 ∨ y ≥ h._resolution then
    some (Vec3.mk 0 1 0)
  else
    vecGet h._normals (h._index x y)

/-- The class invariant of `HeightMap`: both arrays hold `_resolution * _resolution` entries.
The constructor establishes it and `set_height` keeps it. -/
def HeightMap.WF (h : HeightMap F) : Prop :=
  h._height_data.length = (h._resolution * h._resolution).toNat ∧
  h._normals.length = (h._resolution * h._resolution).toNat

/-- The private helper `HeightMap::_apply_thermal_erosion(float talus_angle)`: its body is a
single `throw`. -/
def HeightMap._apply_thermal_erosion (_h : HeightMap F) (_talus_angle : F) :
    Except String (HeightMap F) :=
  throw "HeightMap::_apply_thermal_erosion not implemented"

/-! ## NoiseGenerator -/

/-- The private fields of `class NoiseGenerator`; the state of `std::mt19937` is
represented by the seed it was given. -/
structure NoiseGenerator where
  _random_generator : Nat
  _permutation_table : List Int

/-- The private method `NoiseGenerator::_initialize_permutation_table`. -/
def NoiseGenerator._initialize_permutation_table (_g : NoiseGenerator) :
    Except String NoiseGenerator :=
  throw "NoiseGenerator::_initialize_permutation_table not implemented"

/-- The constructor `NoiseGenerator::NoiseGenerator(unsigned int seed)`: it seeds the
generator and calls `_initialize_permutation_table`. -/
def NoiseGenerator.ctor (seed : Nat) : Except String NoiseGenerator :=
  NoiseGenerator._initialize_permutation_table
    { _random_generator := seed, _permutation_table := [] }

/-- The method `NoiseGenerator::perlin(float x, float y, float frequency)`. -/
def NoiseGenerator.perlin (_g : NoiseGenerator) (_x _y _frequency : F) : Except String F :=
  throw "NoiseGenerator::perlin not implemented"

/-- The overload `NoiseGenerator::perlin(float x, float y, float z, float frequency)`. -/
def NoiseGenerator.perlin3 (_g : NoiseGenerator) (_x _y _z _frequency : F) :
    Except String F :=
  throw "NoiseGenerator::perlin not implemented"

/-- The method `NoiseGenerator::simplex(float x, float y, float frequency)`. -/
def NoiseGenerator.simplex (_g : NoiseGenerator) (_x _y _frequency : F) : Except String F :=
  throw "NoiseGenerator::simplex not implemented"

/-- The overload `NoiseGenerator::simplex(float x, float y, float z, float frequency)`. -/
def NoiseGenerator.simplex3 (_g : NoiseGenerator) (_x _y _z _frequency : F) :
    Except String F :=
  throw "NoiseGenerator::simplex not implemented"

/-- The method `NoiseGenerator::fbm(float x, float y, int octaves, float persistence,
float lacunarity, float frequency)`. -/
def NoiseGenerator.fbm (_g : NoiseGenerator) (_x _y : F) (_octaves : Int)
    (_persistence _lacunarity _frequency : F) : Except String F :=
  throw "NoiseGenerator::fbm not implemented"

/-- The overload `NoiseGenerator::fbm(float x, float y, float z, int octaves, ...)`. -/
def NoiseGenerator.fbm3 (_g : NoiseGenerator) (_x _y _z : F) (_octaves : Int)
    (_persistence _lacunarity _frequency : F) : Except String F :=
  throw "NoiseGenerator::fbm not implemented"

/-- The method `NoiseGenerator::ridged_multi`. -/
def NoiseGenerator.ridged_multi (_g : NoiseGenerator) (_x _y : F) (_octaves : Int)
    (_persistence _lacunarity _frequency : F) : Except String F :=
  throw "NoiseGenerator::ridged_multi not implemented"

/-- The method `NoiseGenerator::worley(float x, float y, float frequency)`. -/
def NoiseGenerator.worley (_g : NoiseGenerator) (_x _y _frequency : F) : Except String F :=
  throw "NoiseGenerator::worley not implemented"

/-- The inline helper `NoiseGenerator::_fade(float t)`; it does not use the object. -/
def NoiseGenerator._fade (t : F) : F :=
  t * t * t * (t * (t * 6 - 15) + 10)

/-- The inline helper `NoiseGenerator::_lerp(float a, float b, float t)`. -/
def NoiseGenerator._lerp (a b t : F) : F :=
  a + t * (b - a)

/-! ## ProceduralTerrain: state and accessors -/

/-- The state of the member `std::mt19937 rng` as seen through
`std::uniform_real_distribution<float> dist(-1.0f, 1.0f)`: the sequence of values that
successive calls `dist(rng)` return, and the number of calls made so far. -/
structure Rng (F : Type) where
  stream : Nat → F
  pos : Nat

/-- One call `dist(rng)`: the drawn value and the advanced generator. -/
def dist (rng : Rng F) : F × Rng F :=
  (rng.stream rng.pos, { rng with pos := rng.pos + 1 })

/-- The private fields of `class ProceduralTerrain`. -/
structure ProceduralTerrain (F : Type) where
  width : Int
  height : Int
  heightmap : List F
  normals : List (Vec3 F)
  indexCount : Int
  rng : Rng F

/-- The constructor `ProceduralTerrain::ProceduralTerrain(int width, int height)`.
`now` is the reading of `std::chrono::high_resolution_clock` that seeds the generator, and
`gen s` is the sequence of draws of a generator seeded with `s` (the standard library's
`std::mt19937`, taken as a parameter). -/
def ProceduralTerrain.ctor (gen : Nat → Nat → F) (now : Nat) (width height : Int) :
    Option (ProceduralTerrain F) := do
  let heightmap ← vecResize (width * height) (0 : F)
  let normals ← vecResize (width * height) (Vec3.mk (0 : F) 1 0)
  pure { width := width, height := height, heightmap := heightmap, normals := normals,
         indexCount := 0, rng := { stream := gen now, pos := 0 } }

/-- The method `ProceduralTerrain::getHeight(int x, int z)`. -/
def ProceduralTerrain.getHeight (t : ProceduralTerrain F) (x z : Int) : Option F :=
  if x < 0 ∨ x ≥ t.width ∨ z < 0 ∨ z ≥ t.height then
    some 0
  else
    vecGet t.heightmap (z * t.width + x)

/-- The method `ProceduralTerrain::setHeight`. -/
def ProceduralTerrain.setHeight (t : ProceduralTerrain F) (x z : Int) (h : F) :
    Option (ProceduralTerrain F) :=
  if x < 0 ∨ x ≥ t.width ∨ z < 0 ∨ z ≥ t.height then
    some t
  else do
    let heightmap ← vecSet t.heightmap (z * t.width + x) h
    pure { t with heightmap := heightmap }

/-- The class invariant of `ProceduralTerrain`: both arrays hold `width * height` entries.
The constructor establishes it and no method changes a length. -/
def ProceduralTerrain.WF (t : ProceduralTerrain F) : Prop :=
  t.heightmap.length = (t.width * t.height).toNat ∧
  t.normals.length = (t.width * t.height).toNat

/-- A square terrain of side `size` that satisfies the class invariant. -/
def ProceduralTerrain.Square (size : Int) (t : ProceduralTerrain F) : Prop :=
  t.width = size ∧ t.height = size ∧ t.WF

/-- The entry `heightmap[z * width + x]` of the grid, read without a bounds test (0 where the
vector has no such entry). -/
def ProceduralTerrain.cell (t : ProceduralTerrain F) (x z : Int) : F :=
  t.heightmap.getD (z * t.width + x).toNat 0

/-- The value that `getHeight(x, z)` returns on a terrain satisfying the class invariant:
the grid entry inside the grid, 0 outside (`getHeight_eq_read`). -/
def ProceduralTerrain.read (t : ProceduralTerrain F) (x z : Int) : F :=
  if x < 0 ∨ x ≥ t.width ∨ z < 0 ∨ z ≥ t.height then 0 else t.cell x z

/-- The terrain `t'` is `t` with the grid entry `(x, z)` replaced by `v` and the generator
replaced by `rng`: same dimensions, normals and index count, class invariant kept. -/
def ProceduralTerrain.Writes (t : ProceduralTerrain F) (x z : Int) (v : F) (rng : Rng F)
    (t' : ProceduralTerrain F) : Prop :=
  t'.width = t.width ∧ t'.height = t.height ∧ t'.normals = t.normals ∧
  t'.indexCount = t.indexCount ∧ t'.rng = rng ∧ t'.WF ∧
  ∀ a b : Int, 0 ≤ a → a < t.width → 0 ≤ b → b < t.height →
    t'.cell a b = if a = x ∧ b = z then v else t.cell a b

/-! ## Loops -/

/-- The indices visited by `for (int i = start; i < bound; i += stride)`, in order.  The loop
is unrolled at most `fuel` times. -/
def forIndices : Nat → Int → Int → Int → List Int
  | 0, _, _, _ => []
  | fuel + 1, i, bound, stride =>
    if i < bound then i :: forIndices fuel (i + stride) bound stride else []

/-- The indices of `for (int i = start; i < bound; i += stride)`; for `stride ≥ 1` the loop
makes at most `bound - start` passes (`forIndices_fuel`). -/
def forLoop (start bound stride : Int) : List Int :=
  forIndices (bound - start).toNat start bound stride

/-! ## ProceduralTerrain::calculateNormals -/

/-- The body of the two loops of `calculateNormals` at `(x, z)`.  `normalize` is
`glm::normalize`. -/
def normalCell (normalize : Vec3 F → Vec3 F) (t : ProceduralTerrain F) (z x : Int) :
    Option (ProceduralTerrain F) := do
  let hL ← t.getHeight (x - 1) z
  let hR ← t.getHeight (x + 1) z
  let hD ← t.getHeight x (z - 1)
  let hU ← t.getHeight x (z + 1)
  let normal : Vec3 F := Vec3.mk (hL - hR) 2 (hD - hU)
  let normals ← vecSet t.normals (z * t.width + x) (normalize normal)
  pure { t with normals := normals }

/-- The method `ProceduralTerrain::calculateNormals`. -/
def ProceduralTerrain.calculateNormals (normalize : Vec3 F → Vec3 F)
    (t : ProceduralTerrain F) : Option (ProceduralTerrain F) :=
  (forLoop 0 t.height 1).foldlM
    (fun t z => (forLoop 0 t.width 1).foldlM (fun t x => normalCell normalize t z x) t) t

/-! ## ProceduralTerrain::generateDiamondSquare -/

/-- The body of the diamond step at `(x, z)`: the centre of the square with top-left corner
`(x, z)` becomes the mean of the four corners plus `fabs(dist(rng)) * scale`. -/
def diamondCell (step halfStep : Int) (scale : F) (t : ProceduralTerrain F) (z x : Int) :
    Option (ProceduralTerrain F) := do
  let h00 ← t.getHeight x z
  let h10 ← t.getHeight (x + step) z
  let h01 ← t.getHeight x (z + step)
  let h11 ← t.getHeight (x + step) (z + step)
  let avg : F := (h00 + h10 + h01 + h11) / 4
  let draw := dist t.rng
  let offset : F := |draw.1| * scale
  ({ t with rng := draw.2 }).setHeight (x + halfStep) (z + halfStep) (avg + offset)

/-- The diamond step of one round: the two loops over the top-left corners. -/
def diamondStep (size step halfStep : Int) (scale : F) (t : ProceduralTerrain F) :
    Option (ProceduralTerrain F) :=
  (forLoop 0 (size - 1) step).foldlM
    (fun t z => (forLoop 0 (size - 1) step).foldlM
      (fun t x => diamondCell step halfStep scale t z x) t) t

/-- One guarded neighbour of the square step: `if (guard) { avg += getHeight(x, z); count++; }`
on the pair `(avg, count)`. -/
def addNeighbour (t : ProceduralTerrain F) (guard : Bool) (x z : Int) (acc : F × Int) :
    Option (F × Int) :=
  if guard then do
    let h ← t.getHeight x z
    pure (acc.1 + h, acc.2 + 1)
  else
    pure acc

/-- The pair `(avg, count)` of the square step at `(x, z)` after its four guarded additions,
before the division. -/
def squareSum (size halfStep : Int) (t : ProceduralTerrain F) (z x : Int) :
    Option (F × Int) := do
  let acc ← addNeighbour t (decide (x ≥ halfStep)) (x - halfStep) z (0, 0)
  let acc ← addNeighbour t (decide (x + halfStep < size)) (x + halfStep) z acc
  let acc ← addNeighbour t (decide (z ≥ halfStep)) x (z - halfStep) acc
  addNeighbour t (decide (z + halfStep < size)) x (z + halfStep) acc

/-- The value of `avg` after `avg /= count` in the square step.  With `count == 0` the
division is `0.0f / 0`, which is not a finite number: no result. -/
def squareAverage (size halfStep : Int) (t : ProceduralTerrain F) (z x : Int) : Option F := do
  let acc ← squareSum size halfStep t z x
  if acc.2 = 0 then none else pure (acc.1 / (acc.2 : F))

/-- The body of the square step at `(x, z)`. -/
def squareCell (size halfStep : Int) (scale : F) (t : ProceduralTerrain F) (z x : Int) :
    Option (ProceduralTerrain F) := do
  let avg ← squareAverage size halfStep t z x
  let draw := dist t.rng
  let offset : F := draw.1 * scale
  ({ t with rng := draw.2 }).setHeight x z |avg + offset|

/-- The square step of one round. -/
def squareStep (size step halfStep : Int) (scale : F) (t : ProceduralTerrain F) :
    Option (ProceduralTerrain F) :=
  (forLoop 0 size halfStep).foldlM
    (fun t z => (forLoop (Int.tmod (z + halfStep) step) size step).foldlM
      (fun t x => squareCell size halfStep scale t z x) t) t

/-- The loop `while (step > 1) { ... }` of `generateDiamondSquare`, unrolled at most `fuel`
times; running out of fuel gives no result. -/
def diamondSquareLoop (size : Int) (roughness : F) :
    Nat → Int → F → ProceduralTerrain F → Option (ProceduralTerrain F)
  | 0, _, _, _ => none
  | fuel + 1, step, scale, t =>
    if step > 1 then do
      let halfStep := Int.tdiv step 2
      let t ← diamondStep size step halfStep scale t
      let t ← squareStep size step halfStep scale t
      diamondSquareLoop size roughness fuel halfStep (scale * roughness) t
    else
      pure t

/-- The method `ProceduralTerrain::generateDiamondSquare(float roughness, float maxHeight)`.
The `while` loop halves `step` in every pass, so `step` passes are enough. -/
def ProceduralTerrain.generateDiamondSquare (normalize : Vec3 F → Vec3 F)
    (t : ProceduralTerrain F) (roughness maxHeight : F) : Option (ProceduralTerrain F) := do
  let size := t.width
  let t ← t.setHeight 0 0 0
  let t ← t.setHeight 0 (size - 1) 0
  let t ← t.setHeight (size - 1) 0 0
  let t ← t.setHeight (size - 1) (size - 1) 0
  let step := size - 1
  let scale := maxHeight
  let t ← diamondSquareLoop size roughness (step.toNat + 1) step scale t
  t.calculateNormals normalize

/-- One run of the application (`MountainViz/src/main.cpp`, at start-up and at every
regeneration): `ProceduralTerrain terrain(size, size);` followed by
`terrain.generateDiamondSquare(roughness, height);`.  The result is the height grid.  The
arguments of the run are `size`, `roughness` and `maxHeight`; `now` is the clock reading at
construction, `gen` and `normalize` are the library. -/
def generateTerrain (gen : Nat → Nat → F) (normalize : Vec3 F → Vec3 F) (now : Nat)
    (size : Int) (roughness maxHeight : F) : Option (List F) := do
  let terrain ← ProceduralTerrain.ctor gen now size size
  let terrain ← terrain.generateDiamondSquare normalize roughness maxHeight
  pure terrain.heightmap

/-! ## The rounds of the `while` loop -/

/-- The values of `(step, scale)` at the entry of the successive rounds of the loop
`while (step > 1) { ...; scale *= roughness; step = halfStep; }`, at most `fuel` of them. -/
def roundSchedule (roughness : F) : Nat → Int → F → List (Int × F)
  | 0, _, _ => []
  | fuel + 1, step, scale =>
    if step > 1 then
      (step, scale) :: roundSchedule roughness fuel (Int.tdiv step 2) (scale * roughness)
    else
      []

/-- The body of one round of the loop, entered with `(step, scale) = p`: the diamond step,
then the square step. -/
def roundBody (size : Int) (t : ProceduralTerrain F) (p : Int × F) :
    Option (ProceduralTerrain F) := do
  let halfStep := Int.tdiv p.1 2
  let t ← diamondStep size p.1 halfStep p.2 t
  squareStep size p.1 halfStep p.2 t

/-! ## Normals -/

/-- The library function `glm::dot` on `glm::vec3`. -/
def dot (u v : Vec3 F) : F :=
  u.x * v.x + u.y * v.y + u.z * v.z

/-- The function `sqrt` is a square root on the non-negative numbers (as `std::sqrt` is in
exact real arithmetic). -/
def IsSqrt (sqrt : F → F) : Prop :=
  ∀ a : F, 0 ≤ a → 0 ≤ sqrt a ∧ sqrt a * sqrt a = a

/-- Modelled from the spec: `glm::normalize` is a library function that is not part of the
sources; the spec asks for the difference vector "normalized", to unit length.  As in the
library, the vector is multiplied by the inverse square root of its dot product with
itself; the square root is a parameter. -/
def glmNormalize (sqrt : F → F) (v : Vec3 F) : Vec3 F :=
  Vec3.mk (v.x * (1 / sqrt (dot v v))) (v.y * (1 / sqrt (dot v v)))
    (v.z * (1 / sqrt (dot v v)))

/-- The vector that `calculateNormals` normalises at `(x, z)`, in terms of what `getHeight`
returns on the grid of `t`: `(hL - hR, 2, hD - hU)`. -/
def slopeVector (t : ProceduralTerrain F) (x z : Int) : Vec3 F :=
  Vec3.mk (t.read (x - 1) z - t.read (x + 1) z) 2 (t.read x (z - 1) - t.read x (z + 1))

/-- The slope vector at `(x, z)` with replicate-clamped neighbour access, in the words of the
spec: the height used for a neighbour that lies outside the grid is the height of the
nearest cell of the grid. -/
def clampedSlopeVector (t : ProceduralTerrain F) (x z : Int) : Vec3 F :=
  Vec3.mk (t.cell (max (x - 1) 0) z - t.cell (min (x + 1) (t.width - 1)) z) 2
    (t.cell x (max (z - 1) 0) - t.cell x (min (z + 1) (t.height - 1)))

/-! ## The neighbourhood of a square-step cell -/

/-- The coordinates that the square step reads at `(x, z)`: one entry for each of the four
guards of the source that holds, in the order of the source. -/
def squareReads (size halfStep x z : Int) : List (Int × Int) :=
  (if x ≥ halfStep then [(x - halfStep, z)] else []) ++
  (if x + halfStep < size then [(x + halfStep, z)] else []) ++
  (if z ≥ halfStep then [(x, z - halfStep)] else []) ++
  (if z + halfStep < size then [(x, z + halfStep)] else [])

/-- The mean that the square step computes at `(x, z)`: the sum of the values read at
`squareReads`, divided by their number. -/
def squareMean (size halfStep : Int) (t : ProceduralTerrain F) (x z : Int) : F :=
  ((squareReads size halfStep x z).map (fun p => t.read p.1 p.2)).sum /
    (((squareReads size halfStep x z).length : Int) : F)

/-- The coordinates that the diamond step reads at `(x, z)`: the four corners of the square
with top-left corner `(x, z)`. -/
def diamondReads (step x z : Int) : List (Int × Int) :=
  [(x, z), (x + step, z), (x, z + step), (x + step, z + step)]

/-- The four neighbours of `(x, z)` at distance `d`: left, right, up, down. -/
def neighbours4 (d x z : Int) : List (Int × Int) :=
  [(x - d, z), (x + d, z), (x, z - d), (x, z + d)]

/-- The coordinate `p` lies inside the square grid of side `size`. -/
def inGrid (size : Int) (p : Int × Int) : Bool :=
  decide (0 ≤ p.1 ∧ p.1 < size ∧ 0 ≤ p.2 ∧ p.2 < size)

/-- The in-bounds subset of the four neighbours of `(x, z)` at distance `d`. -/
def inBoundsNeighbours (size d x z : Int) : List (Int × Int) :=
  (neighbours4 d x z).filter (inGrid size)

/-- The cell `(x, z)` is one of the four corners of the grid of side `size`. -/
def isCorner (size x z : Int) : Prop :=
  (x = 0 ∨ x = size - 1) ∧ (z = 0 ∨ z = size - 1)

instance (size x z : Int) : Decidable (isCorner size x z) :=
  inferInstanceAs (Decidable ((x = 0 ∨ x = size - 1) ∧ (z = 0 ∨ z = size - 1)))

/-- The four corner entries of the grid of the square terrain `t` are 0. -/
def CornersZero (size : Int) (t : ProceduralTerrain F) : Prop :=
  t.Square size ∧
  ∀ a b : Int, 0 ≤ a → a < size → 0 ≤ b → b < size → isCorner size a b → t.cell a b = 0

/-- Every value that the generator of `t` can draw lies in `[-1, 1]`. -/
def DrawsBounded (t : ProceduralTerrain F) : Prop :=
  ∀ k : Nat, |t.rng.stream k| ≤ 1

/-- Every entry of the grid of `t` at a position whose coordinates are both multiples of `s`
lies in `[lo, hi]`. -/
def LatticeWithin (size s : Int) (lo hi : F) (t : ProceduralTerrain F) : Prop :=
  ∀ a b : Int, 0 ≤ a → a < size → 0 ≤ b → b < size → s ∣ a → s ∣ b →
    lo ≤ t.cell a b ∧ t.cell a b ≤ hi

/-- The entry of the grid of `t` at the position `c`, if `c` lies in the grid of side `size`,
lies in `[lo, hi]`. -/
def CellWithin (size : Int) (lo hi : F) (t : ProceduralTerrain F) (c : Int × Int) : Prop :=
  0 ≤ c.1 → c.1 < size → 0 ≤ c.2 → c.2 < size → lo ≤ t.cell c.1 c.2 ∧ t.cell c.1 c.2 ≤ hi

/-- Two terrains hold the same grid and will draw the same values: same dimensions, same
height grid, normal arrays of the same length, and generators whose future draws agree.
The normals, the index count and the past of the generators may differ. -/
def SameGrid (t₁ t₂ : ProceduralTerrain F) : Prop :=
  t₁.width = t₂.width ∧ t₁.height = t₂.height ∧ t₁.heightmap = t₂.heightmap ∧
  t₁.normals.length = t₂.normals.length ∧
  ∀ k : Nat, t₁.rng.stream (t₁.rng.pos + k) = t₂.rng.stream (t₂.rng.pos + k)

/-- Two calls both return, with results related by `R`, or both have no result. -/
def BothOrNeither {α : Type} (R : α → α → Prop) : Option α → Option α → Prop
  | some a, some b => R a b
  | none, none => True
  | _, _ => False

/-- The terrain `t` satisfies the class invariant and has the dimensions `w` and `h`. -/
def Sized (w h : Int) (t : ProceduralTerrain F) : Prop :=
  t.WF ∧ t.width = w ∧ t.height = h

/-- The shape of one round: `step` is twice `halfStep`, at least 2, and divides `size - 1`. -/
structure RoundShape (size step halfStep : Int) : Prop where
  half_pos : 1 ≤ halfStep
  step_eq : step = 2 * halfStep
  step_dvd : step ∣ size - 1
  size_pos : 0 < size - 1

/-! ## The writes of generateDiamondSquare, one by one -/

/-- One write of `generateDiamondSquare` to the height grid: one of the four corner writes
that precede the loop, one pass of the body of the diamond step, or one pass of the body of
the square step. -/
inductive CellOp (F : Type) where
  | seed (x z : Int)
  | diamond (step halfStep : Int) (scale : F) (z x : Int)
  | square (size halfStep : Int) (scale : F) (z x : Int)

/-- The code that the operation executes. -/
def CellOp.run : CellOp F → ProceduralTerrain F → Option (ProceduralTerrain F)
  | CellOp.seed x z, t => t.setHeight x z 0
  | CellOp.diamond step halfStep scale z x, t => diamondCell step halfStep scale t z x
  | CellOp.square size halfStep scale z x, t => squareCell size halfStep scale t z x

/-- The cell that the operation passes to `setHeight`. -/
def CellOp.target : CellOp F → Int × Int
  | CellOp.seed x z => (x, z)
  | CellOp.diamond _ halfStep _ z x => (x + halfStep, z + halfStep)
  | CellOp.square _ _ _ z x => (x, z)

/-- The cells whose height the operation reads with `getHeight`. -/
def CellOp.reads : CellOp F → List (Int × Int)
  | CellOp.seed _ _ => []
  | CellOp.diamond step _ _ z x => diamondReads step x z
  | CellOp.square size halfStep _ z x => squareReads size halfStep x z

/-- The four corner writes `setHeight(0, 0, 0); ...; setHeight(size-1, size-1, 0);`. -/
def seedOps (size : Int) : List (CellOp F) :=
  [CellOp.seed 0 0, CellOp.seed 0 (size - 1), CellOp.seed (size - 1) 0,
    CellOp.seed (size - 1) (size - 1)]

/-- The passes of the two loops of the diamond step, in the order of execution. -/
def diamondOps (size step halfStep : Int) (scale : F) : List (CellOp F) :=
  (forLoop 0 (size - 1) step).flatMap
    (fun z => (forLoop 0 (size - 1) step).map (fun x => CellOp.diamond step halfStep scale z x))

/-- The passes of the two loops of the square step, in the order of execution. -/
def squareOps (size step halfStep : Int) (scale : F) : List (CellOp F) :=
  (forLoop 0 size halfStep).flatMap
    (fun z => (forLoop (Int.tmod (z + halfStep) step) size step).map
      (fun x => CellOp.square size halfStep scale z x))

/-- The passes of one round of the `while` loop, entered with `(step, scale) = p`. -/
def roundOps (size : Int) (p : Int × F) : List (CellOp F) :=
  diamondOps size p.1 (Int.tdiv p.1 2) p.2 ++ squareOps size p.1 (Int.tdiv p.1 2) p.2

/-- The passes of the whole `while` loop. -/
def loopOps (size : Int) (roughness maxHeight : F) : List (CellOp F) :=
  (roundSchedule roughness ((size - 1).toNat + 1) (size - 1) maxHeight).flatMap (roundOps size)

/-- All writes of `generateDiamondSquare` to the height grid, in the order of execution. -/
def runOps (size : Int) (roughness maxHeight : F) : List (CellOp F) :=
  seedOps size ++ loopOps size roughness maxHeight

/-- Execution of a list of operations, one after the other. -/
def runAll (ops : List (CellOp F)) (t : ProceduralTerrain F) : Option (ProceduralTerrain F) :=
  ops.foldlM (fun t op => op.run t) t

/-- No entry of the height grid of `t` is negative. -/
def NonNeg (t : ProceduralTerrain F) : Prop :=
  ∀ v ∈ t.heightmap, 0 ≤ v

/-- A 4 x 4 terrain (a size that is not of the form `2 ^ n + 1`) whose grid holds zeros and
whose generator draws the constant `c`. -/
def sampleTerrain4 (c : ℚ) : ProceduralTerrain ℚ :=
  { width := 4, height := 4, heightmap := List.replicate 16 0,
    normals := List.replicate 16 (Vec3.mk 0 1 0), indexCount := 0,
    rng := { stream := fun _ => c, pos := 0 } }

/-! ## ProceduralTerrain::createMesh -/

/-- The conversion of an `int` value to `unsigned int` (32 bits). -/
def toUnsigned (i : Int) : Nat :=
  (i % 2 ^ 32).toNat

/-- The body of the two vertex loops of `createMesh` at `(x, z)`: six `push_back` calls. -/
def meshVertex (t : ProceduralTerrain F) (z x : Int) (vertices : List F) : Option (List F) := do
  let h ← t.getHeight x z
  let normal ← vecGet t.normals (z * t.width + x)
  pure (vertices ++ [(x : F), h, (z : F), normal.x, normal.y, normal.z])

/-- The body of the two index loops of `createMesh` at `(x, z)`: six `push_back` calls; the
four corner indices are `unsigned int`. -/
def meshQuad (t : ProceduralTerrain F) (z x : Int) (indices : List Nat) : List Nat :=
  let topLeft := toUnsigned (z * t.width + x)
  let topRight := (topLeft + 1) % 2 ^ 32
  let bottomLeft := toUnsigned ((z + 1) * t.width + x)
  let bottomRight := (bottomLeft + 1) % 2 ^ 32
  indices ++ [topLeft, bottomLeft, bottomRight, topLeft, bottomRight, topRight]

/-- The conversion of a `size_t` value to `int` (32 bits, two's complement): the value is
reduced modulo `2 ^ 32` into `[-2 ^ 31, 2 ^ 31)`. -/
def sizeToInt (n : Nat) : Int :=
  ((n : Int) + 2 ^ 31) % 2 ^ 32 - 2 ^ 31

/-- The method `ProceduralTerrain::createMesh(vertices, indices)`: the terrain afterwards
and the contents of the two output vectors, which are cleared first.  The statement
`indexCount = indices.size();` converts a `size_t` to the `int` member. -/
def ProceduralTerrain.createMesh (t : ProceduralTerrain F) :
    Option (ProceduralTerrain F × List F × List Nat) := do
  let vertices ← (forLoop 0 t.height 1).foldlM
    (fun vs z => (forLoop 0 t.width 1).foldlM (fun vs x => meshVertex t z x vs) vs) []
  let indices := (forLoop 0 (t.height - 1) 1).foldl
    (fun is z => (forLoop 0 (t.width - 1) 1).foldl (fun is x => meshQuad t z x is) is) []
  pure ({ t with indexCount := sizeToInt indices.length }, vertices, indices)

/-! ## SceneConfig -/

/-- A C array `float a[3]`.  An index outside `0..2` is undefined behaviour in C++; it is
modelled by `none`. -/
structure Arr3 (F : Type) where
  a0 : F
  a1 : F
  a2 : F
deriving DecidableEq

/-- The read `a[i]` of a `float[3]`. -/
def Arr3.get (a : Arr3 F) (i : Int) : Option F :=
  if i = 0 then some a.a0 else if i = 1 then some a.a1 else if i = 2 then some a.a2 else none

/-- The write `a[i] = v` of a `float[3]`. -/
def Arr3.set (a : Arr3 F) (i : Int) (v : F) : Option (Arr3 F) :=
  if i = 0 then some { a with a0 := v }
  else if i = 1 then some { a with a1 := v }
  else if i = 2 then some { a with a2 := v }
  else none

/-- The library function `glm::clamp(x, lo, hi)`. -/
def glmClamp (x lo hi : F) : F :=
  min (max x lo) hi

/-- The struct `SceneConfig::GeneralSettings`. -/
structure GeneralSettings (F : Type) where
  scene_name : String
  scene_description : String
  global_scale : F
  random_seed : Nat
  time_of_day : F
  enable_simulation : Bool
  simulation_speed : F

/-- The struct `SceneConfig::WindowSettings`. -/
structure WindowSettings (F : Type) where
  width : Int
  height : Int
  fullscreen : Bool
  title : String
  vsync : Bool
  msaa_samples : Int
  bg_clear_color : F × F × F × F

/-- The struct `SceneConfig::UISettings`. -/
structure UISettings (F : Type) where
  show_ui : Bool
  show_fps : Bool
  show_coords : Bool
  show_control_help : Bool
  ui_scale : F
  dark_theme : Bool
  show_debug_info : Bool

/-- The struct `SceneConfig::TerrainSettings`. -/
structure TerrainSettings (F : Type) where
  enabled : Bool
  base_height : F
  height_scale : F
  resolution : Int
  height_map_path : String
  use_procedural_terrain : Bool
  base_color : Arr3 F
  roughness : F
  lod_levels : Int
  lod_distance : F
  wireframe : Bool

/-- The struct `SceneConfig::CameraSettings`. -/
structure CameraSettings (F : Type) where
  initial_position : Vec3 F
  initial_target : Vec3 F
  view_field : F
  near_plane : F
  far_plane : F
  move_speed : F
  rotate_speed : F
  zoom_speed : F
  invert_y : Bool
  terrain_follow : Bool
  terrain_offset : F

/-- The struct `SceneConfig::LightingSettings`. -/
structure LightingSettings (F : Type) where
  enable_shadows : Bool
  shadow_map_resolution : Int
  ambient_color : Arr3 F
  ambient_intensity : F
  sun_direction : Arr3 F
  sun_color : Arr3 F
  sun_intensity : F
  dynamic_time_of_day : Bool
  fog_density : F
  fog_color : Arr3 F

/-- The struct `SceneConfig`. -/
structure SceneConfig (F : Type) where
  general : GeneralSettings F
  window : WindowSettings F
  ui : UISettings F
  terrain : TerrainSettings F
  camera : CameraSettings F
  lighting : LightingSettings F

/-- The default member initialisers of `SceneConfig` (`SceneConfig() = default`).  The
initialiser `int shadow_map_resolution = 0.2f` converts to 0. -/
def SceneConfig.defaults : SceneConfig F :=
  { general := { scene_name := "Default Landscape", scene_description := "",
                 global_scale := 1, random_seed := 12345, time_of_day := 12,
                 enable_simulation := false, simulation_speed := 1 },
    window := { width := 1200, height := 720, fullscreen := false,
                title := "Himalayan Landscape", vsync := true, msaa_samples := 4,
                bg_clear_color := (1 / 5, 3 / 10, 2 / 5, 1) },
    ui := { show_ui := true, show_fps := true, show_coords := true,
            show_control_help := true, ui_scale := 1, dark_theme := true,
            show_debug_info := false },
    terrain := { enabled := true, base_height := 0, height_scale := 500, resolution := 1024,
                 height_map_path := "", use_procedural_terrain := true,
                 base_color := Arr3.mk (1 / 5) (1 / 2) (1 / 5), roughness := 7 / 10,
                 lod_levels := 5, lod_distance := 500, wireframe := false },
    camera := { initial_position := Vec3.mk 0 100 500, initial_target := Vec3.mk 0 0 0,
                view_field := 60, near_plane := 1 / 10, far_plane := 10000,
                move_speed := 100, rotate_speed := 1 / 10, zoom_speed := 10,
                invert_y := false, terrain_follow := false, terrain_offset := 10 },
    lighting := { enable_shadows := true, shadow_map_resolution := 0,
                  ambient_color := Arr3.mk 1 (9 / 10) (4 / 5), ambient_intensity := 1 / 5,
                  sun_direction := Arr3.mk (1 / 2) (-4 / 5) (1 / 5),
                  sun_color := Arr3.mk 1 (9 / 10) (4 / 5), sun_intensity := 1,
                  dynamic_time_of_day := false, fog_density := 1 / 500,
                  fog_color := Arr3.mk (4 / 5) (9 / 10) 1 } }

/-- One statement `if (cond) { fix; valid = false; }` of `SceneConfig::validate`, on the pair
of the local `valid` and the object. -/
def checkStmt (cond : SceneConfig F → Bool) (fix : SceneConfig F → SceneConfig F)
    (s : Bool × SceneConfig F) : Bool × SceneConfig F :=
  if cond s.2 then (false, fix s.2) else s

/-- The checks of `validate` on `general`.  `fmod` is the library function. -/
def validateGeneral (fmod : F → F → F) (s : Bool × SceneConfig F) : Bool × SceneConfig F :=
  let s := checkStmt (fun c : SceneConfig F => decide (c.general.global_scale ≤ 0))
    (fun c : SceneConfig F => { c with general := { c.general with global_scale := 1 } }) s
  let s := checkStmt (fun c : SceneConfig F => decide (c.general.time_of_day < 0 ∨ c.general.time_of_day > 24))
    (fun c : SceneConfig F =>
      let c1 := { c with general :=
        { c.general with time_of_day := fmod c.general.time_of_day 24 } }
      if c1.general.time_of_day < 0 then
        { c1 with general := { c1.general with time_of_day := c1.general.time_of_day + 24 } }
      else c1) s
  checkStmt (fun c : SceneConfig F => decide (c.general.simulation_speed < 0))
    (fun c : SceneConfig F => { c with general := { c.general with simulation_speed := 1 } }) s

/-- The checks of `validate` on `window`. -/
def validateWindow (s : Bool × SceneConfig F) : Bool × SceneConfig F :=
  let s := checkStmt (fun c : SceneConfig F => decide (c.window.width < 320))
    (fun c : SceneConfig F => { c with window := { c.window with width := 320 } }) s
  let s := checkStmt (fun c : SceneConfig F => decide (c.window.height < 240))
    (fun c : SceneConfig F => { c with window := { c.window with height := 240 } }) s
  let s := checkStmt (fun c : SceneConfig F => decide (c.window.msaa_samples < 0))
    (fun c : SceneConfig F => { c with window := { c.window with msaa_samples := 0 } }) s
  checkStmt (fun c : SceneConfig F => decide (c.window.msaa_samples > 16))
    (fun c : SceneConfig F => { c with window := { c.window with msaa_samples := 16 } }) s

/-- The check of `validate` on `ui`. -/
def validateUi (s : Bool × SceneConfig F) : Bool × SceneConfig F :=
  checkStmt (fun c : SceneConfig F => decide (c.ui.ui_scale ≤ 0))
    (fun c : SceneConfig F => { c with ui := { c.ui with ui_scale := 1 } }) s

/-- The statement of `validate` on `terrain.lod_levels`:
`if (lod_levels < 1) { lod_levels = 1; valid = false; }
 else if (lod_levels > 0) { lod_levels = 8; valid = false; }`. -/
def validateLodLevels (s : Bool × SceneConfig F) : Bool × SceneConfig F :=
  if s.2.terrain.lod_levels < 1 then
    (false, { s.2 with terrain := { s.2.terrain with lod_levels := 1 } })
  else if s.2.terrain.lod_levels > 0 then
    (false, { s.2 with terrain := { s.2.terrain with lod_levels := 8 } })
  else s

/-- The checks of `validate` on the scalar members of `terrain`. -/
def validateTerrain (s : Bool × SceneConfig F) : Bool × SceneConfig F :=
  let s := checkStmt (fun c : SceneConfig F => decide (c.terrain.height_scale ≤ 0))
    (fun c : SceneConfig F => { c with terrain := { c.terrain with height_scale := 1 } }) s
  let s := checkStmt (fun c : SceneConfig F => decide (c.terrain.roughness < 0 ∨ c.terrain.roughness > 1))
    (fun c : SceneConfig F => { c with terrain :=
      { c.terrain with roughness := glmClamp c.terrain.roughness 0 1 } }) s
  let s := validateLodLevels s
  checkStmt (fun c : SceneConfig F => decide (c.terrain.lod_distance ≤ 0))
    (fun c : SceneConfig F => { c with terrain := { c.terrain with lod_distance := 100 } }) s

/-- The checks of `validate` on `camera`. -/
def validateCamera (s : Bool × SceneConfig F) : Bool × SceneConfig F :=
  let s := checkStmt (fun c : SceneConfig F => decide (c.camera.view_field ≤ 0 ∨ c.camera.view_field > 100))
    (fun c : SceneConfig F => { c with camera :=
      { c.camera with view_field := glmClamp c.camera.view_field 1 179 } }) s
  let s := checkStmt (fun c : SceneConfig F => decide (c.camera.near_plane ≤ 0))
    (fun c : SceneConfig F => { c with camera := { c.camera with near_plane := 1 / 10 } }) s
  let s := checkStmt (fun c : SceneConfig F => decide (c.camera.far_plane ≤ c.camera.near_plane))
    (fun c : SceneConfig F => { c with camera := { c.camera with far_plane := 1000 * c.camera.near_plane } }) s
  let s := checkStmt (fun c : SceneConfig F => decide (c.camera.rotate_speed ≤ 0))
    (fun c : SceneConfig F => { c with camera := { c.camera with rotate_speed := 1 / 10 } }) s
  let s := checkStmt (fun c : SceneConfig F => decide (c.camera.zoom_speed ≤ 0))
    (fun c : SceneConfig F => { c with camera := { c.camera with zoom_speed := 1 } }) s
  checkStmt (fun c : SceneConfig F => decide (c.camera.terrain_offset < 0))
    (fun c : SceneConfig F => { c with camera := { c.camera with terrain_offset := 1 } }) s

/-- The statement of `validate` that bounds `lighting.shadow_map_resolution`:
`if (r < 512) { r = 512; valid = false; } else if (r > 8192) { r = 8192; valid = false; }`. -/
def validateShadowRange (s : Bool × SceneConfig F) : Bool × SceneConfig F :=
  if s.2.lighting.shadow_map_resolution < 512 then
    (false, { s.2 with lighting := { s.2.lighting with shadow_map_resolution := 512 } })
  else if s.2.lighting.shadow_map_resolution > 8192 then
    (false, { s.2 with lighting := { s.2.lighting with shadow_map_resolution := 8192 } })
  else s

/-- The checks of `validate` on the scalar members of `lighting`.  `ceilLog2 r` is
`static_cast<int>(ceil(log2(r)))`, and `1 << k` is `2 ^ k`. -/
def validateLighting (ceilLog2 : Int → Int) (s : Bool × SceneConfig F) :
    Bool × SceneConfig F :=
  let s := validateShadowRange s
  let s := checkStmt
    (fun c : SceneConfig F => decide (Int.land c.lighting.shadow_map_resolution
      (c.lighting.shadow_map_resolution - 1) ≠ 0))
    (fun c : SceneConfig F => { c with lighting := { c.lighting with
      shadow_map_resolution := 2 ^ (ceilLog2 c.lighting.shadow_map_resolution).toNat } }) s
  let s := checkStmt (fun c : SceneConfig F => decide (c.lighting.ambient_intensity < 0))
    (fun c : SceneConfig F => { c with lighting := { c.lighting with ambient_intensity := 0 } }) s
  let s := checkStmt (fun c : SceneConfig F => decide (c.lighting.sun_intensity < 0))
    (fun c : SceneConfig F => { c with lighting := { c.lighting with sun_intensity := 0 } }) s
  checkStmt (fun c : SceneConfig F => decide (c.lighting.fog_density < 0))
    (fun c : SceneConfig F => { c with lighting := { c.lighting with fog_density := 0 } }) s

/-- The scalar checks of `validate` (the statements before the colour loop), started with
`valid = true`: the value of `valid` and the object after them. -/
def validateSettings (fmod : F → F → F) (ceilLog2 : Int → Int) (c : SceneConfig F) :
    Bool × SceneConfig F :=
  validateLighting ceilLog2 (validateCamera (validateTerrain (validateUi (validateWindow
    (validateGeneral fmod (true, c))))))

/-- The body of the colour loop of `validate` at index `i`: four clamped array elements. -/
def clampColorsAt (c : SceneConfig F) (i : Int) : Option (SceneConfig F) := do
  let v ← c.terrain.base_color.get i
  let base_color ← c.terrain.base_color.set i (glmClamp v 0 1)
  let c := { c with terrain := { c.terrain with base_color := base_color } }
  let v ← c.lighting.ambient_color.get i
  let ambient_color ← c.lighting.ambient_color.set i (glmClamp v 0 1)
  let c := { c with lighting := { c.lighting with ambient_color := ambient_color } }
  let v ← c.lighting.sun_color.get i
  let sun_color ← c.lighting.sun_color.set i (glmClamp v 0 1)
  let c := { c with lighting := { c.lighting with sun_color := sun_color } }
  let v ← c.lighting.fog_color.get i
  let fog_color ← c.lighting.fog_color.set i (glmClamp v 0 1)
  pure { c with lighting := { c.lighting with fog_color := fog_color } }

/-- The indices of the colour loop of `validate`: `for (int i = 0; i < 4; i++)`. -/
def colorLoopIndices : List Int :=
  forLoop 0 4 1

/-- The colour loop of `validate`. -/
def clampColors (c : SceneConfig F) : Option (SceneConfig F) :=
  colorLoopIndices.foldlM clampColorsAt c

/-- The last statements of `validate`: the sun direction is divided by its norm, or replaced
by `(0, -1, 0)` when the norm is at most 0.0001.  `sqrt` is the library function. -/
def normalizeSun (sqrt : F → F) (s : Bool × SceneConfig F) : Bool × SceneConfig F :=
  let d := s.2.lighting.sun_direction
  let norm_sun_dir := sqrt (d.a0 * d.a0 + d.a1 * d.a1 + d.a2 * d.a2)
  if norm_sun_dir > 1 / 10000 then
    (s.1, { s.2 with lighting := { s.2.lighting with
      sun_direction := Arr3.mk (d.a0 / norm_sun_dir) (d.a1 / norm_sun_dir)
        (d.a2 / norm_sun_dir) } })
  else
    (false, { s.2 with lighting := { s.2.lighting with sun_direction := Arr3.mk 0 (-1) 0 } })

/-- The method `SceneConfig::validate`: the returned `bool` and the object afterwards. -/
def SceneConfig.validate (fmod : F → F → F) (sqrt : F → F) (ceilLog2 : Int → Int)
    (c : SceneConfig F) : Option (Bool × SceneConfig F) := do
  let s := validateSettings fmod ceilLog2 c
  let c ← clampColors s.2
  pure (normalizeSun sqrt (s.1, c))

/-! ## The application's grid size -/

/-- The default of `Config::terrain.size` (`MountainViz/include/Config.h`). -/
def terrainSizeDefault : Int := 256

/-- The lower bound of the "Resolution" slider (`ImGui::SliderInt` in `render_imgui`). -/
def resolutionSliderMin : Int := 64

/-- The upper bound of the "Resolution" slider. -/
def resolutionSliderMax : Int := 512

/-- The size is of the form `2 ^ n + 1` with `n ≥ 1`. -/
def IsPowPlusOne (size : Int) : Prop :=
  ∃ n : Nat, 1 ≤ n ∧ size = 2 ^ n + 1

/-- The cell `(x, z)` lies in the grid of side `size` and is not one of its corners. -/
def NonCorner (size : Int) (c : Int × Int) : Prop :=
  0 ≤ c.1 ∧ c.1 < size ∧ 0 ≤ c.2 ∧ c.2 < size ∧ ¬ isCorner size c.1 c.2

instance (size : Int) (c : Int × Int) : Decidable (NonCorner size c) :=
  inferInstanceAs (Decidable (0 ≤ c.1 ∧ c.1 < size ∧ 0 ≤ c.2 ∧ c.2 < size ∧
    ¬ isCorner size c.1 c.2))

/-- The level of a cell is `k`: `2 ^ k` is the largest power of two that divides both of its
coordinates. -/
def HasLevel (k : Nat) (c : Int × Int) : Prop :=
  (2 : Int) ^ k ∣ c.1 ∧ (2 : Int) ^ k ∣ c.2 ∧ ¬ ((2 : Int) ^ (k + 1) ∣ c.1 ∧ (2 : Int) ^ (k + 1) ∣ c.2)

/-- The mean of the heights that the terrain `s` holds at the cells that the operation
reads: their sum divided by their number. -/
def CellOp.mean (s : ProceduralTerrain F) (op : CellOp F) : F :=
  (op.reads.map (fun p => s.cell p.1 p.2)).sum / ((op.reads.length : Int) : F)

/-- The height that the operation stores at its target when it is executed on the terrain
`s`, in terms of the heights of the cells it reads and of the next draw: 0 for a corner
write, the mean plus `fabs(draw) * scale` for a diamond operation, the absolute value of the
mean plus `draw * scale` for a square operation. -/
def CellOp.written (s : ProceduralTerrain F) : CellOp F → F
  | CellOp.seed _ _ => 0
  | CellOp.diamond step halfStep scale z x =>
    CellOp.mean s (CellOp.diamond step halfStep scale z x) + |(dist s.rng).1| * scale
  | CellOp.square size halfStep scale z x =>
    |CellOp.mean s (CellOp.square size halfStep scale z x) + (dist s.rng).1 * scale|

/-! ## Concrete objects used to run the definitions -/

/-- A 2 x 2 height map with four different elevations. -/
def sampleMap : HeightMap ℚ :=
  { _resolution := 2, _height_data := [1, 2, 3, 4],
    _normals := List.replicate 4 (Vec3.mk 0 1 0) }

/-- A 3 x 3 terrain whose generator draws the constant `c`. -/
def sampleTerrain (c : ℚ) : ProceduralTerrain ℚ :=
  { width := 3, height := 3, heightmap := List.replicate 9 0,
    normals := List.replicate 9 (Vec3.mk 0 1 0), indexCount := 0,
    rng := { stream := fun _ => c, pos := 0 } }

/-- A 5 x 5 terrain whose generator draws the constant `c`. -/
def sampleTerrain5 (c : ℚ) : ProceduralTerrain ℚ :=
  { width := 5, height := 5, heightmap := List.replicate 25 0,
    normals := List.replicate 25 (Vec3.mk 0 1 0), indexCount := 0,
    rng := { stream := fun _ => c, pos := 0 } }

/-- The 3 x 3 terrain `sampleTerrain 1` after other use: same grid and same future draws,
but other normals, another index count and a generator that has already drawn 5 values. -/
def sampleTerrainUsed : ProceduralTerrain ℚ :=
  { width := 3, height := 3, heightmap := List.replicate 9 0,
    normals := List.replicate 9 (Vec3.mk 1 0 0), indexCount := 7,
    rng := { stream := fun _ => 1, pos := 5 } }

/-- A 3 x 3 terrain whose grid holds the height `h` everywhere and whose generator draws
the constant `c`. -/
def plateauTerrain (h c : F) : ProceduralTerrain F :=
  { width := 3, height := 3, heightmap := List.replicate 9 h,
    normals := List.replicate 9 (Vec3.mk 0 1 0), indexCount := 0,
    rng := { stream := fun _ => c, pos := 0 } }

/-- A generator whose draws depend on the parity of its seed: every draw is 1 for an even
seed and 1/2 for an odd seed. -/
def sampleGen (seed : Nat) (_ : Nat) : ℚ :=
  if seed % 2 = 0 then 1 else 1 / 2

/-! # Theorems -/

/-! ## Index arithmetic of a row-major grid -/

theorem index_nonneg {w x z : Int} (hx : 0 ≤ x) (hxw : x < w) (hz : 0 ≤ z) :
    0 ≤ z * w + x := by
  have hw : 0 ≤ w := by omega
  have := mul_nonneg hz hw
  omega

theorem index_lt {w h x z : Int} (hx : 0 ≤ x) (hxw : x < w) (hzh : z < h) :
    z * w + x < w * h := by
  have hw : 0 ≤ w := by omega
  have h1 : z * w ≤ (h - 1) * w := mul_le_mul_of_nonneg_right (by omega) hw
  nlinarith

theorem index_inj {w x z x' z' : Int} (hx : 0 ≤ x) (hxw : x < w) (hx' : 0 ≤ x') (hxw' : x' < w)
    (h : z * w + x = z' * w + x') : x = x' ∧ z = z' := by
  have hw : 0 < w := by omega
  have e1 : (z * w + x) % w = x := by
    rw [add_comm, Int.add_mul_emod_self, Int.emod_eq_of_lt hx hxw]
  have e2 : (z' * w + x') % w = x' := by
    rw [add_comm, Int.add_mul_emod_self, Int.emod_eq_of_lt hx' hxw']
  have hxx : x = x' := by rw [← e1, ← e2, h]
  refine ⟨hxx, ?_⟩
  subst hxx
  have : z * w = z' * w := by omega
  exact Int.eq_of_mul_eq_mul_right (by omega) this

theorem toNat_index_lt {w h x z : Int} {n : Nat} (hn : n = (w * h).toNat)
    (hx : 0 ≤ x) (hxw : x < w) (hz : 0 ≤ z) (hzh : z < h) : (z * w + x).toNat < n := by
  have h1 := index_nonneg hx hxw hz
  have h2 := index_lt hx hxw hzh
  omega

/-! ## Vectors -/

theorem vecGet_vecSet_self {α : Type} {v v' : List α} {i : Int} {a : α}
    (h : vecSet v i a = some v') : vecGet v' i = some a := by
  unfold vecSet at h
  split at h
  · simp at h
  · rename_i hc
    simp only [not_or, not_lt, not_le] at hc
    simp only [Option.some.injEq] at h
    subst h
    unfold vecGet
    rw [if_neg (by omega)]
    simp [List.getElem?_set, hc.2]

theorem vecGet_vecSet_ne {α : Type} {v v' : List α} {i j : Int} {a : α}
    (h : vecSet v i a = some v') (hj : 0 ≤ j) (hij : i ≠ j) : vecGet v' j = vecGet v j := by
  unfold vecSet at h
  split at h
  · simp at h
  · rename_i hc
    simp only [not_or, not_lt, not_le] at hc
    simp only [Option.some.injEq] at h
    subst h
    have hj' : ¬ j < 0 := by omega
    unfold vecGet
    rw [if_neg hj', if_neg hj', List.getElem?_set_ne (by omega)]

theorem vecSet_length {α : Type} {v v' : List α} {i : Int} {a : α}
    (h : vecSet v i a = some v') : v'.length = v.length := by
  unfold vecSet at h
  split at h
  · simp at h
  · simp only [Option.some.injEq] at h
    subst h
    simp

theorem vecSet_isSome {α : Type} (v : List α) {i : Int} (a : α) (h0 : 0 ≤ i)
    (hi : i.toNat < v.length) : vecSet v i a = some (v.set i.toNat a) := by
  unfold vecSet
  rw [if_neg (by omega)]

theorem vecGet_isSome {α : Type} (v : List α) {i : Int} (h0 : 0 ≤ i)
    (hi : i.toNat < v.length) : vecGet v i = some (v.get ⟨i.toNat, hi⟩) := by
  unfold vecGet
  rw [if_neg (by omega)]
  simp [List.getElem?_eq_getElem hi]

/-! ## HeightMap -/

theorem HeightMap.ctor_eq {r : Int} (hfit : r * r ≤ INT_MAX) :
    (HeightMap.ctor r : Option (HeightMap F)) =
      some { _resolution := r, _height_data := List.replicate (r * r).toNat 0,
             _normals := List.replicate (r * r).toNat (Vec3.mk 0 1 0) } := by
  have h0 : 0 ≤ r * r := mul_self_nonneg r
  have hc : ¬ (r * r < 0 ∨ INT_MAX < r * r) := by omega
  simp [HeightMap.ctor, vecResize, hc]

theorem HeightMap.ctor_WF {r : Int} {h : HeightMap F} (hc : HeightMap.ctor r = some h) :
    h.WF ∧ h._resolution = r := by
  by_cases hfit : r * r ≤ INT_MAX
  · rw [HeightMap.ctor_eq hfit] at hc
    simp only [Option.some.injEq] at hc
    subst hc
    simp [HeightMap.WF]
  · have hc' : (r * r < 0 ∨ INT_MAX < r * r) := by omega
    simp [HeightMap.ctor, vecResize, hc'] at hc

theorem HeightMap.set_height_WF {h h' : HeightMap F} {x y : Int} {v : F} (hw : h.WF)
    (hs : h.set_height x y v = some h') : h'.WF ∧ h'._resolution = h._resolution := by
  unfold HeightMap.set_height at hs
  split at hs
  · simp only [Option.some.injEq] at hs
    subst hs
    exact ⟨hw, rfl⟩
  · cases hv : vecSet h._height_data (h._index x y) v with
    | none => simp [hv] at hs
    | some d =>
      simp [hv] at hs
      subst hs
      have := vecSet_length hv
      exact ⟨⟨by simpa [this] using hw.1, hw.2⟩, rfl⟩

/-! ## Loops -/

theorem mem_forIndices {fuel : Nat} {start bound stride i : Int}
    (h : i ∈ forIndices fuel start bound stride) :
    i < bound ∧ ∃ k : Nat, i = start + k * stride := by
  induction fuel generalizing start with
  | zero => simp [forIndices] at h
  | succ f ih =>
    unfold forIndices at h
    split at h
    · rcases List.mem_cons.mp h with h | h
      · subst h
        exact ⟨by assumption, 0, by simp⟩
      · obtain ⟨h2, k, hk⟩ := ih h
        exact ⟨h2, k + 1, by rw [hk]; push_cast; ring⟩
    · simp at h

theorem mem_forLoop {start bound stride i : Int} (hs : 0 ≤ stride)
    (h : i ∈ forLoop start bound stride) :
    start ≤ i ∧ i < bound ∧ stride ∣ (i - start) := by
  obtain ⟨h1, k, hk⟩ := mem_forIndices h
  refine ⟨?_, h1, ⟨k, by rw [hk]; ring⟩⟩
  have : 0 ≤ (k : Int) * stride := mul_nonneg (by omega) hs
  omega

/-- With a stride of at least 1 the loop has left by itself after `bound - start` passes:
more fuel does not change the list of indices. -/
theorem forIndices_fuel_irrel {stride : Int} (hs : 1 ≤ stride) (bound : Int) (f1 f2 : Nat)
    (start : Int) (h1 : (bound - start).toNat ≤ f1) (h2 : (bound - start).toNat ≤ f2) :
    forIndices f1 start bound stride = forIndices f2 start bound stride := by
  induction f1 generalizing f2 start with
  | zero =>
    have hge : ¬ start < bound := by omega
    cases f2 <;> simp [forIndices, hge]
  | succ f1 ih =>
    cases f2 with
    | zero =>
      have hge : ¬ start < bound := by omega
      simp [forIndices, hge]
    | succ f2 =>
      by_cases hlt : start < bound
      · simp only [forIndices, if_pos hlt]
        rw [ih f2 (start + stride) (by omega) (by omega)]
      · simp [forIndices, hlt]

theorem forIndices_fuel {stride : Int} (hs : 1 ≤ stride) (fuel : Nat) (start bound : Int)
    (hf : (bound - start).toNat ≤ fuel) :
    forIndices fuel start bound stride = forLoop start bound stride :=
  forIndices_fuel_irrel hs bound _ _ start hf (le_refl _)

theorem foldlM_invariant {σ ι : Type} (P : σ → Prop) (f : σ → ι → Option σ) (l : List ι)
    (hf : ∀ s i, i ∈ l → P s → ∃ s', f s i = some s' ∧ P s') (s : σ) (hs : P s) :
    ∃ s', l.foldlM f s = some s' ∧ P s' := by
  induction l generalizing s with
  | nil => exact ⟨s, rfl, hs⟩
  | cons a l ih =>
    obtain ⟨s1, h1, hp1⟩ := hf s a (List.mem_cons_self _ _) hs
    obtain ⟨s2, h2, hp2⟩ := ih (fun s i hi hp => hf s i (List.mem_cons_of_mem _ hi) hp) s1 hp1
    refine ⟨s2, ?_, hp2⟩
    simp [List.foldlM_cons, h1, h2]

/-! ## ProceduralTerrain: reads and writes -/

theorem ProceduralTerrain.ctor_invariant {gen : Nat → Nat → F} {now : Nat} {w h : Int}
    {t : ProceduralTerrain F} (hc : ProceduralTerrain.ctor gen now w h = some t) :
    t.WF ∧ t.width = w ∧ t.height = h ∧ t.rng.stream = gen now := by
  by_cases hfit : w * h < 0 ∨ INT_MAX < w * h
  · simp [ProceduralTerrain.ctor, vecResize, hfit] at hc
  · simp only [ProceduralTerrain.ctor, vecResize, if_neg hfit, Option.bind_eq_bind,
      Option.some_bind, Option.pure_def, Option.some.injEq] at hc
    subst hc
    simp [ProceduralTerrain.WF]

theorem ProceduralTerrain.getHeight_eq_read {t : ProceduralTerrain F} (hw : t.WF) (x z : Int) :
    t.getHeight x z = some (t.read x z) := by
  unfold ProceduralTerrain.getHeight ProceduralTerrain.read
  by_cases hout : x < 0 ∨ x ≥ t.width ∨ z < 0 ∨ z ≥ t.height
  · rw [if_pos hout, if_pos hout]
  · rw [if_neg hout, if_neg hout]
    have hlt : (z * t.width + x).toNat < t.heightmap.length :=
      toNat_index_lt hw.1 (by omega) (by omega) (by omega) (by omega)
    rw [vecGet_isSome _ (index_nonneg (by omega) (by omega) (by omega)) hlt]
    simp [ProceduralTerrain.cell, List.getD_eq_getElem?_getD, List.getElem?_eq_getElem hlt]

theorem ProceduralTerrain.read_eq_cell {t : ProceduralTerrain F} {x z : Int}
    (hx : 0 ≤ x) (hxw : x < t.width) (hz : 0 ≤ z) (hzh : z < t.height) :
    t.read x z = t.cell x z := by
  unfold ProceduralTerrain.read
  rw [if_neg (by omega)]

theorem ProceduralTerrain.setHeight_writes {t : ProceduralTerrain F} (hw : t.WF) {x z : Int}
    (hx : 0 ≤ x) (hxw : x < t.width) (hz : 0 ≤ z) (hzh : z < t.height) (v : F) :
    ∃ t', t.setHeight x z v = some t' ∧ t.Writes x z v t.rng t' := by
  have hin : ¬ (x < 0 ∨ x ≥ t.width ∨ z < 0 ∨ z ≥ t.height) := by omega
  have h0 : 0 ≤ z * t.width + x := index_nonneg hx hxw hz
  have hlt : (z * t.width + x).toNat < t.heightmap.length :=
    toNat_index_lt hw.1 hx hxw hz hzh
  refine ⟨{ t with heightmap := t.heightmap.set (z * t.width + x).toNat v }, ?_, ?_⟩
  · unfold ProceduralTerrain.setHeight
    rw [if_neg hin, vecSet_isSome _ v h0 hlt]
    rfl
  · refine ⟨rfl, rfl, rfl, rfl, rfl, ⟨by simpa using hw.1, hw.2⟩, ?_⟩
    intro a b ha haw hb hbh
    have h0' : 0 ≤ b * t.width + a := index_nonneg ha haw hb
    by_cases hab : a = x ∧ b = z
    · obtain ⟨rfl, rfl⟩ := hab
      simp [ProceduralTerrain.cell, List.getD_eq_getElem?_getD, List.getElem?_set, hlt]
    · rw [if_neg hab]
      have hne : (z * t.width + x).toNat ≠ (b * t.width + a).toNat := by
        intro he
        have he' : z * t.width + x = b * t.width + a := by omega
        obtain ⟨h1, h2⟩ := index_inj hx hxw ha haw he'
        exact hab ⟨h1.symm, h2.symm⟩
      simp [ProceduralTerrain.cell, List.getD_eq_getElem?_getD, List.getElem?_set_ne hne]

theorem diamondCell_writes {t : ProceduralTerrain F} (hw : t.WF) (step halfStep : Int)
    (scale : F) {x z : Int} (hx : 0 ≤ x + halfStep) (hxw : x + halfStep < t.width)
    (hz : 0 ≤ z + halfStep) (hzh : z + halfStep < t.height) :
    ∃ t', diamondCell step halfStep scale t z x = some t' ∧
      t.Writes (x + halfStep) (z + halfStep)
        ((t.read x z + t.read (x + step) z + t.read x (z + step) +
          t.read (x + step) (z + step)) / 4 + |(dist t.rng).1| * scale) (dist t.rng).2 t' := by
  obtain ⟨t', hs, hwr⟩ := ProceduralTerrain.setHeight_writes
    (t := { t with rng := (dist t.rng).2 }) hw hx hxw hz hzh
    ((t.read x z + t.read (x + step) z + t.read x (z + step) +
          t.read (x + step) (z + step)) / 4 + |(dist t.rng).1| * scale)
  refine ⟨t', ?_, hwr⟩
  unfold diamondCell
  simp only [ProceduralTerrain.getHeight_eq_read hw, Option.bind_eq_bind, Option.some_bind]
  exact hs

theorem squareSum_eq {t : ProceduralTerrain F} (hw : t.WF) (size halfStep z x : Int) :
    squareSum size halfStep t z x =
      some (((squareReads size halfStep x z).map (fun p => t.read p.1 p.2)).sum,
        ((squareReads size halfStep x z).length : Int)) := by
  unfold squareSum addNeighbour squareReads
  simp only [ProceduralTerrain.getHeight_eq_read hw]
  by_cases h1 : x ≥ halfStep <;> by_cases h2 : x + halfStep < size <;>
    by_cases h3 : z ≥ halfStep <;> by_cases h4 : z + halfStep < size <;>
    simp [h1, h2, h3, h4, add_assoc]

theorem filter_four {α : Type} (p : α → Bool) (a b c d : α) :
    [a, b, c, d].filter p =
      (if p a then [a] else []) ++ (if p b then [b] else []) ++
      (if p c then [c] else []) ++ (if p d then [d] else []) := by
  cases ha : p a <;> cases hb : p b <;> cases hc : p c <;> cases hd : p d <;>
    simp [List.filter_cons, ha, hb, hc, hd]

theorem squareReads_eq {size halfStep x z : Int} (hh : 0 ≤ halfStep)
    (hx : 0 ≤ x) (hxs : x < size) (hz : 0 ≤ z) (hzs : z < size) :
    squareReads size halfStep x z = inBoundsNeighbours size halfStep x z := by
  unfold squareReads inBoundsNeighbours neighbours4
  rw [filter_four]
  have e1 : inGrid size (x - halfStep, z) = decide (x ≥ halfStep) := by
    unfold inGrid
    apply Bool.decide_congr
    constructor
    · intro h; simp at h; omega
    · intro h; simp; omega
  have e2 : inGrid size (x + halfStep, z) = decide (x + halfStep < size) := by
    unfold inGrid
    apply Bool.decide_congr
    constructor
    · intro h; simp at h; omega
    · intro h; simp; omega
  have e3 : inGrid size (x, z - halfStep) = decide (z ≥ halfStep) := by
    unfold inGrid
    apply Bool.decide_congr
    constructor
    · intro h; simp at h; omega
    · intro h; simp; omega
  have e4 : inGrid size (x, z + halfStep) = decide (z + halfStep < size) := by
    unfold inGrid
    apply Bool.decide_congr
    constructor
    · intro h; simp at h; omega
    · intro h; simp; omega
  rw [e1, e2, e3, e4]
  simp only [decide_eq_true_eq]

theorem squareReads_ne_nil {size halfStep x z : Int} (h : x ≥ halfStep ∨ x + halfStep < size) :
    squareReads size halfStep x z ≠ [] := by
  unfold squareReads
  rcases h with h | h
  · simp [h]
  · simp [h]

theorem squareAverage_eq {t : ProceduralTerrain F} (hw : t.WF) {size halfStep z x : Int}
    (hne : squareReads size halfStep x z ≠ []) :
    squareAverage size halfStep t z x = some (squareMean size halfStep t x z) := by
  unfold squareAverage
  rw [squareSum_eq hw]
  have hlen : ¬ ((squareReads size halfStep x z).length : Int) = 0 := by
    have := List.length_pos.mpr hne
    omega
  simp only [Option.bind_eq_bind, Option.some_bind, if_neg hlen]
  rfl

theorem squareCell_writes {t : ProceduralTerrain F} (hw : t.WF) (scale : F)
    (size halfStep : Int) {x z : Int} (hx : 0 ≤ x) (hxw : x < t.width) (hz : 0 ≤ z) (hzh : z < t.height)
    (hne : squareReads size halfStep x z ≠ []) :
    ∃ t', squareCell size halfStep scale t z x = some t' ∧
      t.Writes x z |squareMean size halfStep t x z + (dist t.rng).1 * scale|
        (dist t.rng).2 t' := by
  obtain ⟨t', hs, hwr⟩ := ProceduralTerrain.setHeight_writes
    (t := { t with rng := (dist t.rng).2 }) hw hx hxw hz hzh
    |squareMean size halfStep t x z + (dist t.rng).1 * scale|
  refine ⟨t', ?_, hwr⟩
  unfold squareCell
  simp only [squareAverage_eq hw hne, Option.bind_eq_bind, Option.some_bind]
  exact hs

theorem RoundShape.diamond_index {size step halfStep i : Int} (hr : RoundShape size step halfStep)
    (h : i ∈ forLoop 0 (size - 1) step) : 0 ≤ i ∧ i + step ≤ size - 1 ∧ step ∣ i := by
  obtain ⟨h0, h1, h2⟩ := mem_forLoop (by have := hr.half_pos; have := hr.step_eq; omega) h
  rw [sub_zero] at h2
  refine ⟨h0, ?_, h2⟩
  obtain ⟨a, ha⟩ := h2
  obtain ⟨b, hb⟩ := hr.step_dvd
  have hs : 0 < step := by have := hr.half_pos; have := hr.step_eq; omega
  have hab : a < b := by
    by_contra hcon
    have : step * b ≤ step * a := mul_le_mul_of_nonneg_left (by omega) (le_of_lt hs)
    omega
  have : step * (a + 1) ≤ step * b := mul_le_mul_of_nonneg_left (by omega) (le_of_lt hs)
  rw [ha, hb]
  linarith

theorem RoundShape.square_index {size step halfStep z x : Int}
    (hr : RoundShape size step halfStep) (hz : z ∈ forLoop 0 size halfStep)
    (hx : x ∈ forLoop (Int.tmod (z + halfStep) step) size step) :
    0 ≤ z ∧ z < size ∧ 0 ≤ x ∧ x < size ∧ halfStep ∣ z ∧ step ∣ x - z - halfStep := by
  have hh := hr.half_pos
  have hs := hr.step_eq
  obtain ⟨hz0, hz1, hz2⟩ := mem_forLoop (by omega) hz
  rw [sub_zero] at hz2
  obtain ⟨hx0, hx1, hx2⟩ := mem_forLoop (by omega) hx
  rw [Int.tmod_eq_emod (by omega) (by omega)] at hx0 hx2
  have hm : 0 ≤ (z + halfStep) % step := Int.emod_nonneg _ (by omega)
  refine ⟨hz0, hz1, by omega, hx1, hz2, ?_⟩
  have h3 : step ∣ (z + halfStep) - (z + halfStep) % step := Int.dvd_sub_of_emod_eq rfl
  have : x - z - halfStep = (x - (z + halfStep) % step) - ((z + halfStep) - (z + halfStep) % step) := by
    ring
  rw [this]
  exact dvd_sub hx2 h3

theorem diamondStep_invariant {size step halfStep : Int} (hr : RoundShape size step halfStep)
    (scale : F) (P : ProceduralTerrain F → Prop)
    (hcell : ∀ t z x, P t → 0 ≤ z → z + step ≤ size - 1 → step ∣ z →
      0 ≤ x → x + step ≤ size - 1 → step ∣ x →
      ∃ t', diamondCell step halfStep scale t z x = some t' ∧ P t')
    (t : ProceduralTerrain F) (ht : P t) :
    ∃ t', diamondStep size step halfStep scale t = some t' ∧ P t' := by
  unfold diamondStep
  apply foldlM_invariant P _ _ _ t ht
  intro t1 z hz ht1
  obtain ⟨hz0, hz1, hz2⟩ := hr.diamond_index hz
  apply foldlM_invariant P _ _ _ t1 ht1
  intro t2 x hx ht2
  obtain ⟨hx0, hx1, hx2⟩ := hr.diamond_index hx
  exact hcell t2 z x ht2 hz0 hz1 hz2 hx0 hx1 hx2

theorem squareStep_invariant {size step halfStep : Int} (hr : RoundShape size step halfStep)
    (scale : F) (P : ProceduralTerrain F → Prop)
    (hcell : ∀ t z x, P t → 0 ≤ z → z < size → 0 ≤ x → x < size → halfStep ∣ z →
      step ∣ x - z - halfStep →
      ∃ t', squareCell size halfStep scale t z x = some t' ∧ P t')
    (t : ProceduralTerrain F) (ht : P t) :
    ∃ t', squareStep size step halfStep scale t = some t' ∧ P t' := by
  unfold squareStep
  apply foldlM_invariant P _ _ _ t ht
  intro t1 z hz ht1
  apply foldlM_invariant P _ _ _ t1 ht1
  intro t2 x hx ht2
  obtain ⟨h1, h2, h3, h4, h5, h6⟩ := hr.square_index hz hx
  exact hcell t2 z x ht2 h1 h2 h3 h4 h5 h6

/-! ## Rules for the loops of the terrain -/

theorem ProceduralTerrain.Writes.square {t t' : ProceduralTerrain F} {size x z : Int} {v : F}
    {rng : Rng F} (hs : t.Square size) (h : t.Writes x z v rng t') : t'.Square size :=
  ⟨h.1.trans hs.1, h.2.1.trans hs.2.1, h.2.2.2.2.2.1⟩

theorem ProceduralTerrain.Writes.cell_eq {t t' : ProceduralTerrain F} {size x z : Int} {v : F}
    {rng : Rng F} (hs : t.Square size) (h : t.Writes x z v rng t') {a b : Int}
    (ha : 0 ≤ a) (has : a < size) (hb : 0 ≤ b) (hbs : b < size) :
    t'.cell a b = if a = x ∧ b = z then v else t.cell a b :=
  h.2.2.2.2.2.2 a b ha (by rw [hs.1]; exact has) hb (by rw [hs.2.1]; exact hbs)

theorem pow_roundShape {n k : Nat} (hk : k < n) :
    RoundShape ((2 : Int) ^ n + 1) (2 ^ (k + 1)) (2 ^ k) where
  half_pos := one_le_pow₀ (by norm_num)
  step_eq := by rw [pow_succ]; ring
  step_dvd := by
    rw [add_sub_cancel_right]
    exact pow_dvd_pow 2 hk
  size_pos := by
    rw [add_sub_cancel_right]
    positivity

theorem tdiv_pow_succ (k : Nat) : Int.tdiv ((2 : Int) ^ (k + 1)) 2 = 2 ^ k := by
  rw [Int.tdiv_eq_ediv (by positivity) (by norm_num), pow_succ]
  simp

/-- The rule for the `while` loop on a grid of side `2 ^ n + 1`: an invariant `P k scale t` of
the loop state with `step = 2 ^ k` that every round re-establishes for the halved step and
the scale multiplied by the roughness holds when the loop is left, and the loop is left:
started with `step = 2 ^ k` it makes `k` rounds, for which any fuel above `k` is enough. -/
theorem diamondSquareLoop_invariant {n : Nat} {roughness : F}
    (P : Nat → F → ProceduralTerrain F → Prop)
    (hround : ∀ (k : Nat) (scale : F) (t : ProceduralTerrain F), k < n → P (k + 1) scale t →
      ∃ t1, diamondStep (2 ^ n + 1) (2 ^ (k + 1)) (2 ^ k) scale t = some t1 ∧
      ∃ t2, squareStep (2 ^ n + 1) (2 ^ (k + 1)) (2 ^ k) scale t1 = some t2 ∧
        P k (scale * roughness) t2)
    (k : Nat) (hk : k ≤ n) (fuel : Nat) (hf : k < fuel) (scale : F)
    (t : ProceduralTerrain F) (ht : P k scale t) :
    ∃ t', diamondSquareLoop (2 ^ n + 1) roughness fuel (2 ^ k) scale t = some t' ∧
      P 0 (scale * roughness ^ k) t' := by
  induction k generalizing fuel scale t with
  | zero =>
    obtain ⟨f, rfl⟩ : ∃ f, fuel = f + 1 := ⟨fuel - 1, by omega⟩
    refine ⟨t, ?_, by simpa using ht⟩
    simp [diamondSquareLoop]
  | succ k ih =>
    obtain ⟨f, rfl⟩ : ∃ f, fuel = f + 1 := ⟨fuel - 1, by omega⟩
    obtain ⟨t1, h1, t2, h2, hp⟩ := hround k scale t (by omega) ht
    obtain ⟨t', h3, hp'⟩ := ih (by omega) f (by omega) (scale * roughness) t2 hp
    refine ⟨t', ?_, ?_⟩
    · have hgt : (2 : Int) ^ (k + 1) > 1 := by
        have : (1 : Int) ≤ 2 ^ k := one_le_pow₀ (by norm_num)
        rw [pow_succ]
        omega
      unfold diamondSquareLoop
      simp only [if_pos hgt, tdiv_pow_succ, h1, h2, Option.bind_eq_bind, Option.some_bind]
      exact h3
    · have : scale * roughness ^ (k + 1) = scale * roughness * roughness ^ k := by
        rw [pow_succ]; ring
      rw [this]
      exact hp'

theorem normalCell_spec {t : ProceduralTerrain F} (hw : t.WF) (normalize : Vec3 F → Vec3 F)
    {x z : Int} (hx : 0 ≤ x) (hxw : x < t.width) (hz : 0 ≤ z) (hzh : z < t.height) :
    ∃ t', normalCell normalize t z x = some t' ∧ t'.heightmap = t.heightmap ∧
      t'.width = t.width ∧ t'.height = t.height ∧ t'.rng = t.rng ∧ t'.WF := by
  have h0 : 0 ≤ z * t.width + x := index_nonneg hx hxw hz
  have hlt : (z * t.width + x).toNat < t.normals.length :=
    toNat_index_lt hw.2 hx hxw hz hzh
  let nv : Vec3 F := normalize (Vec3.mk (t.read (x - 1) z - t.read (x + 1) z) 2
      (t.read x (z - 1) - t.read x (z + 1)))
  let ns : List (Vec3 F) := t.normals.set (z * t.width + x).toNat nv
  refine ⟨{ t with normals := ns }, ?_, rfl, rfl, rfl, rfl, ?_⟩
  · unfold normalCell
    simp only [ProceduralTerrain.getHeight_eq_read hw, Option.bind_eq_bind, Option.some_bind,
      vecSet_isSome _ _ h0 hlt]
    rfl
  · exact ⟨hw.1, by simpa [ns] using hw.2⟩

theorem ProceduralTerrain.calculateNormals_spec {t : ProceduralTerrain F} (hw : t.WF)
    (normalize : Vec3 F → Vec3 F) :
    ∃ t', t.calculateNormals normalize = some t' ∧ t'.heightmap = t.heightmap ∧
      t'.width = t.width ∧ t'.height = t.height ∧ t'.rng = t.rng ∧ t'.WF := by
  unfold ProceduralTerrain.calculateNormals
  apply foldlM_invariant (fun t' => t'.heightmap = t.heightmap ∧
      t'.width = t.width ∧ t'.height = t.height ∧ t'.rng = t.rng ∧ t'.WF) _ _ _ t
    ⟨rfl, rfl, rfl, rfl, hw⟩
  intro t1 z hz ht1
  obtain ⟨hz0, hz1, -⟩ := mem_forLoop (by norm_num) hz
  apply foldlM_invariant (fun t' => t'.heightmap = t.heightmap ∧
      t'.width = t.width ∧ t'.height = t.height ∧ t'.rng = t.rng ∧ t'.WF) _ _ _ t1 ht1
  intro t2 x hx ht2
  obtain ⟨hx0, hx1, -⟩ := mem_forLoop (by norm_num) hx
  obtain ⟨e1, e2, e3, e4, hw2⟩ := ht2
  obtain ⟨t3, h3, f1, f2, f3, f4, hw3⟩ := normalCell_spec hw2 normalize (x := x) (z := z)
    hx0 (by rw [e2, ← ht1.2.1]; exact hx1) hz0 (by rw [e3]; exact hz1)
  exact ⟨t3, h3, f1.trans e1, f2.trans e2, f3.trans e3, f4.trans e4, hw3⟩

/-- The four `setHeight` calls that open `generateDiamondSquare` on a square grid of side at
least 2: the corners become 0 and nothing else changes. -/
theorem seedCorners_spec {t : ProceduralTerrain F} {size : Int} (hs : t.Square size)
    (h2 : 2 ≤ size) :
    ∃ t1 t2 t3 t4, t.setHeight 0 0 0 = some t1 ∧ t1.setHeight 0 (size - 1) 0 = some t2 ∧
      t2.setHeight (size - 1) 0 0 = some t3 ∧ t3.setHeight (size - 1) (size - 1) 0 = some t4 ∧
      t4.Square size ∧ t4.rng = t.rng ∧
      ∀ a b : Int, 0 ≤ a → a < size → 0 ≤ b → b < size →
        t4.cell a b = if isCorner size a b then 0 else t.cell a b := by
  obtain ⟨hw, hh, hwf⟩ := hs
  obtain ⟨t1, e1, w1⟩ := ProceduralTerrain.setHeight_writes hwf (x := 0) (z := 0)
    (le_refl _) (by omega) (le_refl _) (by omega) (0 : F)
  have s0 : t.Square size := ⟨hw, hh, hwf⟩
  have s1 := w1.square s0
  obtain ⟨t2, e2, w2⟩ := ProceduralTerrain.setHeight_writes s1.2.2 (x := 0) (z := size - 1)
    (le_refl _) (by rw [s1.1]; omega) (by omega) (by rw [s1.2.1]; omega) (0 : F)
  have s2 := w2.square s1
  obtain ⟨t3, e3, w3⟩ := ProceduralTerrain.setHeight_writes s2.2.2 (x := size - 1) (z := 0)
    (by omega) (by rw [s2.1]; omega) (le_refl _) (by rw [s2.2.1]; omega) (0 : F)
  have s3 := w3.square s2
  obtain ⟨t4, e4, w4⟩ := ProceduralTerrain.setHeight_writes s3.2.2 (x := size - 1)
    (z := size - 1) (by omega) (by rw [s3.1]; omega) (by omega) (by rw [s3.2.1]; omega) (0 : F)
  have s4 := w4.square s3
  refine ⟨t1, t2, t3, t4, e1, e2, e3, e4, s4, ?_, ?_⟩
  · rw [w4.2.2.2.2.1, w3.2.2.2.2.1, w2.2.2.2.2.1, w1.2.2.2.2.1]
  · intro a b ha has hb hbs
    rw [w4.cell_eq s3 ha has hb hbs, w3.cell_eq s2 ha has hb hbs, w2.cell_eq s1 ha has hb hbs,
      w1.cell_eq s0 ha has hb hbs]
    unfold isCorner
    by_cases c1 : a = 0 <;> by_cases c2 : a = size - 1 <;> by_cases c3 : b = 0 <;>
      by_cases c4 : b = size - 1 <;> simp [c1, c2, c3, c4]

/-- The rule for `generateDiamondSquare` on a square grid of side `2 ^ n + 1`, `n ≥ 1`: the
call returns, and a loop invariant that holds once the corners are seeded holds for the
grid that the call leaves (`calculateNormals` does not touch the grid). -/
theorem generateDiamondSquare_invariant {n : Nat} (hn : 1 ≤ n) (roughness maxHeight : F)
    (normalize : Vec3 F → Vec3 F) (P : Nat → F → ProceduralTerrain F → Prop)
    (hround : ∀ (k : Nat) (scale : F) (t : ProceduralTerrain F), k < n → P (k + 1) scale t →
      ∃ t1, diamondStep (2 ^ n + 1) (2 ^ (k + 1)) (2 ^ k) scale t = some t1 ∧
      ∃ t2, squareStep (2 ^ n + 1) (2 ^ (k + 1)) (2 ^ k) scale t1 = some t2 ∧
        P k (scale * roughness) t2)
    (hsq : ∀ scale t, P 0 scale t → t.WF)
    {t : ProceduralTerrain F} (hs : t.Square (2 ^ n + 1))
    (hinit : ∀ t0 : ProceduralTerrain F, t0.Square (2 ^ n + 1) → t0.rng = t.rng →
      (∀ a b : Int, 0 ≤ a → a < 2 ^ n + 1 → 0 ≤ b → b < 2 ^ n + 1 →
        t0.cell a b = if isCorner (2 ^ n + 1) a b then 0 else t.cell a b) →
      P n maxHeight t0) :
    ∃ t' t2, t.generateDiamondSquare normalize roughness maxHeight = some t' ∧
      P 0 (maxHeight * roughness ^ n) t2 ∧ t'.heightmap = t2.heightmap ∧
      t'.width = t2.width ∧ t'.height = t2.height ∧ t'.WF := by
  have hpow : (2 : Int) ≤ 2 ^ n := by
    calc (2 : Int) = 2 ^ 1 := by norm_num
      _ ≤ 2 ^ n := pow_le_pow_right₀ (by norm_num) hn
  obtain ⟨t1, t2, t3, t4, e1, e2, e3, e4, s4, hrng, hcells⟩ := seedCorners_spec hs (by omega)
  have hfuel : n < ((2 : Int) ^ n + 1 - 1).toNat + 1 := by
    have h1 : ((2 : Int) ^ n + 1 - 1).toNat = 2 ^ n := by
      rw [add_sub_cancel_right]
      have : ((2 : Int) ^ n) = ((2 ^ n : Nat) : Int) := by push_cast; rfl
      rw [this, Int.toNat_natCast]
    rw [h1]
    have := Nat.lt_two_pow n
    omega
  obtain ⟨t5, e5, hp⟩ := diamondSquareLoop_invariant P hround n (le_refl _) _ hfuel maxHeight t4
    (hinit t4 s4 hrng hcells)
  obtain ⟨t6, e6, f1, f2, f3, -, hw6⟩ :=
    ProceduralTerrain.calculateNormals_spec (hsq _ _ hp) normalize
  refine ⟨t6, t5, ?_, hp, f1, f2, f3, hw6⟩
  unfold ProceduralTerrain.generateDiamondSquare
  simp only [hs.1, e1, e2, e3, e4, Option.bind_eq_bind, Option.some_bind]
  rw [add_sub_cancel_right] at e5 ⊢
  simp only [e5, Option.some_bind]
  exact e6

theorem RoundShape.not_corner_diamond {size step halfStep x z : Int}
    (hr : RoundShape size step halfStep) (hx : 0 ≤ x) (hxs : x + step ≤ size - 1) :
    ¬ isCorner size (x + halfStep) (z + halfStep) := by
  have h1 := hr.half_pos
  have h2 := hr.step_eq
  unfold isCorner
  omega

theorem RoundShape.not_corner_square {size step halfStep x z : Int}
    (hr : RoundShape size step halfStep) (hd : step ∣ x - z - halfStep) :
    ¬ isCorner size x z := by
  have h1 := hr.half_pos
  have h2 := hr.step_eq
  intro hc
  have hxz : step ∣ x - z := by
    obtain ⟨c, hc'⟩ := hr.step_dvd
    rcases hc with ⟨hx | hx, hz | hz⟩
    · rw [hx, hz]; simp
    · rw [hx, hz, zero_sub]; exact (dvd_neg).mpr hr.step_dvd
    · rw [hx, hz, sub_zero]; exact hr.step_dvd
    · rw [hx, hz]; simp
  have hh : step ∣ halfStep := by
    have : halfStep = (x - z) - (x - z - halfStep) := by ring
    rw [this]
    exact dvd_sub hxz hd
  have := Int.le_of_dvd (by omega) hh
  omega

theorem CornersZero.keep_of_writes {size x z : Int} {v : F} {rng : Rng F} {t t' : ProceduralTerrain F}
    (hc : CornersZero size t) (h : t.Writes x z v rng t') (hn : ¬ isCorner size x z) :
    CornersZero size t' := by
  refine ⟨h.square hc.1, ?_⟩
  intro a b ha has hb hbs hab
  rw [h.cell_eq hc.1 ha has hb hbs]
  have : ¬ (a = x ∧ b = z) := by
    rintro ⟨rfl, rfl⟩
    exact hn hab
  rw [if_neg this]
  exact hc.2 a b ha has hb hbs hab

theorem cornersZero_round {size step halfStep : Int} (hr : RoundShape size step halfStep)
    (scale : F) (t : ProceduralTerrain F) (ht : CornersZero size t) :
    ∃ t1, diamondStep size step halfStep scale t = some t1 ∧
    ∃ t2, squareStep size step halfStep scale t1 = some t2 ∧ CornersZero size t2 := by
  have h1 := hr.half_pos
  have h2 := hr.step_eq
  obtain ⟨t1, e1, c1⟩ := diamondStep_invariant hr scale (CornersZero size) (by
    intro t z x hc hz0 hz1 _ hx0 hx1 _
    obtain ⟨t', e, w⟩ := diamondCell_writes hc.1.2.2 step halfStep scale (x := x) (z := z)
      (by omega) (by rw [hc.1.1]; omega) (by omega) (by rw [hc.1.2.1]; omega)
    exact ⟨t', e, hc.keep_of_writes w (hr.not_corner_diamond hx0 hx1)⟩) t ht
  obtain ⟨t2, e2, c2⟩ := squareStep_invariant hr scale (CornersZero size) (by
    intro t z x hc hz0 hz1 hx0 hx1 _ hd
    obtain ⟨t', e, w⟩ := squareCell_writes hc.1.2.2 scale size halfStep
      (x := x) (z := z) hx0 (by rw [hc.1.1]; omega) hz0 (by rw [hc.1.2.1]; omega)
      (squareReads_ne_nil (by
        have := hr.step_dvd
        have hle : step ≤ size - 1 := Int.le_of_dvd hr.size_pos hr.step_dvd
        omega))
    exact ⟨t', e, hc.keep_of_writes w (hr.not_corner_square hd)⟩) t1 c1
  exact ⟨t1, e1, t2, e2, c2⟩

theorem list_mean_bounds {l : List F} (lo hi : F) (hl : ∀ v ∈ l, lo ≤ v ∧ v ≤ hi)
    (hne : l ≠ []) :
    lo ≤ l.sum / ((l.length : Int) : F) ∧ l.sum / ((l.length : Int) : F) ≤ hi := by
  have hsum : (l.length : F) * lo ≤ l.sum ∧ l.sum ≤ (l.length : F) * hi := by
    clear hne
    induction l with
    | nil => simp
    | cons a l ih =>
      have ha := hl a (List.mem_cons_self _ _)
      have ih' := ih (fun v hv => hl v (List.mem_cons_of_mem _ hv))
      simp only [List.sum_cons, List.length_cons, Nat.cast_add, Nat.cast_one]
      constructor <;> nlinarith [ha.1, ha.2, ih'.1, ih'.2]
  have hpos : (0 : F) < (l.length : F) := by
    have := List.length_pos.mpr hne
    exact_mod_cast this
  rw [Int.cast_natCast]
  constructor
  · rw [le_div_iff₀ hpos]
    linarith [hsum.1]
  · rw [div_le_iff₀ hpos]
    linarith [hsum.2]

theorem mem_squareReads {size halfStep x z : Int} {p : Int × Int}
    (hp : p ∈ squareReads size halfStep x z) :
    p = (x - halfStep, z) ∨ p = (x + halfStep, z) ∨ p = (x, z - halfStep) ∨
      p = (x, z + halfStep) := by
  unfold squareReads at hp
  simp only [List.mem_append] at hp
  rcases hp with ((hp | hp) | hp) | hp
  · split at hp <;> simp at hp
    exact Or.inl hp
  · split at hp <;> simp at hp
    exact Or.inr (Or.inl hp)
  · split at hp <;> simp at hp
    exact Or.inr (Or.inr (Or.inl hp))
  · split at hp <;> simp at hp
    exact Or.inr (Or.inr (Or.inr hp))

theorem squareMean_bounds {t : ProceduralTerrain F} {size halfStep x z : Int} {lo hi : F}
    (hne : squareReads size halfStep x z ≠ [])
    (h : ∀ p ∈ squareReads size halfStep x z, lo ≤ t.read p.1 p.2 ∧ t.read p.1 p.2 ≤ hi) :
    lo ≤ squareMean size halfStep t x z ∧ squareMean size halfStep t x z ≤ hi := by
  unfold squareMean
  have := list_mean_bounds (l := (squareReads size halfStep x z).map (fun p => t.read p.1 p.2))
    lo hi (by
      intro v hv
      obtain ⟨p, hp, rfl⟩ := List.mem_map.mp hv
      exact h p hp) (by simpa using hne)
  simpa using this

theorem RoundShape.not_dvd_add_half {size step halfStep u : Int}
    (hr : RoundShape size step halfStep) (hu : step ∣ u) : ¬ step ∣ u + halfStep := by
  have h1 := hr.half_pos
  have h2 := hr.step_eq
  intro h
  have hh : step ∣ halfStep := (Int.dvd_add_right hu).mp h
  have := Int.le_of_dvd (by omega) hh
  omega

theorem RoundShape.not_dvd_sub_half {size step halfStep u : Int}
    (hr : RoundShape size step halfStep) (hu : step ∣ u) : ¬ step ∣ u - halfStep := by
  intro h
  have : step ∣ (u - halfStep) + halfStep := by rw [sub_add_cancel]; exact hu
  exact hr.not_dvd_add_half h this

theorem ProceduralTerrain.Writes.drawsBounded {t t' : ProceduralTerrain F} {x z : Int} {v : F}
    (hd : DrawsBounded t) (h : t.Writes x z v (dist t.rng).2 t') : DrawsBounded t' := by
  intro k
  rw [h.2.2.2.2.1]
  exact hd k

/-- A read of a square terrain is a grid entry or the 0 returned outside the grid: a bound
that holds for the entries at the positions selected by `C` and for 0 holds for the read. -/
theorem ProceduralTerrain.read_bounds {t : ProceduralTerrain F} {size : Int}
    (hs : t.Square size) {lo hi : F} (hlo : lo ≤ 0) (hhi : 0 ≤ hi) {a b : Int}
    (h : 0 ≤ a → a < size → 0 ≤ b → b < size → lo ≤ t.cell a b ∧ t.cell a b ≤ hi) :
    lo ≤ t.read a b ∧ t.read a b ≤ hi := by
  unfold ProceduralTerrain.read
  by_cases hout : a < 0 ∨ a ≥ t.width ∨ b < 0 ∨ b ≥ t.height
  · rw [if_pos hout]
    exact ⟨hlo, hhi⟩
  · rw [if_neg hout]
    rw [hs.1, hs.2.1] at hout
    exact h (by omega) (by omega) (by omega) (by omega)

/-! ## Coverage of the loops and bounds of the heights -/

/-- Every index between `start` and `bound` that differs from `start` by a multiple of the
stride is visited by the loop. -/
theorem forIndices_mem {stride : Int} (hs : 1 ≤ stride) {bound : Int} (m : Nat) :
    ∀ (fuel : Nat) (start : Int), m < fuel → start + m * stride < bound →
      start + m * stride ∈ forIndices fuel start bound stride := by
  induction m with
  | zero =>
    intro fuel start hf hlt
    obtain ⟨f, rfl⟩ : ∃ f, fuel = f + 1 := ⟨fuel - 1, by omega⟩
    simp only [Nat.cast_zero, zero_mul, add_zero] at hlt ⊢
    simp [forIndices, hlt]
  | succ m ih =>
    intro fuel start hf hlt
    obtain ⟨f, rfl⟩ : ∃ f, fuel = f + 1 := ⟨fuel - 1, by omega⟩
    have hm : 0 ≤ (m : Int) * stride := mul_nonneg (by omega) (by omega)
    have e : start + ((m + 1 : Nat) : Int) * stride = (start + stride) + m * stride := by
      push_cast; ring
    rw [e] at hlt ⊢
    have hsb : start < bound := by omega
    simp only [forIndices, if_pos hsb]
    exact List.mem_cons_of_mem _ (ih f (start + stride) (by omega) hlt)

theorem forLoop_mem {start bound stride i : Int} (hs : 1 ≤ stride) (h0 : start ≤ i)
    (hb : i < bound) (hd : stride ∣ i - start) : i ∈ forLoop start bound stride := by
  obtain ⟨q, hq⟩ := hd
  have hq0 : 0 ≤ q := by
    by_contra hneg
    have : stride * q ≤ stride * (-1) := mul_le_mul_of_nonneg_left (by omega) (by omega)
    omega
  obtain ⟨m, rfl⟩ := Int.eq_ofNat_of_zero_le hq0
  have hi : i = start + m * stride := by rw [mul_comm]; omega
  rw [hi]
  unfold forLoop
  apply forIndices_mem hs m
  · have : (m : Int) * 1 ≤ m * stride := mul_le_mul_of_nonneg_left hs (by omega)
    omega
  · omega

/-- A rule for a loop with a state invariant `Q` and a property `G` of keys that no pass
destroys: if the pass at index `i` establishes `G` at the keys `K i`, then after the loop
`G` holds at the keys of every index of the loop. -/
theorem foldlM_cover {σ ι κ : Type} (Q : σ → Prop) (G : σ → κ → Prop) (K : ι → κ → Prop)
    (f : σ → ι → Option σ) (l : List ι)
    (hf : ∀ s i, i ∈ l → Q s →
      ∃ s', f s i = some s' ∧ Q s' ∧ (∀ c, K i c → G s' c) ∧ ∀ c, G s c → G s' c)
    (s : σ) (hs : Q s) :
    ∃ s', l.foldlM f s = some s' ∧ Q s' ∧ (∀ i ∈ l, ∀ c, K i c → G s' c) ∧
      ∀ c, G s c → G s' c := by
  induction l generalizing s with
  | nil => exact ⟨s, rfl, hs, fun i hi => by simp at hi, fun c hc => hc⟩
  | cons a l ih =>
    obtain ⟨s1, h1, hq1, hk1, hst1⟩ := hf s a (List.mem_cons_self _ _) hs
    obtain ⟨s2, h2, hq2, hk2, hst2⟩ :=
      ih (fun s i hi hq => hf s i (List.mem_cons_of_mem _ hi) hq) s1 hq1
    refine ⟨s2, ?_, hq2, ?_, fun c hc => hst2 c (hst1 c hc)⟩
    · simp [List.foldlM_cons, h1, h2]
    · intro i hi c hc
      rcases List.mem_cons.mp hi with rfl | hi
      · exact hst2 c (hk1 c hc)
      · exact hk2 i hi c hc

theorem nonneg_of_dvd_of_neg_lt {s u : Int} (hs : 0 < s) (hd : s ∣ u) (hu : -s < u) :
    0 ≤ u := by
  obtain ⟨q, rfl⟩ := hd
  by_contra hneg
  have hq : q ≤ -1 := by
    by_contra hq
    have : 0 ≤ s * q := mul_nonneg (le_of_lt hs) (by omega)
    omega
  have : s * q ≤ s * (-1) := mul_le_mul_of_nonneg_left hq (le_of_lt hs)
  omega

/-- The rule of the diamond step with coverage: a property `G` of cells that no pass
destroys and that the pass at `(x, z)` establishes at the centre `(x + halfStep,
z + halfStep)` holds, after the step, at every centre of the grid. -/
theorem diamondStep_cover {size step halfStep : Int} (hr : RoundShape size step halfStep)
    (scale : F) (Q : ProceduralTerrain F → Prop) (G : ProceduralTerrain F → Int × Int → Prop)
    (hcell : ∀ t z x, Q t → 0 ≤ z → z + step ≤ size - 1 → step ∣ z →
      0 ≤ x → x + step ≤ size - 1 → step ∣ x →
      ∃ t', diamondCell step halfStep scale t z x = some t' ∧ Q t' ∧
        G t' (x + halfStep, z + halfStep) ∧ ∀ c, G t c → G t' c)
    (t : ProceduralTerrain F) (ht : Q t) :
    ∃ t', diamondStep size step halfStep scale t = some t' ∧ Q t' ∧
      (∀ a b : Int, 0 ≤ a → a < size → 0 ≤ b → b < size →
        step ∣ a - halfStep → step ∣ b - halfStep → G t' (a, b)) ∧
      ∀ c, G t c → G t' c := by
  have h1 := hr.half_pos
  have h2 := hr.step_eq
  obtain ⟨t', e, hq, hk, hst⟩ := foldlM_cover Q G
    (fun z c => ∃ x ∈ forLoop 0 (size - 1) step, c = (x + halfStep, z + halfStep))
    (fun t z => (forLoop 0 (size - 1) step).foldlM
      (fun t x => diamondCell step halfStep scale t z x) t)
    (forLoop 0 (size - 1) step) (by
      intro t1 z hz ht1
      obtain ⟨hz0, hz1, hz2⟩ := hr.diamond_index hz
      obtain ⟨t2, e2, hq2, hk2, hst2⟩ := foldlM_cover Q G
        (fun x c => c = (x + halfStep, z + halfStep))
        (fun t x => diamondCell step halfStep scale t z x)
        (forLoop 0 (size - 1) step) (by
          intro t2 x hx ht2
          obtain ⟨hx0, hx1, hx2⟩ := hr.diamond_index hx
          obtain ⟨t3, e3, hq3, hg3, hst3⟩ := hcell t2 z x ht2 hz0 hz1 hz2 hx0 hx1 hx2
          exact ⟨t3, e3, hq3, fun c hc => by rw [hc]; exact hg3, hst3⟩) t1 ht1
      refine ⟨t2, e2, hq2, ?_, hst2⟩
      rintro c ⟨x, hx, rfl⟩
      exact hk2 x hx _ rfl) t ht
  refine ⟨t', e, hq, ?_, hst⟩
  intro a b ha has hb hbs hda hdb
  have hz : b - halfStep ∈ forLoop 0 (size - 1) step :=
    forLoop_mem (by omega) (nonneg_of_dvd_of_neg_lt (by omega) hdb (by omega)) (by omega)
      (by rw [sub_zero]; exact hdb)
  have hx : a - halfStep ∈ forLoop 0 (size - 1) step :=
    forLoop_mem (by omega) (nonneg_of_dvd_of_neg_lt (by omega) hda (by omega)) (by omega)
      (by rw [sub_zero]; exact hda)
  exact hk (b - halfStep) hz (a, b) ⟨a - halfStep, hx, by simp⟩

/-- The rule of the square step with coverage: a property `G` of cells that no pass
destroys and that the pass at `(x, z)` establishes at `(x, z)` holds, after the step, at
every cell `(a, b)` of the grid with `halfStep ∣ b` and `step ∣ a - b - halfStep`. -/
theorem squareStep_cover {size step halfStep : Int} (hr : RoundShape size step halfStep)
    (scale : F) (Q : ProceduralTerrain F → Prop) (G : ProceduralTerrain F → Int × Int → Prop)
    (hcell : ∀ t z x, Q t → 0 ≤ z → z < size → 0 ≤ x → x < size → halfStep ∣ z →
      step ∣ x - z - halfStep →
      ∃ t', squareCell size halfStep scale t z x = some t' ∧ Q t' ∧
        G t' (x, z) ∧ ∀ c, G t c → G t' c)
    (t : ProceduralTerrain F) (ht : Q t) :
    ∃ t', squareStep size step halfStep scale t = some t' ∧ Q t' ∧
      (∀ a b : Int, 0 ≤ a → a < size → 0 ≤ b → b < size →
        halfStep ∣ b → step ∣ a - b - halfStep → G t' (a, b)) ∧
      ∀ c, G t c → G t' c := by
  have h1 := hr.half_pos
  have h2 := hr.step_eq
  obtain ⟨t', e, hq, hk, hst⟩ := foldlM_cover Q G
    (fun z c => ∃ x ∈ forLoop (Int.tmod (z + halfStep) step) size step, c = (x, z))
    (fun t z => (forLoop (Int.tmod (z + halfStep) step) size step).foldlM
      (fun t x => squareCell size halfStep scale t z x) t)
    (forLoop 0 size halfStep) (by
      intro t1 z hz ht1
      obtain ⟨t2, e2, hq2, hk2, hst2⟩ := foldlM_cover Q G
        (fun x c => c = (x, z))
        (fun t x => squareCell size halfStep scale t z x)
        (forLoop (Int.tmod (z + halfStep) step) size step) (by
          intro t2 x hx ht2
          obtain ⟨i1, i2, i3, i4, i5, i6⟩ := hr.square_index hz hx
          obtain ⟨t3, e3, hq3, hg3, hst3⟩ := hcell t2 z x ht2 i1 i2 i3 i4 i5 i6
          exact ⟨t3, e3, hq3, fun c hc => by rw [hc]; exact hg3, hst3⟩) t1 ht1
      refine ⟨t2, e2, hq2, ?_, hst2⟩
      rintro c ⟨x, hx, rfl⟩
      exact hk2 x hx _ rfl) t ht
  refine ⟨t', e, hq, ?_, hst⟩
  intro a b ha has hb hbs hdb hd
  have hz : b ∈ forLoop 0 size halfStep :=
    forLoop_mem h1 hb hbs (by rw [sub_zero]; exact hdb)
  have hr0 : 0 ≤ (b + halfStep) % step := Int.emod_nonneg _ (by omega)
  have hr1 : (b + halfStep) % step < step := Int.emod_lt_of_pos _ (by omega)
  have hdr : step ∣ a - (b + halfStep) % step := by
    have h3 : step ∣ (b + halfStep) - (b + halfStep) % step := Int.dvd_sub_of_emod_eq rfl
    have : a - (b + halfStep) % step =
        (a - b - halfStep) + ((b + halfStep) - (b + halfStep) % step) := by ring
    rw [this]
    exact dvd_add hd h3
  have hx : a ∈ forLoop (Int.tmod (b + halfStep) step) size step := by
    rw [Int.tmod_eq_emod (by omega) (by omega)]
    refine forLoop_mem (by omega) ?_ has hdr
    have := nonneg_of_dvd_of_neg_lt (by omega) hdr (by omega)
    omega
  exact hk b hz (a, b) ⟨a, hx, rfl⟩

theorem RoundShape.half_dvd_cases {size step halfStep u : Int}
    (hr : RoundShape size step halfStep) (hu : halfStep ∣ u) :
    step ∣ u ∨ step ∣ u - halfStep := by
  obtain ⟨m, rfl⟩ := hu
  have h2 := hr.step_eq
  rcases Int.even_or_odd' m with ⟨q, hq | hq⟩
  · left
    exact ⟨q, by rw [hq, h2]; ring⟩
  · right
    exact ⟨q, by rw [hq, h2]; ring⟩

theorem RoundShape.dvd_add_step {size step halfStep u v : Int}
    (_hr : RoundShape size step halfStep) (hu : step ∣ u) (hv : v = u + step) : step ∣ v := by
  rw [hv]
  exact dvd_add hu (dvd_refl _)

theorem RoundShape.dvd_sub_step {size step halfStep u v : Int}
    (_hr : RoundShape size step halfStep) (hu : step ∣ u) (hv : v = u - step) : step ∣ v := by
  rw [hv]
  exact dvd_sub hu (dvd_refl _)

/-- A write of a value in `[lo, hi]` keeps an entry in `[lo, hi]` in `[lo, hi]`. -/
theorem CellWithin.stable_of_writes {size x z : Int} {v lo hi : F} {rng : Rng F}
    {t t' : ProceduralTerrain F} (hs : t.Square size) (h : t.Writes x z v rng t')
    (hv : lo ≤ v ∧ v ≤ hi) (c : Int × Int) (hc : CellWithin size lo hi t c) :
    CellWithin size lo hi t' c := by
  intro h1 h2 h3 h4
  rw [h.cell_eq hs h1 h2 h3 h4]
  split
  · exact hv
  · exact hc h1 h2 h3 h4

theorem CellWithin.at_written {size x z : Int} {v lo hi : F} {rng : Rng F}
    {t t' : ProceduralTerrain F} (hs : t.Square size) (h : t.Writes x z v rng t')
    (hv : lo ≤ v ∧ v ≤ hi) : CellWithin size lo hi t' (x, z) := by
  intro h1 h2 h3 h4
  rw [h.cell_eq hs h1 h2 h3 h4, if_pos ⟨rfl, rfl⟩]
  exact hv

/-- One round on a grid whose entries at the multiples of `step` lie in `[0, B]`, with draws
in `[-1, 1]` and a scale `≥ 0`: both steps return, and afterwards the entries at the
multiples of `halfStep` lie in `[0, B + 2 * scale]`. -/
theorem lattice_round {size step halfStep : Int} (hr : RoundShape size step halfStep)
    {scale B : F} (hscale : 0 ≤ scale) (hB : 0 ≤ B) (t : ProceduralTerrain F)
    (hs : t.Square size) (hd : DrawsBounded t) (hl : LatticeWithin size step 0 B t) :
    ∃ t1, diamondStep size step halfStep scale t = some t1 ∧
    ∃ t2, squareStep size step halfStep scale t1 = some t2 ∧
      t2.Square size ∧ DrawsBounded t2 ∧ LatticeWithin size halfStep 0 (B + 2 * scale) t2 := by
  have h1 := hr.half_pos
  have h2 := hr.step_eq
  have hle : step ≤ size - 1 := Int.le_of_dvd hr.size_pos hr.step_dvd
  -- diamond step
  obtain ⟨t1, e1, ⟨s1, d1, l1⟩, c1, -⟩ := diamondStep_cover hr scale
    (fun t => t.Square size ∧ DrawsBounded t ∧ LatticeWithin size step 0 B t)
    (CellWithin size 0 (B + scale)) (by
    intro t z x ⟨hs, hd, hl⟩ hz0 hz1 hzd hx0 hx1 hxd
    obtain ⟨t', e, w⟩ := diamondCell_writes hs.2.2 step halfStep scale (x := x) (z := z)
      (by omega) (by rw [hs.1]; omega) (by omega) (by rw [hs.2.1]; omega)
    have hread : ∀ a b : Int, step ∣ a → step ∣ b → 0 ≤ t.read a b ∧ t.read a b ≤ B :=
      fun a b hda hdb => ProceduralTerrain.read_bounds hs (le_refl _) hB
        (fun ha has hb hbs => hl a b ha has hb hbs hda hdb)
    have hxs : step ∣ x + step := dvd_add hxd (dvd_refl _)
    have hzs : step ∣ z + step := dvd_add hzd (dvd_refl _)
    have r1 := hread x z hxd hzd
    have r2 := hread (x + step) z hxs hzd
    have r3 := hread x (z + step) hxd hzs
    have r4 := hread (x + step) (z + step) hxs hzs
    have hdraw : |(dist t.rng).1| ≤ 1 := hd _
    have hoff0 : 0 ≤ |(dist t.rng).1| * scale := mul_nonneg (abs_nonneg _) hscale
    have hoff1 : |(dist t.rng).1| * scale ≤ scale := by
      calc |(dist t.rng).1| * scale ≤ 1 * scale := mul_le_mul_of_nonneg_right hdraw hscale
        _ = scale := one_mul _
    have hv : 0 ≤ (t.read x z + t.read (x + step) z + t.read x (z + step) +
          t.read (x + step) (z + step)) / 4 + |(dist t.rng).1| * scale ∧
        (t.read x z + t.read (x + step) z + t.read x (z + step) +
          t.read (x + step) (z + step)) / 4 + |(dist t.rng).1| * scale ≤ B + scale :=
      ⟨by linarith [r1.1, r2.1, r3.1, r4.1], by linarith [r1.2, r2.2, r3.2, r4.2]⟩
    refine ⟨t', e, ⟨w.square hs, w.drawsBounded hd, ?_⟩, CellWithin.at_written hs w hv,
      CellWithin.stable_of_writes hs w hv⟩
    intro a b ha has hb hbs hda hdb
    rw [w.cell_eq hs ha has hb hbs]
    have hab : ¬ (a = x + halfStep ∧ b = z + halfStep) := by
      rintro ⟨rfl, -⟩
      exact hr.not_dvd_add_half hxd hda
    rw [if_neg hab]
    exact hl a b ha has hb hbs hda hdb) t ⟨hs, hd, hl⟩
  -- square step
  obtain ⟨t2, e2, ⟨s2, d2, l2⟩, c2, -⟩ := squareStep_cover hr scale
    (fun t => t.Square size ∧ DrawsBounded t ∧
      ∀ a b : Int, 0 ≤ a → a < size → 0 ≤ b → b < size →
        (step ∣ a ∧ step ∣ b) ∨ (step ∣ a - halfStep ∧ step ∣ b - halfStep) →
        0 ≤ t.cell a b ∧ t.cell a b ≤ B + scale)
    (CellWithin size 0 (B + 2 * scale)) (by
    intro t z x ⟨hs, hd, hc⟩ hz0 hz1 hx0 hx1 hzd hdv
    have hne : squareReads size halfStep x z ≠ [] := squareReads_ne_nil (by omega)
    obtain ⟨t', e, w⟩ := squareCell_writes hs.2.2 scale size halfStep
      (x := x) (z := z) hx0 (by rw [hs.1]; omega) hz0 (by rw [hs.2.1]; omega) hne
    have hcases : (step ∣ z ∧ step ∣ x - halfStep) ∨ (step ∣ z - halfStep ∧ step ∣ x) := by
      rcases hr.half_dvd_cases hzd with hz | hz
      · left
        refine ⟨hz, ?_⟩
        have : x - halfStep = (x - z - halfStep) + z := by ring
        rw [this]
        exact dvd_add hdv hz
      · right
        refine ⟨hz, ?_⟩
        have : x = (x - z - halfStep) + (z - halfStep) + step := by omega
        rw [this]
        exact dvd_add (dvd_add hdv hz) (dvd_refl _)
    have hread : ∀ p ∈ squareReads size halfStep x z,
        0 ≤ t.read p.1 p.2 ∧ t.read p.1 p.2 ≤ B + scale := by
      intro p hp
      have hcls : (step ∣ p.1 ∧ step ∣ p.2) ∨
          (step ∣ p.1 - halfStep ∧ step ∣ p.2 - halfStep) := by
        rcases mem_squareReads hp with rfl | rfl | rfl | rfl
        · rcases hcases with ⟨hz, hx⟩ | ⟨hz, hx⟩
          · exact Or.inl ⟨hx, hz⟩
          · exact Or.inr ⟨hr.dvd_sub_step hx (by simp only; omega), hz⟩
        · rcases hcases with ⟨hz, hx⟩ | ⟨hz, hx⟩
          · exact Or.inl ⟨hr.dvd_add_step hx (by simp only; omega), hz⟩
          · exact Or.inr ⟨by simpa using hx, hz⟩
        · rcases hcases with ⟨hz, hx⟩ | ⟨hz, hx⟩
          · exact Or.inr ⟨hx, hr.dvd_sub_step hz (by simp only; omega)⟩
          · exact Or.inl ⟨hx, hz⟩
        · rcases hcases with ⟨hz, hx⟩ | ⟨hz, hx⟩
          · exact Or.inr ⟨hx, by simpa using hz⟩
          · exact Or.inl ⟨hx, hr.dvd_add_step hz (by simp only; omega)⟩
      exact ProceduralTerrain.read_bounds hs (le_refl _) (by linarith)
        (fun ha has hb hbs => hc _ _ ha has hb hbs hcls)
    have hmean := squareMean_bounds hne hread
    have hdraw : |(dist t.rng).1| ≤ 1 := hd _
    have hoff : |(dist t.rng).1 * scale| ≤ scale := by
      rw [abs_mul, abs_of_nonneg hscale]
      calc |(dist t.rng).1| * scale ≤ 1 * scale := mul_le_mul_of_nonneg_right hdraw hscale
        _ = scale := one_mul _
    have hv : 0 ≤ |squareMean size halfStep t x z + (dist t.rng).1 * scale| ∧
        |squareMean size halfStep t x z + (dist t.rng).1 * scale| ≤ B + 2 * scale := by
      refine ⟨abs_nonneg _, ?_⟩
      calc |squareMean size halfStep t x z + (dist t.rng).1 * scale|
          ≤ |squareMean size halfStep t x z| + |(dist t.rng).1 * scale| := abs_add _ _
        _ ≤ (B + scale) + scale := by
          rw [abs_of_nonneg hmean.1]
          linarith [hmean.2]
        _ = B + 2 * scale := by ring
    refine ⟨t', e, ⟨w.square hs, w.drawsBounded hd, ?_⟩, CellWithin.at_written hs w hv,
      CellWithin.stable_of_writes hs w hv⟩
    intro a b ha has hb hbs hcls
    rw [w.cell_eq hs ha has hb hbs]
    have hab : ¬ (a = x ∧ b = z) := by
      rintro ⟨rfl, rfl⟩
      have hxz : step ∣ a - b := by
        rcases hcls with ⟨p, q⟩ | ⟨p, q⟩
        · exact dvd_sub p q
        · have : a - b = (a - halfStep) - (b - halfStep) := by ring
          rw [this]
          exact dvd_sub p q
      exact hr.not_dvd_sub_half hxz hdv
    rw [if_neg hab]
    exact hc a b ha has hb hbs hcls) t1
    ⟨s1, d1, fun a b ha has hb hbs hcls => by
      rcases hcls with ⟨p, q⟩ | ⟨p, q⟩
      · have := l1 a b ha has hb hbs p q
        exact ⟨this.1, by linarith [this.2]⟩
      · exact c1 a b ha has hb hbs p q ha has hb hbs⟩
  refine ⟨t1, e1, t2, e2, s2, d2, ?_⟩
  intro a b ha has hb hbs hda hdb
  rcases hr.half_dvd_cases hda with pa | pa <;> rcases hr.half_dvd_cases hdb with pb | pb
  · have := l2 a b ha has hb hbs (Or.inl ⟨pa, pb⟩)
    exact ⟨this.1, by linarith [this.2]⟩
  · refine c2 a b ha has hb hbs hdb ?_ ha has hb hbs
    have : a - b - halfStep = a - (b - halfStep) - step := by omega
    rw [this]
    exact dvd_sub (dvd_sub pa pb) (dvd_refl _)
  · refine c2 a b ha has hb hbs hdb ?_ ha has hb hbs
    have : a - b - halfStep = (a - halfStep) - b := by ring
    rw [this]
    exact dvd_sub pa pb
  · have := l2 a b ha has hb hbs (Or.inr ⟨pa, pb⟩)
    exact ⟨this.1, by linarith [this.2]⟩

/-! ## The reads of the square step -/

theorem RoundShape.half_dvd_size {size step halfStep : Int} (hr : RoundShape size step halfStep) :
    halfStep ∣ size - 1 :=
  dvd_trans ⟨2, by rw [hr.step_eq]; ring⟩ hr.step_dvd

/-- For a coordinate `x` of the grid that is a multiple of `halfStep`, the guards of the
square step say whether `x` lies on the border. -/
theorem RoundShape.guards {size step halfStep x : Int} (hr : RoundShape size step halfStep)
    (hx : 0 ≤ x) (hxs : x < size) (hd : halfStep ∣ x) :
    (x ≥ halfStep ↔ x ≠ 0) ∧ (x + halfStep < size ↔ x ≠ size - 1) := by
  have h1 := hr.half_pos
  obtain ⟨a, ha⟩ := hd
  obtain ⟨c, hc⟩ := hr.half_dvd_size
  have ha0 : 0 ≤ a := by
    by_contra hneg
    have : halfStep * a ≤ halfStep * (-1) := mul_le_mul_of_nonneg_left (by omega) (by omega)
    omega
  have hac : a ≤ c := by
    by_contra hneg
    have : halfStep * (c + 1) ≤ halfStep * a := mul_le_mul_of_nonneg_left (by omega) (by omega)
    have e : halfStep * (c + 1) = halfStep * c + halfStep := by ring
    omega
  constructor
  · constructor
    · intro h; omega
    · intro h
      have : 1 ≤ a := by
        by_contra hneg
        have : a = 0 := by omega
        rw [this, mul_zero] at ha
        exact h ha
      have : halfStep * 1 ≤ halfStep * a := mul_le_mul_of_nonneg_left this (by omega)
      omega
  · constructor
    · intro h; omega
    · intro h
      have : a + 1 ≤ c := by
        by_contra hneg
        have : a = c := by omega
        rw [this, ← hc] at ha
        exact h ha
      have : halfStep * (a + 1) ≤ halfStep * c := mul_le_mul_of_nonneg_left this (by omega)
      have e : halfStep * (a + 1) = halfStep * a + halfStep := by ring
      omega

theorem RoundShape.half_dvd_x {size step halfStep x z : Int} (hr : RoundShape size step halfStep)
    (hz : halfStep ∣ z) (hd : step ∣ x - z - halfStep) : halfStep ∣ x := by
  have h1 : halfStep ∣ x - z - halfStep := dvd_trans ⟨2, by rw [hr.step_eq]; ring⟩ hd
  have : x = (x - z - halfStep) + (z + halfStep) := by ring
  rw [this]
  exact dvd_add h1 (dvd_add hz (dvd_refl _))

theorem inGrid_of_mem_inBoundsNeighbours {size d x z : Int} {p : Int × Int}
    (hp : p ∈ inBoundsNeighbours size d x z) : inGrid size p = true := by
  unfold inBoundsNeighbours at hp
  exact (List.mem_filter.mp hp).2

theorem squareMean_eq_cells {t : ProceduralTerrain F} {size halfStep x z : Int}
    (hs : t.Square size) (hh : 0 ≤ halfStep)
    (hx : 0 ≤ x) (hxs : x < size) (hz : 0 ≤ z) (hzs : z < size) :
    squareMean size halfStep t x z =
      ((inBoundsNeighbours size halfStep x z).map (fun p => t.cell p.1 p.2)).sum /
        (((inBoundsNeighbours size halfStep x z).length : Int) : F) := by
  unfold squareMean
  rw [squareReads_eq hh hx hxs hz hzs]
  congr 2
  apply List.map_congr_left
  intro p hp
  have := inGrid_of_mem_inBoundsNeighbours hp
  simp only [inGrid, decide_eq_true_eq] at this
  exact ProceduralTerrain.read_eq_cell this.1 (by rw [hs.1]; exact this.2.1) this.2.2.1
    (by rw [hs.2.1]; exact this.2.2.2)

/-- The number of reads of the square step at a cell of the round: 4 for an interior cell,
3 for a cell on the border. -/
theorem RoundShape.squareReads_length {size step halfStep x z : Int}
    (hr : RoundShape size step halfStep) (hx : 0 ≤ x) (hxs : x < size) (hz : 0 ≤ z)
    (hzs : z < size) (hzd : halfStep ∣ z) (hd : step ∣ x - z - halfStep) :
    ((0 < x ∧ x < size - 1 ∧ 0 < z ∧ z < size - 1) →
      (squareReads size halfStep x z).length = 4) ∧
    (¬ (0 < x ∧ x < size - 1 ∧ 0 < z ∧ z < size - 1) →
      (squareReads size halfStep x z).length = 3) := by
  obtain ⟨gx1, gx2⟩ := hr.guards hx hxs (hr.half_dvd_x hzd hd)
  obtain ⟨gz1, gz2⟩ := hr.guards hz hzs hzd
  have hnc := hr.not_corner_square hd
  unfold isCorner at hnc
  unfold squareReads
  constructor
  · intro hin
    rw [if_pos (gx1.mpr (by omega)), if_pos (gx2.mpr (by omega)), if_pos (gz1.mpr (by omega)),
      if_pos (gz2.mpr (by omega))]
    rfl
  · intro hedge
    by_cases c1 : x = 0
    · have c3 : z ≠ 0 := by omega
      have c4 : z ≠ size - 1 := by omega
      rw [if_neg (fun h => gx1.mp h c1), if_pos (gx2.mpr (by omega)), if_pos (gz1.mpr c3),
        if_pos (gz2.mpr c4)]
      rfl
    · by_cases c2 : x = size - 1
      · have c3 : z ≠ 0 := by omega
        have c4 : z ≠ size - 1 := by omega
        rw [if_pos (gx1.mpr c1), if_neg (fun h => gx2.mp h c2), if_pos (gz1.mpr c3),
          if_pos (gz2.mpr c4)]
        rfl
      · by_cases c3 : z = 0
        · rw [if_pos (gx1.mpr c1), if_pos (gx2.mpr c2), if_neg (fun h => gz1.mp h c3),
            if_pos (gz2.mpr (by omega))]
          rfl
        · have c4 : z = size - 1 := by omega
          rw [if_pos (gx1.mpr c1), if_pos (gx2.mpr c2), if_pos (gz1.mpr c3),
            if_neg (fun h => gz2.mp h c4)]
          rfl

theorem ProceduralTerrain.getHeight_inGrid {t : ProceduralTerrain F} {size : Int}
    (hs : t.Square size) {p : Int × Int} (hp : inGrid size p = true) :
    t.getHeight p.1 p.2 = some (t.cell p.1 p.2) := by
  simp only [inGrid, decide_eq_true_eq] at hp
  rw [ProceduralTerrain.getHeight_eq_read hs.2.2,
    ProceduralTerrain.read_eq_cell hp.1 (by rw [hs.1]; exact hp.2.1) hp.2.2.1
      (by rw [hs.2.1]; exact hp.2.2.2)]

/-! ## Two runs side by side -/

theorem BothOrNeither.bind {α β : Type} {R : α → α → Prop} {S : β → β → Prop}
    {a b : Option α} {f g : α → Option β} (h : BothOrNeither R a b)
    (hfg : ∀ x y, R x y → BothOrNeither S (f x) (g y)) :
    BothOrNeither S (a.bind f) (b.bind g) := by
  cases a <;> cases b <;> simp only [BothOrNeither] at h <;>
    simp only [Option.bind, BothOrNeither]
  exact hfg _ _ h

theorem BothOrNeither.same {α : Type} (a : Option α) : BothOrNeither Eq a a := by
  cases a <;> simp [BothOrNeither]

theorem foldlM_same {σ ι : Type} (R : σ → σ → Prop) (f g : σ → ι → Option σ) (l : List ι)
    (hfg : ∀ s₁ s₂ i, R s₁ s₂ → BothOrNeither R (f s₁ i) (g s₂ i)) (s₁ s₂ : σ)
    (hs : R s₁ s₂) : BothOrNeither R (l.foldlM f s₁) (l.foldlM g s₂) := by
  induction l generalizing s₁ s₂ with
  | nil => exact hs
  | cons a l ih =>
    simp only [List.foldlM_cons, Option.bind_eq_bind]
    exact (hfg s₁ s₂ a hs).bind (fun x y hxy => ih x y hxy)

theorem sameGrid_getHeight {t₁ t₂ : ProceduralTerrain F} (h : SameGrid t₁ t₂) (x z : Int) :
    t₁.getHeight x z = t₂.getHeight x z := by
  unfold ProceduralTerrain.getHeight
  rw [h.1, h.2.1, h.2.2.1]

theorem sameGrid_setHeight {t₁ t₂ : ProceduralTerrain F} (h : SameGrid t₁ t₂) (x z : Int)
    (v : F) : BothOrNeither SameGrid (t₁.setHeight x z v) (t₂.setHeight x z v) := by
  obtain ⟨hw, hh, hm, hn, hr⟩ := h
  unfold ProceduralTerrain.setHeight
  by_cases hout : x < 0 ∨ x ≥ t₂.width ∨ z < 0 ∨ z ≥ t₂.height
  · rw [if_pos hout, if_pos (by rw [hw, hh]; exact hout)]
    exact ⟨hw, hh, hm, hn, hr⟩
  · rw [if_neg hout, if_neg (by rw [hw, hh]; exact hout), hw, hm]
    simp only [Option.bind_eq_bind]
    refine BothOrNeither.bind (BothOrNeither.same _) (fun d₁ d₂ hd => ?_)
    exact ⟨rfl, hh, hd, hn, hr⟩

theorem sameGrid_draw {t₁ t₂ : ProceduralTerrain F} (h : SameGrid t₁ t₂) :
    (dist t₁.rng).1 = (dist t₂.rng).1 ∧
    SameGrid { t₁ with rng := (dist t₁.rng).2 } { t₂ with rng := (dist t₂.rng).2 } := by
  obtain ⟨hw, hh, hm, hn, hr⟩ := h
  refine ⟨by simpa [dist] using hr 0, hw, hh, hm, hn, ?_⟩
  intro k
  have := hr (k + 1)
  simp only [dist]
  rw [show t₁.rng.pos + 1 + k = t₁.rng.pos + (k + 1) by omega,
    show t₂.rng.pos + 1 + k = t₂.rng.pos + (k + 1) by omega]
  exact this

theorem sameGrid_diamondCell {t₁ t₂ : ProceduralTerrain F} (h : SameGrid t₁ t₂)
    (step halfStep : Int) (scale : F) (z x : Int) :
    BothOrNeither SameGrid (diamondCell step halfStep scale t₁ z x)
      (diamondCell step halfStep scale t₂ z x) := by
  unfold diamondCell
  simp only [sameGrid_getHeight h, (sameGrid_draw h).1, Option.bind_eq_bind]
  refine BothOrNeither.bind (BothOrNeither.same _) (fun a₁ a₂ ha => ?_)
  refine BothOrNeither.bind (BothOrNeither.same _) (fun b₁ b₂ hb => ?_)
  refine BothOrNeither.bind (BothOrNeither.same _) (fun c₁ c₂ hc => ?_)
  refine BothOrNeither.bind (BothOrNeither.same _) (fun d₁ d₂ hd => ?_)
  subst ha hb hc hd
  exact sameGrid_setHeight (sameGrid_draw h).2 _ _ _

theorem sameGrid_squareAverage {t₁ t₂ : ProceduralTerrain F} (h : SameGrid t₁ t₂)
    (size halfStep z x : Int) :
    squareAverage size halfStep t₁ z x = squareAverage size halfStep t₂ z x := by
  unfold squareAverage squareSum addNeighbour
  simp only [sameGrid_getHeight h]

theorem sameGrid_squareCell {t₁ t₂ : ProceduralTerrain F} (h : SameGrid t₁ t₂)
    (size halfStep : Int) (scale : F) (z x : Int) :
    BothOrNeither SameGrid (squareCell size halfStep scale t₁ z x)
      (squareCell size halfStep scale t₂ z x) := by
  unfold squareCell
  simp only [sameGrid_squareAverage h, (sameGrid_draw h).1, Option.bind_eq_bind]
  refine BothOrNeither.bind (BothOrNeither.same _) (fun a₁ a₂ ha => ?_)
  subst ha
  exact sameGrid_setHeight (sameGrid_draw h).2 _ _ _

theorem sameGrid_diamondStep {t₁ t₂ : ProceduralTerrain F} (h : SameGrid t₁ t₂)
    (size step halfStep : Int) (scale : F) :
    BothOrNeither SameGrid (diamondStep size step halfStep scale t₁)
      (diamondStep size step halfStep scale t₂) := by
  unfold diamondStep
  apply foldlM_same SameGrid
  · intro s₁ s₂ z hs
    apply foldlM_same SameGrid
    · intro u₁ u₂ x hu
      exact sameGrid_diamondCell hu _ _ _ _ _
    · exact hs
  · exact h

theorem sameGrid_squareStep {t₁ t₂ : ProceduralTerrain F} (h : SameGrid t₁ t₂)
    (size step halfStep : Int) (scale : F) :
    BothOrNeither SameGrid (squareStep size step halfStep scale t₁)
      (squareStep size step halfStep scale t₂) := by
  unfold squareStep
  apply foldlM_same SameGrid
  · intro s₁ s₂ z hs
    apply foldlM_same SameGrid
    · intro u₁ u₂ x hu
      exact sameGrid_squareCell hu _ _ _ _ _
    · exact hs
  · exact h

theorem sameGrid_diamondSquareLoop (size : Int) (roughness : F) (fuel : Nat) :
    ∀ (step : Int) (scale : F) (t₁ t₂ : ProceduralTerrain F), SameGrid t₁ t₂ →
      BothOrNeither SameGrid (diamondSquareLoop size roughness fuel step scale t₁)
        (diamondSquareLoop size roughness fuel step scale t₂) := by
  induction fuel with
  | zero =>
    intro step scale t₁ t₂ _
    simp [diamondSquareLoop, BothOrNeither]
  | succ f ih =>
    intro step scale t₁ t₂ h
    unfold diamondSquareLoop
    by_cases hstep : step > 1
    · rw [if_pos hstep, if_pos hstep]
      simp only [Option.bind_eq_bind]
      refine BothOrNeither.bind (sameGrid_diamondStep h _ _ _ _) (fun a₁ a₂ ha => ?_)
      refine BothOrNeither.bind (sameGrid_squareStep ha _ _ _ _) (fun b₁ b₂ hb => ?_)
      exact ih _ _ b₁ b₂ hb
    · rw [if_neg hstep, if_neg hstep]
      exact h

theorem vecSet_same_length {α : Type} {v₁ v₂ : List α} (h : v₁.length = v₂.length) (i : Int)
    (a₁ a₂ : α) :
    BothOrNeither (fun l₁ l₂ => l₁.length = l₂.length) (vecSet v₁ i a₁) (vecSet v₂ i a₂) := by
  unfold vecSet
  by_cases hc : i < 0 ∨ v₂.length ≤ i.toNat
  · rw [if_pos hc, if_pos (by rw [h]; exact hc)]
    trivial
  · rw [if_neg hc, if_neg (by rw [h]; exact hc)]
    simp [BothOrNeither, h]

theorem sameGrid_normalCell {t₁ t₂ : ProceduralTerrain F} (h : SameGrid t₁ t₂)
    (normalize₁ normalize₂ : Vec3 F → Vec3 F) (z x : Int) :
    BothOrNeither SameGrid (normalCell normalize₁ t₁ z x) (normalCell normalize₂ t₂ z x) := by
  unfold normalCell
  simp only [sameGrid_getHeight h, Option.bind_eq_bind, h.1]
  refine BothOrNeither.bind (BothOrNeither.same _) (fun a₁ a₂ ha => ?_)
  refine BothOrNeither.bind (BothOrNeither.same _) (fun b₁ b₂ hb => ?_)
  refine BothOrNeither.bind (BothOrNeither.same _) (fun c₁ c₂ hc => ?_)
  refine BothOrNeither.bind (BothOrNeither.same _) (fun d₁ d₂ hd => ?_)
  refine BothOrNeither.bind (vecSet_same_length h.2.2.2.1 _ _ _) (fun n₁ n₂ hn => ?_)
  exact ⟨rfl, h.2.1, h.2.2.1, hn, h.2.2.2.2⟩

theorem sameGrid_calculateNormals {t₁ t₂ : ProceduralTerrain F} (h : SameGrid t₁ t₂)
    (normalize₁ normalize₂ : Vec3 F → Vec3 F) :
    BothOrNeither SameGrid (t₁.calculateNormals normalize₁)
      (t₂.calculateNormals normalize₂) := by
  unfold ProceduralTerrain.calculateNormals
  rw [h.2.1]
  apply foldlM_same SameGrid
  · intro s₁ s₂ z hs
    rw [hs.1]
    apply foldlM_same SameGrid
    · intro u₁ u₂ x hu
      exact sameGrid_normalCell hu _ _ _ _
    · exact hs
  · exact h

theorem sameGrid_generateDiamondSquare {t₁ t₂ : ProceduralTerrain F} (h : SameGrid t₁ t₂)
    (normalize₁ normalize₂ : Vec3 F → Vec3 F) (roughness maxHeight : F) :
    BothOrNeither SameGrid (t₁.generateDiamondSquare normalize₁ roughness maxHeight)
      (t₂.generateDiamondSquare normalize₂ roughness maxHeight) := by
  unfold ProceduralTerrain.generateDiamondSquare
  simp only [Option.bind_eq_bind, h.1]
  refine BothOrNeither.bind (sameGrid_setHeight h _ _ _) (fun a₁ a₂ ha => ?_)
  refine BothOrNeither.bind (sameGrid_setHeight ha _ _ _) (fun b₁ b₂ hb => ?_)
  refine BothOrNeither.bind (sameGrid_setHeight hb _ _ _) (fun c₁ c₂ hc => ?_)
  refine BothOrNeither.bind (sameGrid_setHeight hc _ _ _) (fun d₁ d₂ hd => ?_)
  refine BothOrNeither.bind (sameGrid_diamondSquareLoop _ _ _ _ _ d₁ d₂ hd)
    (fun e₁ e₂ he => ?_)
  exact sameGrid_calculateNormals he _ _

theorem BothOrNeither.map_heightmap {a b : Option (ProceduralTerrain F)}
    (h : BothOrNeither SameGrid a b) :
    a.map (fun t => t.heightmap) = b.map (fun t => t.heightmap) := by
  cases a <;> cases b <;> simp only [BothOrNeither] at h
  · rfl
  · simp only [Option.map_some']
    rw [h.2.2.1]

theorem sameGrid_ctor (gen : Nat → Nat → F) (now₁ now₂ : Nat) (width height : Int)
    (h : ∀ k, gen now₁ k = gen now₂ k) :
    BothOrNeither SameGrid (ProceduralTerrain.ctor gen now₁ width height)
      (ProceduralTerrain.ctor gen now₂ width height) := by
  unfold ProceduralTerrain.ctor vecResize
  by_cases hfit : width * height < 0 ∨ INT_MAX < width * height
  · simp [hfit, BothOrNeither]
  · simp only [if_neg hfit, Option.bind_eq_bind, Option.some_bind, Option.pure_def,
      BothOrNeither]
    exact ⟨rfl, rfl, rfl, rfl, fun k => by simpa using h k⟩

/-! ## The normals that `calculateNormals` stores -/

/-- What `calculateNormals` leaves: the call returns on every terrain that satisfies the
class invariant, it changes neither the grid nor the dimensions nor the generator, and the
normal stored for every cell `(x, z)` of the grid is the normalised `slopeVector` of the
cell. -/
theorem calculateNormals_stored {t : ProceduralTerrain F} (hw : t.WF)
    (normalize : Vec3 F → Vec3 F) :
    ∃ t', t.calculateNormals normalize = some t' ∧ t'.heightmap = t.heightmap ∧
      t'.width = t.width ∧ t'.height = t.height ∧ t'.rng = t.rng ∧ t'.WF ∧
      (∀ x z : Int, 0 ≤ x → x < t.width → 0 ≤ z → z < t.height →
        vecGet t'.normals (z * t.width + x) = some (normalize (slopeVector t x z))) ∧
      (∀ n ∈ t'.normals, n ∈ t.normals ∨ ∃ x z : Int, n = normalize (slopeVector t x z)) := by
  unfold ProceduralTerrain.calculateNormals
  have key : ∀ (t1 : ProceduralTerrain F) (z x : Int),
      (t1.heightmap = t.heightmap ∧ t1.width = t.width ∧ t1.height = t.height ∧
        t1.rng = t.rng ∧ t1.WF ∧
        ∀ n ∈ t1.normals, n ∈ t.normals ∨ ∃ x z : Int, n = normalize (slopeVector t x z)) →
      0 ≤ z → z < t.height → 0 ≤ x → x < t.width →
      ∃ t2, normalCell normalize t1 z x = some t2 ∧
        (t2.heightmap = t.heightmap ∧ t2.width = t.width ∧ t2.height = t.height ∧
          t2.rng = t.rng ∧ t2.WF ∧
          ∀ n ∈ t2.normals, n ∈ t.normals ∨ ∃ x z : Int, n = normalize (slopeVector t x z)) ∧
        (∀ c : Int × Int, c = (x, z) →
          (0 ≤ c.1 → c.1 < t.width → 0 ≤ c.2 → c.2 < t.height →
            vecGet t2.normals (c.2 * t.width + c.1) =
              some (normalize (slopeVector t c.1 c.2)))) ∧
        ∀ c : Int × Int,
          (0 ≤ c.1 → c.1 < t.width → 0 ≤ c.2 → c.2 < t.height →
            vecGet t1.normals (c.2 * t.width + c.1) =
              some (normalize (slopeVector t c.1 c.2))) →
          (0 ≤ c.1 → c.1 < t.width → 0 ≤ c.2 → c.2 < t.height →
            vecGet t2.normals (c.2 * t.width + c.1) =
              some (normalize (slopeVector t c.1 c.2))) := by
    intro t1 z x ⟨e1, e2, e3, e4, hw1, hmem⟩ hz0 hz1 hx0 hx1
    have h0 : 0 ≤ z * t1.width + x := index_nonneg hx0 (by rw [e2]; exact hx1) hz0
    have hlt : (z * t1.width + x).toNat < t1.normals.length :=
      toNat_index_lt hw1.2 hx0 (by rw [e2]; exact hx1) hz0 (by rw [e3]; exact hz1)
    have hslope : Vec3.mk (t1.read (x - 1) z - t1.read (x + 1) z) 2
        (t1.read x (z - 1) - t1.read x (z + 1)) = slopeVector t x z := by
      simp only [slopeVector, ProceduralTerrain.read, ProceduralTerrain.cell, e1, e2, e3]
    have hset : vecSet t1.normals (z * t1.width + x) (normalize (slopeVector t x z)) =
        some (t1.normals.set (z * t1.width + x).toNat (normalize (slopeVector t x z))) :=
      vecSet_isSome _ _ h0 hlt
    let ns : List (Vec3 F) :=
      t1.normals.set (z * t1.width + x).toNat (normalize (slopeVector t x z))
    refine ⟨{ t1 with normals := ns }, ?_, ⟨e1, e2, e3, e4, ⟨hw1.1, by simpa [ns] using hw1.2⟩,
      ?_⟩, ?_, ?_⟩
    · unfold normalCell
      simp only [ProceduralTerrain.getHeight_eq_read hw1, Option.bind_eq_bind,
        Option.some_bind, hslope, hset]
      rfl
    · intro n hn
      rcases List.mem_or_eq_of_mem_set hn with h | h
      · exact hmem n h
      · exact Or.inr ⟨x, z, h⟩
    · rintro c rfl _ _ _ _
      show vecGet ns (z * t.width + x) = _
      rw [← e2]
      exact vecGet_vecSet_self hset
    · intro c hc c0 c1 c2 c3
      show vecGet ns (c.2 * t.width + c.1) = _
      by_cases hcx : z * t1.width + x = c.2 * t.width + c.1
      · rw [← hcx]
        rw [← e2] at hcx
        obtain ⟨rfl, rfl⟩ := index_inj hx0 (by rw [e2]; exact hx1) c0 (by rw [e2]; exact c1) hcx
        exact vecGet_vecSet_self hset
      · rw [vecGet_vecSet_ne hset (index_nonneg c0 c1 c2) hcx]
        exact hc c0 c1 c2 c3
  obtain ⟨t', e, ⟨f1, f2, f3, f4, hw', hmem⟩, hk, -⟩ := foldlM_cover
    (fun t1 : ProceduralTerrain F => t1.heightmap = t.heightmap ∧ t1.width = t.width ∧
      t1.height = t.height ∧ t1.rng = t.rng ∧ t1.WF ∧
      ∀ n ∈ t1.normals, n ∈ t.normals ∨ ∃ x z : Int, n = normalize (slopeVector t x z))
    (fun (t1 : ProceduralTerrain F) (c : Int × Int) =>
      0 ≤ c.1 → c.1 < t.width → 0 ≤ c.2 → c.2 < t.height →
        vecGet t1.normals (c.2 * t.width + c.1) = some (normalize (slopeVector t c.1 c.2)))
    (fun (z : Int) (c : Int × Int) => ∃ x ∈ forLoop 0 t.width 1, c = (x, z))
    (fun t1 z => (forLoop 0 t1.width 1).foldlM (fun t2 x => normalCell normalize t2 z x) t1)
    (forLoop 0 t.height 1) (by
      intro t1 z hz ht1
      obtain ⟨hz0, hz1, -⟩ := mem_forLoop (by norm_num) hz
      beta_reduce
      rw [ht1.2.1]
      obtain ⟨t2, e2, hq2, hk2, hst2⟩ := foldlM_cover
        (fun t1 : ProceduralTerrain F => t1.heightmap = t.heightmap ∧ t1.width = t.width ∧
          t1.height = t.height ∧ t1.rng = t.rng ∧ t1.WF ∧
          ∀ n ∈ t1.normals, n ∈ t.normals ∨ ∃ x z : Int, n = normalize (slopeVector t x z))
        (fun (t1 : ProceduralTerrain F) (c : Int × Int) =>
          0 ≤ c.1 → c.1 < t.width → 0 ≤ c.2 → c.2 < t.height →
            vecGet t1.normals (c.2 * t.width + c.1) =
              some (normalize (slopeVector t c.1 c.2)))
        (fun (x : Int) (c : Int × Int) => c = (x, z))
        (fun t2 x => normalCell normalize t2 z x)
        (forLoop 0 t.width 1) (by
          intro t2 x hx ht2
          obtain ⟨hx0, hx1, -⟩ := mem_forLoop (by norm_num) hx
          exact key t2 z x ht2 hz0 hz1 hx0 hx1) t1 ht1
      refine ⟨t2, e2, hq2, ?_, hst2⟩
      rintro c ⟨x, hx, rfl⟩
      exact hk2 x hx _ rfl) t ⟨rfl, rfl, rfl, rfl, hw, fun n hn => Or.inl hn⟩
  refine ⟨t', e, f1, f2, f3, f4, hw', ?_, hmem⟩
  intro x z hx0 hx1 hz0 hz1
  have hz : z ∈ forLoop 0 t.height 1 :=
    forLoop_mem (le_refl _) hz0 hz1 (one_dvd _)
  have hx : x ∈ forLoop 0 t.width 1 :=
    forLoop_mem (le_refl _) hx0 hx1 (one_dvd _)
  exact hk z hz (x, z) ⟨x, hx, rfl⟩ hx0 hx1 hz0 hz1

theorem index_split {w h i : Int} (hw : 0 < w) (hi : 0 ≤ i) (hlt : i < w * h) :
    0 ≤ i % w ∧ i % w < w ∧ 0 ≤ i / w ∧ i / w < h ∧ i / w * w + i % w = i := by
  refine ⟨Int.emod_nonneg _ (by omega), Int.emod_lt_of_pos _ hw, Int.ediv_nonneg hi (by omega),
    ?_, ?_⟩
  · exact Int.ediv_lt_of_lt_mul hw (by rw [mul_comm]; exact hlt)
  · rw [mul_comm]
    exact Int.ediv_add_emod i w

/-- The vector `(a, 2, b)` has squared length at least 4, its length is at least 2, hence
not 0, and `glm::normalize` maps it to a vector of squared length 1. -/
theorem glmNormalize_slope {sqrt : F → F} (hs : IsSqrt sqrt) (a b : F) :
    4 ≤ dot (Vec3.mk a 2 b) (Vec3.mk a 2 b) ∧
    2 ≤ sqrt (dot (Vec3.mk a 2 b) (Vec3.mk a 2 b)) ∧
    sqrt (dot (Vec3.mk a 2 b) (Vec3.mk a 2 b)) ≠ 0 ∧
    dot (glmNormalize sqrt (Vec3.mk a 2 b)) (glmNormalize sqrt (Vec3.mk a 2 b)) = 1 := by
  have hd : dot (Vec3.mk a 2 b) (Vec3.mk a 2 b) = a * a + 2 * 2 + b * b := rfl
  have h4 : 4 ≤ dot (Vec3.mk a 2 b) (Vec3.mk a 2 b) := by
    rw [hd]
    nlinarith [mul_self_nonneg a, mul_self_nonneg b]
  obtain ⟨hs0, hss⟩ := hs _ (le_trans (by norm_num) h4)
  have h2 : 2 ≤ sqrt (dot (Vec3.mk a 2 b) (Vec3.mk a 2 b)) := by
    by_contra hlt
    push_neg at hlt
    nlinarith
  have hne : sqrt (dot (Vec3.mk a 2 b) (Vec3.mk a 2 b)) ≠ 0 := by
    intro h0
    rw [h0] at h2
    linarith
  refine ⟨h4, h2, hne, ?_⟩
  generalize hsdef : sqrt (dot (Vec3.mk a 2 b) (Vec3.mk a 2 b)) = s at hss hne
  have e : glmNormalize sqrt (Vec3.mk a 2 b) =
      Vec3.mk (a * (1 / s)) (2 * (1 / s)) (b * (1 / s)) := by
    simp only [glmNormalize, hsdef]
  rw [hd] at hss
  rw [e]
  simp only [dot]
  field_simp
  linarith [hss]

/-! ## The rounds of the loop and its termination -/

theorem tdiv_two_facts {step : Int} (h : step > 1) :
    1 ≤ Int.tdiv step 2 ∧ 2 * Int.tdiv step 2 ≤ step ∧ Int.tdiv step 2 < step := by
  rw [Int.tdiv_eq_ediv (by omega) (by norm_num)]
  omega

/-- The loop is the fold of the round body over the schedule of its rounds, when the fuel
exceeds `step`. -/
theorem diamondSquareLoop_eq_fold (size : Int) (roughness : F) (fuel : Nat) :
    ∀ (step : Int) (scale : F) (t : ProceduralTerrain F), step.toNat < fuel →
      diamondSquareLoop size roughness fuel step scale t =
        (roundSchedule roughness fuel step scale).foldlM (roundBody size) t := by
  induction fuel with
  | zero => intro step scale t h; omega
  | succ f ih =>
    intro step scale t h
    unfold diamondSquareLoop roundSchedule
    by_cases hstep : step > 1
    · have hf := tdiv_two_facts hstep
      rw [if_pos hstep, if_pos hstep, List.foldlM_cons]
      simp only [roundBody, Option.bind_eq_bind, Option.bind_assoc]
      congr 1
      funext t1
      congr 1
      funext t2
      exact ih _ _ _ (by omega)
    · rw [if_neg hstep, if_neg hstep]
      rfl

theorem roundSchedule_scale (roughness : F) (fuel : Nat) :
    ∀ (step : Int) (scale : F) (k : Nat) (p : Int × F),
      (roundSchedule roughness fuel step scale)[k]? = some p → p.2 = scale * roughness ^ k := by
  induction fuel with
  | zero => intro step scale k p h; simp [roundSchedule] at h
  | succ f ih =>
    intro step scale k p h
    unfold roundSchedule at h
    by_cases hstep : step > 1
    · rw [if_pos hstep] at h
      cases k with
      | zero =>
        simp only [List.getElem?_cons_zero, Option.some.injEq] at h
        rw [← h]
        simp
      | succ k =>
        simp only [List.getElem?_cons_succ] at h
        rw [ih _ _ k p h, pow_succ]
        ring
    · rw [if_neg hstep] at h
      simp at h

theorem roundSchedule_pow (roughness : F) (n : Nat) :
    ∀ (fuel : Nat) (scale : F), n < fuel →
      (roundSchedule roughness fuel (2 ^ n) scale).length = n ∧
      ∀ i : Nat, i < n →
        (roundSchedule roughness fuel (2 ^ n) scale)[i]? =
          some ((2 : Int) ^ (n - i), scale * roughness ^ i) := by
  induction n with
  | zero =>
    intro fuel scale h
    obtain ⟨f, rfl⟩ : ∃ f, fuel = f + 1 := ⟨fuel - 1, by omega⟩
    simp [roundSchedule]
  | succ n ih =>
    intro fuel scale h
    obtain ⟨f, rfl⟩ : ∃ f, fuel = f + 1 := ⟨fuel - 1, by omega⟩
    have hgt : (2 : Int) ^ (n + 1) > 1 := by
      have : (1 : Int) ≤ 2 ^ n := one_le_pow₀ (by norm_num)
      rw [pow_succ]
      omega
    obtain ⟨hlen, hent⟩ := ih f (scale * roughness) (by omega)
    unfold roundSchedule
    rw [if_pos hgt, tdiv_pow_succ]
    refine ⟨by simp [hlen], ?_⟩
    intro i hi
    cases i with
    | zero => simp
    | succ i =>
      simp only [List.getElem?_cons_succ]
      rw [hent i (by omega), pow_succ]
      congr 2
      · congr 1
        omega
      · ring

theorem setHeight_total {w h : Int} {t : ProceduralTerrain F} (ht : Sized w h t) (x z : Int)
    (v : F) : ∃ t', t.setHeight x z v = some t' ∧ Sized w h t' := by
  by_cases hout : x < 0 ∨ x ≥ t.width ∨ z < 0 ∨ z ≥ t.height
  · exact ⟨t, if_pos hout, ht⟩
  · obtain ⟨t', e, wr⟩ := ProceduralTerrain.setHeight_writes ht.1 (x := x) (z := z)
      (by omega) (by omega) (by omega) (by omega) v
    exact ⟨t', e, wr.2.2.2.2.2.1, wr.1.trans ht.2.1, wr.2.1.trans ht.2.2⟩

theorem diamondCell_total {w h : Int} {t : ProceduralTerrain F} (ht : Sized w h t)
    (step halfStep : Int) (scale : F) (z x : Int) :
    ∃ t', diamondCell step halfStep scale t z x = some t' ∧ Sized w h t' := by
  obtain ⟨t', e, hs⟩ := setHeight_total (t := { t with rng := (dist t.rng).2 }) ht
    (x + halfStep) (z + halfStep)
    ((t.read x z + t.read (x + step) z + t.read x (z + step) +
      t.read (x + step) (z + step)) / 4 + |(dist t.rng).1| * scale)
  refine ⟨t', ?_, hs⟩
  unfold diamondCell
  simp only [ProceduralTerrain.getHeight_eq_read ht.1, Option.bind_eq_bind, Option.some_bind]
  exact e

theorem squareCell_total {w h : Int} {t : ProceduralTerrain F} (ht : Sized w h t)
    (size halfStep : Int) (scale : F) (z x : Int)
    (hne : squareReads size halfStep x z ≠ []) :
    ∃ t', squareCell size halfStep scale t z x = some t' ∧ Sized w h t' := by
  obtain ⟨t', e, hs⟩ := setHeight_total (t := { t with rng := (dist t.rng).2 }) ht x z
    |squareMean size halfStep t x z + (dist t.rng).1 * scale|
  refine ⟨t', ?_, hs⟩
  unfold squareCell
  simp only [squareAverage_eq ht.1 hne, Option.bind_eq_bind, Option.some_bind]
  exact e

/-- One round returns on every terrain that satisfies the class invariant, for every grid
size, when `1 < step ≤ size - 1`: in the square step at least one of the guards holds at
every visited cell, so the count is not 0. -/
theorem roundBody_total {w h : Int} {t : ProceduralTerrain F} (ht : Sized w h t)
    (size step : Int) (scale : F) (h1 : step > 1) (h2 : step ≤ size - 1) :
    ∃ t', roundBody size t (step, scale) = some t' ∧ Sized w h t' := by
  have hf := tdiv_two_facts h1
  obtain ⟨t1, e1, s1⟩ := foldlM_invariant (Sized w h)
    (fun t z => (forLoop 0 (size - 1) step).foldlM
      (fun t x => diamondCell step (Int.tdiv step 2) scale t z x) t)
    (forLoop 0 (size - 1) step)
    (fun t1 z _ ht1 => foldlM_invariant (Sized w h)
      (fun t x => diamondCell step (Int.tdiv step 2) scale t z x)
      (forLoop 0 (size - 1) step)
      (fun t2 x _ ht2 => diamondCell_total ht2 _ _ _ _ _) t1 ht1) t ht
  obtain ⟨t2, e2, s2⟩ := foldlM_invariant (Sized w h)
    (fun t z => (forLoop (Int.tmod (z + Int.tdiv step 2) step) size step).foldlM
      (fun t x => squareCell size (Int.tdiv step 2) scale t z x) t)
    (forLoop 0 size (Int.tdiv step 2))
    (fun t1 z hz ht1 => foldlM_invariant (Sized w h)
      (fun t x => squareCell size (Int.tdiv step 2) scale t z x)
      (forLoop (Int.tmod (z + Int.tdiv step 2) step) size step)
      (fun t2 x hx ht2 => by
        obtain ⟨hz0, -, -⟩ := mem_forLoop (by omega) hz
        obtain ⟨hx0, hx1, -⟩ := mem_forLoop (by omega) hx
        rw [Int.tmod_eq_emod (by omega) (by omega)] at hx0
        have hm : 0 ≤ (z + Int.tdiv step 2) % step := Int.emod_nonneg _ (by omega)
        exact squareCell_total ht2 _ _ _ _ _ (squareReads_ne_nil (by omega))) t1 ht1) t1 s1
  refine ⟨t2, ?_, s2⟩
  unfold roundBody diamondStep squareStep
  simp only [Option.bind_eq_bind]
  rw [e1]
  exact e2

theorem diamondSquareLoop_total {w h : Int} (size : Int) (roughness : F) (fuel : Nat) :
    ∀ (step : Int) (scale : F) (t : ProceduralTerrain F), step.toNat < fuel →
      step ≤ size - 1 → Sized w h t →
      ∃ t', diamondSquareLoop size roughness fuel step scale t = some t' ∧ Sized w h t' := by
  induction fuel with
  | zero => intro step scale t hf; omega
  | succ f ih =>
    intro step scale t hf hle ht
    unfold diamondSquareLoop
    by_cases hstep : step > 1
    · have hfacts := tdiv_two_facts hstep
      obtain ⟨t1, e1, s1⟩ := roundBody_total ht size step scale hstep hle
      obtain ⟨t2, e2, s2⟩ := ih (Int.tdiv step 2) (scale * roughness) t1 (by omega) (by omega) s1
      refine ⟨t2, ?_, s2⟩
      rw [if_pos hstep]
      unfold roundBody at e1
      simp only [Option.bind_eq_bind] at e1 ⊢
      cases hd : diamondStep size step (Int.tdiv step 2) scale t with
      | none => simp [hd] at e1
      | some td =>
        rw [hd] at e1
        simp only [Option.some_bind] at e1 ⊢
        rw [e1]
        exact e2
    · exact ⟨t, by rw [if_neg hstep]; rfl, ht⟩

/-- The method `generateDiamondSquare` returns on every terrain that satisfies the class
invariant, whatever its dimensions. -/
theorem generateDiamondSquare_total {t : ProceduralTerrain F} (hw : t.WF)
    (normalize : Vec3 F → Vec3 F) (roughness maxHeight : F) :
    ∃ t', t.generateDiamondSquare normalize roughness maxHeight = some t' ∧ t'.WF ∧
      t'.width = t.width ∧ t'.height = t.height := by
  have h0 : Sized t.width t.height t := ⟨hw, rfl, rfl⟩
  obtain ⟨t1, e1, s1⟩ := setHeight_total h0 0 0 0
  obtain ⟨t2, e2, s2⟩ := setHeight_total s1 0 (t.width - 1) 0
  obtain ⟨t3, e3, s3⟩ := setHeight_total s2 (t.width - 1) 0 0
  obtain ⟨t4, e4, s4⟩ := setHeight_total s3 (t.width - 1) (t.width - 1) 0
  obtain ⟨t5, e5, s5⟩ := diamondSquareLoop_total t.width roughness ((t.width - 1).toNat + 1)
    (t.width - 1) maxHeight t4 (Nat.lt_succ_self _) (le_refl _) s4
  obtain ⟨t6, e6, -, f2, f3, -, hw6⟩ := ProceduralTerrain.calculateNormals_spec s5.1 normalize
  refine ⟨t6, ?_, hw6, f2.trans s5.2.1, f3.trans s5.2.2⟩
  unfold ProceduralTerrain.generateDiamondSquare
  simp only [e1, e2, e3, e4, e5, Option.bind_eq_bind, Option.some_bind]
  exact e6

/-! ## The run as a sequence of operations -/

theorem foldlM_bind_map {σ α β γ : Type} (f : σ → γ → Option σ) (g : α → List β)
    (mk : α → β → γ) (l : List α) (s : σ) :
    (l.flatMap (fun a => (g a).map (mk a))).foldlM f s =
      l.foldlM (fun s a => (g a).foldlM (fun s b => f s (mk a b)) s) s := by
  induction l generalizing s with
  | nil => rfl
  | cons a l ih =>
    rw [List.flatMap_cons, List.foldlM_append, List.foldlM_cons, List.foldlM_map]
    cases h : (g a).foldlM (fun s b => f s (mk a b)) s with
    | none => rfl
    | some s' => exact ih s'

theorem runAll_append (l₁ l₂ : List (CellOp F)) (t : ProceduralTerrain F) :
    runAll (l₁ ++ l₂) t = (runAll l₁ t).bind (runAll l₂) := by
  unfold runAll
  rw [List.foldlM_append]
  rfl

theorem runAll_diamondOps (size step halfStep : Int) (scale : F) (t : ProceduralTerrain F) :
    runAll (diamondOps size step halfStep scale) t = diamondStep size step halfStep scale t := by
  unfold runAll diamondOps diamondStep
  rw [foldlM_bind_map]
  rfl

theorem runAll_squareOps (size step halfStep : Int) (scale : F) (t : ProceduralTerrain F) :
    runAll (squareOps size step halfStep scale) t = squareStep size step halfStep scale t := by
  unfold runAll squareOps squareStep
  rw [foldlM_bind_map]
  rfl

theorem runAll_roundOps (size : Int) (p : Int × F) (t : ProceduralTerrain F) :
    runAll (roundOps size p) t = roundBody size t p := by
  unfold roundOps roundBody
  rw [runAll_append, runAll_diamondOps]
  simp only [Option.bind_eq_bind]
  congr 1
  funext t1
  exact runAll_squareOps _ _ _ _ _

theorem runAll_bind_rounds (size : Int) (l : List (Int × F)) (t : ProceduralTerrain F) :
    runAll (l.flatMap (roundOps size)) t = l.foldlM (roundBody size) t := by
  induction l generalizing t with
  | nil => rfl
  | cons p l ih =>
    rw [List.flatMap_cons, runAll_append, runAll_roundOps, List.foldlM_cons]
    cases h : roundBody size t p with
    | none => rfl
    | some t1 => exact ih t1

theorem runAll_loopOps (size : Int) (roughness maxHeight : F) (t : ProceduralTerrain F) :
    runAll (loopOps size roughness maxHeight) t =
      diamondSquareLoop size roughness ((size - 1).toNat + 1) (size - 1) maxHeight t := by
  unfold loopOps
  rw [runAll_bind_rounds, diamondSquareLoop_eq_fold _ _ _ _ _ _ (Nat.lt_succ_self _)]

/-- The method `generateDiamondSquare` is the execution of `runOps`, one operation after the
other, followed by `calculateNormals`. -/
theorem generateDiamondSquare_eq_runAll (normalize : Vec3 F → Vec3 F) (t : ProceduralTerrain F)
    (roughness maxHeight : F) :
    t.generateDiamondSquare normalize roughness maxHeight =
      (runAll (runOps t.width roughness maxHeight) t).bind
        (fun t => t.calculateNormals normalize) := by
  unfold runOps
  rw [runAll_append]
  unfold ProceduralTerrain.generateDiamondSquare seedOps
  simp only [runAll, List.foldlM_cons, List.foldlM_nil, CellOp.run, Option.bind_eq_bind,
    Option.bind_assoc, Option.pure_def, Option.bind_some]
  congr 1; funext t1
  congr 1; funext t2
  congr 1; funext t3
  congr 1; funext t4
  rw [← runAll_loopOps t.width roughness maxHeight t4]
  rfl

/-! ## The fade curve -/

/-- The difference of two values of `_fade` is the difference of the arguments times a sum of
squares: `_fade` is the integral of `30 u^2 (1 - u)^2`. -/
theorem fade_sub (s t : F) :
    NoiseGenerator._fade t - NoiseGenerator._fade s =
      (t - s) * (30 * (((s + t) / 2 * (1 - (s + t) / 2) - ((t - s) / 2) ^ 2 / 3) ^ 2 +
        4 / 45 * ((t - s) / 2) ^ 4 + (1 - 2 * ((s + t) / 2)) ^ 2 * ((t - s) / 2) ^ 2 / 3)) := by
  unfold NoiseGenerator._fade
  ring

theorem fade_mono {s t : F} (hst : s ≤ t) : NoiseGenerator._fade s ≤ NoiseGenerator._fade t := by
  have h := fade_sub s t
  have h2 : 0 ≤ (t - s) * (30 * (((s + t) / 2 * (1 - (s + t) / 2) - ((t - s) / 2) ^ 2 / 3) ^ 2 +
        4 / 45 * ((t - s) / 2) ^ 4 + (1 - 2 * ((s + t) / 2)) ^ 2 * ((t - s) / 2) ^ 2 / 3)) := by
    apply mul_nonneg (by linarith)
    positivity
  linarith

/-! ## Rounds and operations on a grid of any size -/

theorem roundSchedule_mem (roughness : F) (fuel : Nat) :
    ∀ (step : Int) (scale : F) (p : Int × F), p ∈ roundSchedule roughness fuel step scale →
      1 < p.1 ∧ p.1 ≤ step ∧ (0 ≤ roughness → 0 ≤ scale → 0 ≤ p.2) := by
  induction fuel with
  | zero => intro step scale p hp; simp [roundSchedule] at hp
  | succ f ih =>
    intro step scale p hp
    unfold roundSchedule at hp
    by_cases hstep : step > 1
    · rw [if_pos hstep] at hp
      rcases List.mem_cons.mp hp with rfl | hp
      · exact ⟨hstep, le_refl _, fun _ h => h⟩
      · obtain ⟨h1, h2, h3⟩ := ih _ _ p hp
        have hf := tdiv_two_facts hstep
        exact ⟨h1, by omega, fun hr hs => h3 hr (mul_nonneg hs hr)⟩
    · rw [if_neg hstep] at hp
      simp at hp

theorem mem_diamondOps {size step halfStep : Int} {scale : F} {op : CellOp F}
    (h : op ∈ diamondOps size step halfStep scale) :
    ∃ z ∈ forLoop 0 (size - 1) step, ∃ x ∈ forLoop 0 (size - 1) step,
      op = CellOp.diamond step halfStep scale z x := by
  unfold diamondOps at h
  obtain ⟨z, hz, hm⟩ := List.mem_flatMap.mp h
  obtain ⟨x, hx, rfl⟩ := List.mem_map.mp hm
  exact ⟨z, hz, x, hx, rfl⟩

theorem mem_squareOps {size step halfStep : Int} {scale : F} {op : CellOp F}
    (h : op ∈ squareOps size step halfStep scale) :
    ∃ z ∈ forLoop 0 size halfStep, ∃ x ∈ forLoop (Int.tmod (z + halfStep) step) size step,
      op = CellOp.square size halfStep scale z x := by
  unfold squareOps at h
  obtain ⟨z, hz, hm⟩ := List.mem_flatMap.mp h
  obtain ⟨x, hx, rfl⟩ := List.mem_map.mp hm
  exact ⟨z, hz, x, hx, rfl⟩

/-- In a round with `1 < step ≤ size - 1`, at every cell at least two of the four guards of
the square step hold: one of the two tests on `x` and one of the two tests on `z`. -/
theorem squareReads_two_le {size step : Int} (h1 : step > 1) (h2 : step ≤ size - 1)
    (x z : Int) : 2 ≤ (squareReads size (Int.tdiv step 2) x z).length := by
  have hf := tdiv_two_facts h1
  unfold squareReads
  simp only [List.length_append]
  have hx : x ≥ Int.tdiv step 2 ∨ x + Int.tdiv step 2 < size := by omega
  have hz : z ≥ Int.tdiv step 2 ∨ z + Int.tdiv step 2 < size := by omega
  have a1 : 1 ≤ (if x ≥ Int.tdiv step 2 then [(x - Int.tdiv step 2, z)] else []).length +
      (if x + Int.tdiv step 2 < size then [(x + Int.tdiv step 2, z)] else []).length := by
    rcases hx with h | h
    · rw [if_pos h]; simp
    · rw [if_pos h]; simp
  have a2 : 1 ≤ (if z ≥ Int.tdiv step 2 then [(x, z - Int.tdiv step 2)] else []).length +
      (if z + Int.tdiv step 2 < size then [(x, z + Int.tdiv step 2)] else []).length := by
    rcases hz with h | h
    · rw [if_pos h]; simp
    · rw [if_pos h]; simp
  omega

theorem diamondCell_eq {t : ProceduralTerrain F} (hw : t.WF) (step halfStep : Int) (scale : F)
    (z x : Int) :
    diamondCell step halfStep scale t z x =
      ({ t with rng := (dist t.rng).2 }).setHeight (x + halfStep) (z + halfStep)
        ((t.read x z + t.read (x + step) z + t.read x (z + step) +
          t.read (x + step) (z + step)) / 4 + |(dist t.rng).1| * scale) := by
  unfold diamondCell
  simp only [ProceduralTerrain.getHeight_eq_read hw, Option.bind_eq_bind, Option.some_bind]

theorem squareCell_eq {t : ProceduralTerrain F} (hw : t.WF) (size halfStep : Int) (scale : F)
    (z x : Int) (hne : squareReads size halfStep x z ≠ []) :
    squareCell size halfStep scale t z x =
      ({ t with rng := (dist t.rng).2 }).setHeight x z
        |squareMean size halfStep t x z + (dist t.rng).1 * scale| := by
  unfold squareCell
  simp only [squareAverage_eq hw hne, Option.bind_eq_bind, Option.some_bind]

theorem setHeight_nonNeg {t t' : ProceduralTerrain F} {x z : Int} {v : F} (hv : 0 ≤ v)
    (h : NonNeg t) (e : t.setHeight x z v = some t') : NonNeg t' := by
  unfold ProceduralTerrain.setHeight at e
  by_cases hout : x < 0 ∨ x ≥ t.width ∨ z < 0 ∨ z ≥ t.height
  · rw [if_pos hout] at e
    rw [← Option.some.inj e]
    exact h
  · rw [if_neg hout] at e
    unfold vecSet at e
    by_cases hi : z * t.width + x < 0 ∨ t.heightmap.length ≤ (z * t.width + x).toNat
    · rw [if_pos hi] at e
      simp at e
    · rw [if_neg hi] at e
      simp only [Option.bind_eq_bind, Option.some_bind, Option.pure_def, Option.some.injEq] at e
      rw [← e]
      intro u hu
      rcases List.mem_or_eq_of_mem_set hu with hu | rfl
      · exact h u hu
      · exact hv

theorem read_nonneg {t : ProceduralTerrain F} (h : NonNeg t) (x z : Int) : 0 ≤ t.read x z := by
  unfold ProceduralTerrain.read
  split
  · exact le_refl _
  · unfold ProceduralTerrain.cell
    rw [List.getD_eq_getElem?_getD]
    cases hg : t.heightmap[(z * t.width + x).toNat]? with
    | none => simp
    | some u => exact h u (List.getElem?_mem hg)

theorem squareMean_nonneg {t : ProceduralTerrain F} (h : NonNeg t) (size halfStep x z : Int) :
    0 ≤ squareMean size halfStep t x z := by
  unfold squareMean
  apply div_nonneg
  · apply List.sum_nonneg
    intro u hu
    obtain ⟨p, -, rfl⟩ := List.mem_map.mp hu
    exact read_nonneg h _ _
  · exact_mod_cast Int.ofNat_nonneg _

/-- Every operation of the run, on a grid of any size, returns, keeps the class invariant and
the dimensions, and leaves no negative height when there was none and the scales are not
negative. -/
theorem runOps_step {w h : Int} {roughness maxHeight : F} (size : Int)
    {op : CellOp F} (hop : op ∈ runOps size roughness maxHeight)
    (t : ProceduralTerrain F) (ht : Sized w h t) :
    ∃ t', op.run t = some t' ∧ Sized w h t' ∧
      (0 ≤ roughness → 0 ≤ maxHeight → NonNeg t → NonNeg t') := by
  unfold runOps at hop
  rcases List.mem_append.mp hop with hs | hl
  · unfold seedOps at hs
    have hseed : ∃ x z, op = CellOp.seed x z := by
      simp only [List.mem_cons, List.mem_singleton, List.not_mem_nil, or_false] at hs
      rcases hs with rfl | rfl | rfl | rfl <;> exact ⟨_, _, rfl⟩
    obtain ⟨x, z, rfl⟩ := hseed
    obtain ⟨t', e, s⟩ := setHeight_total ht x z 0
    exact ⟨t', e, s, fun _ _ hn => setHeight_nonNeg (le_refl _) hn e⟩
  · unfold loopOps at hl
    obtain ⟨p, hp, hr⟩ := List.mem_flatMap.mp hl
    obtain ⟨p1, p2, p3⟩ := roundSchedule_mem _ _ _ _ p hp
    unfold roundOps at hr
    rcases List.mem_append.mp hr with hd | hq
    · obtain ⟨z, -, x, -, rfl⟩ := mem_diamondOps hd
      obtain ⟨t', e, s⟩ := diamondCell_total ht p.1 (Int.tdiv p.1 2) p.2 z x
      refine ⟨t', e, s, fun h1 h2 hn => ?_⟩
      rw [diamondCell_eq ht.1] at e
      refine setHeight_nonNeg ?_ (show NonNeg { t with rng := (dist t.rng).2 } from hn) e
      have r1 := read_nonneg hn x z
      have r2 := read_nonneg hn (x + p.1) z
      have r3 := read_nonneg hn x (z + p.1)
      have r4 := read_nonneg hn (x + p.1) (z + p.1)
      have := mul_nonneg (abs_nonneg (dist t.rng).1) (p3 h1 h2)
      have : 0 ≤ (t.read x z + t.read (x + p.1) z + t.read x (z + p.1) +
          t.read (x + p.1) (z + p.1)) / 4 := div_nonneg (by linarith) (by norm_num)
      linarith
    · obtain ⟨z, -, x, -, rfl⟩ := mem_squareOps hq
      have hne : squareReads size (Int.tdiv p.1 2) x z ≠ [] := by
        intro hnil
        have := squareReads_two_le p1 p2 x z
        rw [hnil] at this
        simp at this
      obtain ⟨t', e, s⟩ := squareCell_total ht size (Int.tdiv p.1 2) p.2 z x hne
      refine ⟨t', e, s, fun _ _ hn => ?_⟩
      rw [squareCell_eq ht.1 _ _ _ _ _ hne] at e
      exact setHeight_nonNeg (abs_nonneg _)
        (show NonNeg { t with rng := (dist t.rng).2 } from hn) e

theorem foldlM_take_invariant {σ ι : Type} (P : σ → Prop) (f : σ → ι → Option σ) (l : List ι)
    (hf : ∀ s i, i ∈ l → P s → ∃ s', f s i = some s' ∧ P s') (s : σ) (hs : P s) (k : Nat) :
    ∃ s', (l.take k).foldlM f s = some s' ∧ P s' :=
  foldlM_invariant P f (l.take k) (fun s i hi => hf s i (List.mem_of_mem_take hi)) s hs

theorem read_congr {s t : ProceduralTerrain F} (h1 : s.heightmap = t.heightmap)
    (h2 : s.width = t.width) (h3 : s.height = t.height) (x z : Int) :
    s.read x z = t.read x z := by
  unfold ProceduralTerrain.read ProceduralTerrain.cell
  rw [h1, h2, h3]

/-! ## The mesh -/

theorem forIndices_length_one (bound : Int) :
    ∀ (fuel : Nat) (start : Int), fuel = (bound - start).toNat →
      (forIndices fuel start bound 1).length = fuel := by
  intro fuel
  induction fuel with
  | zero => intro start _; rfl
  | succ f ih =>
    intro start hf
    unfold forIndices
    rw [if_pos (by omega), List.length_cons, ih (start + 1) (by omega)]

theorem forLoop_length_one (start bound : Int) :
    (forLoop start bound 1).length = (bound - start).toNat :=
  forIndices_length_one bound _ start rfl

theorem foldlM_length {α ι : Type} (c : Nat) (f : List α → ι → Option (List α)) (l : List ι)
    (hf : ∀ vs i, i ∈ l → ∃ vs', f vs i = some vs' ∧ vs'.length = vs.length + c)
    (vs : List α) :
    ∃ vs', l.foldlM f vs = some vs' ∧ vs'.length = vs.length + c * l.length := by
  induction l generalizing vs with
  | nil => exact ⟨vs, rfl, by simp⟩
  | cons i l ih =>
    obtain ⟨v1, e1, h1⟩ := hf vs i (List.mem_cons_self _ _)
    obtain ⟨v2, e2, h2⟩ := ih (fun vs j hj => hf vs j (List.mem_cons_of_mem _ hj)) v1
    refine ⟨v2, ?_, ?_⟩
    · rw [List.foldlM_cons, e1]
      exact e2
    · rw [h2, h1, List.length_cons]
      ring

theorem foldl_invariant {σ ι : Type} (P : σ → Nat → Prop) (f : σ → ι → σ) (l : List ι)
    (hf : ∀ s k i, i ∈ l → P s k → P (f s i) (k + 1)) (s : σ) (k : Nat) (hs : P s k) :
    P (l.foldl f s) (k + l.length) := by
  induction l generalizing s k with
  | nil => exact hs
  | cons i l ih =>
    rw [List.foldl_cons, List.length_cons]
    have := ih (fun s k j hj => hf s k j (List.mem_cons_of_mem _ hj)) (f s i) (k + 1)
      (hf s k i (List.mem_cons_self _ _) hs)
    rw [show k + (l.length + 1) = k + 1 + l.length by omega]
    exact this

theorem toUnsigned_le {i : Int} (h : 0 ≤ i) : ((toUnsigned i : Nat) : Int) ≤ i := by
  unfold toUnsigned
  omega


theorem meshVertex_length {t : ProceduralTerrain F} (hw : t.WF) {x z : Int} (hx : 0 ≤ x)
    (hxw : x < t.width) (hz : 0 ≤ z) (hzh : z < t.height) (vs : List F) :
    ∃ vs', meshVertex t z x vs = some vs' ∧ vs'.length = vs.length + 6 := by
  have h0 := index_nonneg hx hxw hz
  have hlt : (z * t.width + x).toNat < t.normals.length := toNat_index_lt hw.2 hx hxw hz hzh
  unfold meshVertex
  rw [ProceduralTerrain.getHeight_eq_read hw, vecGet_isSome _ h0 hlt]
  exact ⟨_, rfl, by simp⟩

theorem meshQuad_spec {t : ProceduralTerrain F} {x z : Int} (hx : 0 ≤ x)
    (hxw : x < t.width - 1) (hz : 0 ≤ z) (hzh : z < t.height - 1) (is : List Nat) :
    (meshQuad t z x is).length = is.length + 6 ∧
    ((∀ i ∈ is, (i : Int) < t.width * t.height) →
      ∀ i ∈ meshQuad t z x is, (i : Int) < t.width * t.height) := by
  have a0 : 0 ≤ z * t.width + x := index_nonneg hx (by omega) hz
  have a1 : z * t.width + x + 1 < t.width * t.height := by
    have := index_lt (w := t.width) (h := t.height) (x := x + 1) (z := z) (by omega)
      (by omega) (by omega)
    omega
  have b0 : 0 ≤ (z + 1) * t.width + x := index_nonneg hx (by omega) (by omega)
  have b1 : (z + 1) * t.width + x + 1 < t.width * t.height := by
    have := index_lt (w := t.width) (h := t.height) (x := x + 1) (z := z + 1) (by omega)
      (by omega) (by omega)
    omega
  have u1 := toUnsigned_le a0
  have u2 := toUnsigned_le b0
  unfold meshQuad
  refine ⟨by simp, ?_⟩
  intro hb i hi
  simp only [List.mem_append, List.mem_cons, List.mem_singleton, List.not_mem_nil,
    or_false] at hi
  have m1 : (toUnsigned (z * t.width + x) + 1) % 2 ^ 32 ≤ toUnsigned (z * t.width + x) + 1 :=
    Nat.mod_le _ _
  have m2 : (toUnsigned ((z + 1) * t.width + x) + 1) % 2 ^ 32 ≤
      toUnsigned ((z + 1) * t.width + x) + 1 := Nat.mod_le _ _
  rcases hi with hi | rfl | rfl | rfl | rfl | rfl | rfl
  · exact hb i hi
  all_goals omega

/-! ## SceneConfig::validate -/

theorem checkStmt_false (cond : SceneConfig F → Bool) (fix : SceneConfig F → SceneConfig F)
    {s : Bool × SceneConfig F} (h : s.1 = false) : (checkStmt cond fix s).1 = false := by
  unfold checkStmt
  split
  · rfl
  · exact h

theorem checkStmt_proj {β : Type} (π : SceneConfig F → β) (cond : SceneConfig F → Bool)
    (fix : SceneConfig F → SceneConfig F) (hfix : ∀ c, π (fix c) = π c)
    (s : Bool × SceneConfig F) : π (checkStmt cond fix s).2 = π s.2 := by
  unfold checkStmt
  split
  · exact hfix _
  · rfl

theorem checkStmt_terrain (cond : SceneConfig F → Bool) (fix : SceneConfig F → SceneConfig F)
    (s : Bool × SceneConfig F) (hfix : ∀ c, (fix c).terrain = c.terrain) :
    (checkStmt cond fix s).2.terrain = s.2.terrain :=
  checkStmt_proj (fun c => c.terrain) cond fix hfix s

theorem checkStmt_lod (cond : SceneConfig F → Bool) (fix : SceneConfig F → SceneConfig F)
    (s : Bool × SceneConfig F) (hfix : ∀ c, (fix c).terrain.lod_levels = c.terrain.lod_levels) :
    (checkStmt cond fix s).2.terrain.lod_levels = s.2.terrain.lod_levels :=
  checkStmt_proj (fun c => c.terrain.lod_levels) cond fix hfix s

theorem validateLodLevels_false (s : Bool × SceneConfig F) : (validateLodLevels s).1 = false := by
  unfold validateLodLevels
  by_cases h : s.2.terrain.lod_levels < 1
  · rw [if_pos h]
  · rw [if_neg h, if_pos (by omega)]

theorem validateLodLevels_value (s : Bool × SceneConfig F) :
    (validateLodLevels s).2.terrain.lod_levels = if s.2.terrain.lod_levels < 1 then 1 else 8 := by
  unfold validateLodLevels
  by_cases h : s.2.terrain.lod_levels < 1
  · rw [if_pos h, if_pos h]
  · rw [if_neg h, if_pos (by omega), if_neg h]

theorem validateTerrain_false (s : Bool × SceneConfig F) : (validateTerrain s).1 = false := by
  unfold validateTerrain
  exact checkStmt_false _ _ (validateLodLevels_false _)

theorem validateTerrain_lod (s : Bool × SceneConfig F) :
    (validateTerrain s).2.terrain.lod_levels = if s.2.terrain.lod_levels < 1 then 1 else 8 := by
  unfold validateTerrain
  simp only []
  rw [checkStmt_lod, validateLodLevels_value, checkStmt_lod, checkStmt_lod]
  all_goals (intro c; rfl)

theorem validateCamera_false {s : Bool × SceneConfig F} (h : s.1 = false) :
    (validateCamera s).1 = false := by
  unfold validateCamera
  exact checkStmt_false _ _ (checkStmt_false _ _ (checkStmt_false _ _ (checkStmt_false _ _
    (checkStmt_false _ _ (checkStmt_false _ _ h)))))

theorem validateCamera_terrain (s : Bool × SceneConfig F) :
    (validateCamera s).2.terrain = s.2.terrain := by
  unfold validateCamera
  simp only []
  rw [checkStmt_terrain, checkStmt_terrain, checkStmt_terrain, checkStmt_terrain,
    checkStmt_terrain, checkStmt_terrain]
  all_goals (intro c; rfl)

theorem validateShadowRange_false {s : Bool × SceneConfig F} (h : s.1 = false) :
    (validateShadowRange s).1 = false := by
  unfold validateShadowRange
  split
  · rfl
  · split
    · rfl
    · exact h

theorem validateShadowRange_terrain (s : Bool × SceneConfig F) :
    (validateShadowRange s).2.terrain = s.2.terrain := by
  unfold validateShadowRange
  split
  · rfl
  · split <;> rfl

theorem validateLighting_false (ceilLog2 : Int → Int) {s : Bool × SceneConfig F}
    (h : s.1 = false) : (validateLighting ceilLog2 s).1 = false := by
  unfold validateLighting
  exact checkStmt_false _ _ (checkStmt_false _ _ (checkStmt_false _ _ (checkStmt_false _ _
    (validateShadowRange_false h))))

theorem validateLighting_terrain (ceilLog2 : Int → Int) (s : Bool × SceneConfig F) :
    (validateLighting ceilLog2 s).2.terrain = s.2.terrain := by
  unfold validateLighting
  simp only []
  rw [checkStmt_terrain, checkStmt_terrain, checkStmt_terrain, checkStmt_terrain,
    validateShadowRange_terrain]
  all_goals (intro c; rfl)

theorem validateGeneral_terrain (fmod : F → F → F) (s : Bool × SceneConfig F) :
    (validateGeneral fmod s).2.terrain = s.2.terrain := by
  unfold validateGeneral
  simp only []
  rw [checkStmt_terrain, checkStmt_terrain, checkStmt_terrain]
  all_goals (intro c; first | rfl | (split <;> rfl))

theorem validateWindow_terrain (s : Bool × SceneConfig F) :
    (validateWindow s).2.terrain = s.2.terrain := by
  unfold validateWindow
  simp only []
  rw [checkStmt_terrain, checkStmt_terrain, checkStmt_terrain, checkStmt_terrain]
  all_goals (intro c; rfl)

theorem validateUi_terrain (s : Bool × SceneConfig F) :
    (validateUi s).2.terrain = s.2.terrain := by
  unfold validateUi
  rw [checkStmt_terrain]
  all_goals (intro c; rfl)

/-- After the scalar checks `valid` is false, whatever the object: the statement on
`lod_levels` clears it in both of its branches. -/
theorem validateSettings_false (fmod : F → F → F) (ceilLog2 : Int → Int) (c : SceneConfig F) :
    (validateSettings fmod ceilLog2 c).1 = false := by
  unfold validateSettings
  exact validateLighting_false _ (validateCamera_false (validateTerrain_false _))

theorem validateSettings_lod (fmod : F → F → F) (ceilLog2 : Int → Int) (c : SceneConfig F) :
    (validateSettings fmod ceilLog2 c).2.terrain.lod_levels =
      if c.terrain.lod_levels < 1 then 1 else 8 := by
  unfold validateSettings
  rw [validateLighting_terrain, validateCamera_terrain, validateTerrain_lod,
    validateUi_terrain, validateWindow_terrain, validateGeneral_terrain]

theorem normalizeSun_false (sqrt : F → F) {s : Bool × SceneConfig F} (h : s.1 = false) :
    (normalizeSun sqrt s).1 = false := by
  unfold normalizeSun
  simp only []
  split
  · exact h
  · rfl

theorem validate_false (fmod : F → F → F) (sqrt : F → F) (ceilLog2 : Int → Int)
    (c : SceneConfig F) (r : Bool × SceneConfig F)
    (h : SceneConfig.validate fmod sqrt ceilLog2 c = some r) : r.1 = false := by
  unfold SceneConfig.validate at h
  cases hc : clampColors (validateSettings fmod ceilLog2 c).2 with
  | none => simp [hc] at h
  | some c1 =>
    simp only [hc, Option.bind_eq_bind, Option.some_bind, Option.pure_def,
      Option.some.injEq] at h
    rw [← h]
    exact normalizeSun_false sqrt (validateSettings_false fmod ceilLog2 c)

theorem clampColorsAt_three (c : SceneConfig F) : clampColorsAt c 3 = none := by
  unfold clampColorsAt Arr3.get
  simp

theorem clampColorsAt_inRange (c : SceneConfig F) (i : Int) (h : i = 0 ∨ i = 1 ∨ i = 2) :
    ∃ c', clampColorsAt c i = some c' := by
  unfold clampColorsAt Arr3.get Arr3.set
  rcases h with rfl | rfl | rfl <;> simp

theorem clampColors_none (c : SceneConfig F) : clampColors c = none := by
  have hl : colorLoopIndices = [0, 1, 2, 3] := by decide
  unfold clampColors
  rw [hl]
  obtain ⟨c0, e0⟩ := clampColorsAt_inRange c 0 (Or.inl rfl)
  obtain ⟨c1, e1⟩ := clampColorsAt_inRange c0 1 (Or.inr (Or.inl rfl))
  obtain ⟨c2, e2⟩ := clampColorsAt_inRange c1 2 (Or.inr (Or.inr rfl))
  simp only [List.foldlM_cons, e0, e1, e2, clampColorsAt_three, Option.bind_eq_bind,
    Option.some_bind, Option.none_bind]

/-! ## The application's grid size -/

theorem isPowPlusOne_slider (s : Int) (h1 : 64 ≤ s) (h2 : s ≤ 512) :
    IsPowPlusOne s ↔ s = 65 ∨ s = 129 ∨ s = 257 := by
  constructor
  · rintro ⟨n, hn, rfl⟩
    have hn9 : n < 9 := by
      by_contra hge
      have : (2 : Int) ^ 9 ≤ 2 ^ n := pow_le_pow_right₀ (by norm_num) (by omega)
      norm_num at this
      omega
    interval_cases n <;> norm_num at h1 h2 ⊢
  · rintro (rfl | rfl | rfl)
    · exact ⟨6, by norm_num, by norm_num⟩
    · exact ⟨7, by norm_num, by norm_num⟩
    · exact ⟨8, by norm_num, by norm_num⟩

theorem roundSchedule_default (roughness maxHeight : F) :
    (roundSchedule roughness ((terrainSizeDefault - 1).toNat + 1) (terrainSizeDefault - 1)
      maxHeight).map (fun p => p.1) = [255, 127, 63, 31, 15, 7, 3] := by
  with_unfolding_all rfl


/-- The cell written by an operation of a round, in terms of the loop indices: a diamond
operation writes `(x + halfStep, z + halfStep)` with `x`, `z` non-negative multiples of
`step`; a square operation writes `(x, z)` with `z` a non-negative multiple of `halfStep` and
`x` at a multiple of `step` above `(z + halfStep) % step`. -/
theorem target_of_roundOps {size : Int} {p : Int × F} {op : CellOp F} (hp : 1 < p.1)
    (hop : op ∈ roundOps size p) :
    (∃ z x : Int, 0 ≤ z ∧ 0 ≤ x ∧ p.1 ∣ z ∧ p.1 ∣ x ∧ z < size - 1 ∧ x < size - 1 ∧
      op.target = (x + p.1 / 2, z + p.1 / 2)) ∨
    (∃ z x : Int, 0 ≤ z ∧ p.1 / 2 ∣ z ∧ (z + p.1 / 2) % p.1 ≤ x ∧
      p.1 ∣ x - (z + p.1 / 2) % p.1 ∧ z < size ∧ x < size ∧ op.target = (x, z)) := by
  have hf := tdiv_two_facts hp
  have he : Int.tdiv p.1 2 = p.1 / 2 := Int.tdiv_eq_ediv (by omega) (by norm_num)
  unfold roundOps at hop
  rcases List.mem_append.mp hop with hd | hq
  · obtain ⟨z, hz, x, hx, rfl⟩ := mem_diamondOps hd
    obtain ⟨hz0, hz1, hz2⟩ := mem_forLoop (by omega) hz
    obtain ⟨hx0, hx1, hx2⟩ := mem_forLoop (by omega) hx
    refine Or.inl ⟨z, x, hz0, hx0, by simpa using hz2, by simpa using hx2, hz1, hx1, ?_⟩
    rw [← he]
    rfl
  · obtain ⟨z, hz, x, hx, rfl⟩ := mem_squareOps hq
    obtain ⟨hz0, hz1, hz2⟩ := mem_forLoop (by omega) hz
    obtain ⟨hx0, hx1, hx2⟩ := mem_forLoop (by omega) hx
    rw [Int.tmod_eq_emod (by omega) (by omega)] at hx0 hx2
    rw [he] at hz2 hx0 hx2
    exact Or.inr ⟨z, x, hz0, by simpa using hz2, hx0, hx2, hz1, hx1, rfl⟩

/-- On the default grid of the application (size 256) no write of the run goes to the cell
`(2, 2)`. -/
theorem default_grid_skips (roughness maxHeight : F) (op : CellOp F)
    (hop : op ∈ runOps terrainSizeDefault roughness maxHeight) : op.target ≠ (2, 2) := by
  unfold runOps at hop
  rcases List.mem_append.mp hop with hs | hl
  · unfold seedOps terrainSizeDefault at hs
    simp only [List.mem_cons, List.mem_singleton, List.not_mem_nil, or_false] at hs
    rcases hs with rfl | rfl | rfl | rfl <;>
      (intro h; have := congrArg Prod.fst h; simp [CellOp.target] at this)
  · unfold loopOps at hl
    obtain ⟨p, hp, hr⟩ := List.mem_flatMap.mp hl
    have hmem : p.1 ∈ [(255 : Int), 127, 63, 31, 15, 7, 3] := by
      rw [← roundSchedule_default roughness maxHeight]
      exact List.mem_map_of_mem _ hp
    have h1 : 1 < p.1 := (roundSchedule_mem _ _ _ _ p hp).1
    intro ht
    simp only [List.mem_cons, List.mem_singleton, List.not_mem_nil, or_false] at hmem
    rcases target_of_roundOps h1 hr with ⟨z, x, hz0, hx0, hz, hx, -, -, e⟩ |
      ⟨z, x, hz0, hz, hx0, hx, -, -, e⟩
    · rw [e, Prod.mk.injEq] at ht
      rcases hmem with h | h | h | h | h | h | h <;> rw [h] at hz hx ht <;>
        norm_num at ht <;> omega
    · rw [e, Prod.mk.injEq] at ht
      rcases hmem with h | h | h | h | h | h | h <;> rw [h] at hz hx hx0 <;>
        norm_num at hz hx0 hx <;> omega

/-! ## The cells written by a round -/

theorem forIndices_pairwise {stride : Int} (hs : 1 ≤ stride) (bound : Int) :
    ∀ (fuel : Nat) (start : Int), (forIndices fuel start bound stride).Pairwise (· < ·) := by
  intro fuel
  induction fuel with
  | zero => intro start; exact List.Pairwise.nil
  | succ f ih =>
    intro start
    unfold forIndices
    split
    · refine List.Pairwise.cons ?_ (ih _)
      intro i hi
      obtain ⟨-, k, hk⟩ := mem_forIndices hi
      have : 0 ≤ (k : Int) * stride := mul_nonneg (by omega) (by omega)
      omega
    · exact List.Pairwise.nil

theorem forLoop_nodup {stride : Int} (hs : 1 ≤ stride) (start bound : Int) :
    (forLoop start bound stride).Nodup :=
  (forIndices_pairwise hs bound _ start).imp (fun h => ne_of_lt h)

theorem RoundShape.step_pos {size step halfStep : Int} (hr : RoundShape size step halfStep) :
    1 ≤ step := by
  have := hr.half_pos
  have := hr.step_eq
  omega

theorem RoundShape.mem_square_loops {size step halfStep : Int}
    (hr : RoundShape size step halfStep) {a b : Int} (ha : 0 ≤ a) (has : a < size)
    (hb : 0 ≤ b) (hbs : b < size) (hdb : halfStep ∣ b) (hd : step ∣ a - b - halfStep) :
    b ∈ forLoop 0 size halfStep ∧ a ∈ forLoop (Int.tmod (b + halfStep) step) size step := by
  have h1 := hr.half_pos
  have h2 := hr.step_eq
  have hz : b ∈ forLoop 0 size halfStep :=
    forLoop_mem h1 hb hbs (by rw [sub_zero]; exact hdb)
  have hr0 : 0 ≤ (b + halfStep) % step := Int.emod_nonneg _ (by omega)
  have hr1 : (b + halfStep) % step < step := Int.emod_lt_of_pos _ (by omega)
  have hdr : step ∣ a - (b + halfStep) % step := by
    have h3 : step ∣ (b + halfStep) - (b + halfStep) % step := Int.dvd_sub_of_emod_eq rfl
    have : a - (b + halfStep) % step =
        (a - b - halfStep) + ((b + halfStep) - (b + halfStep) % step) := by ring
    rw [this]
    exact dvd_add hd h3
  refine ⟨hz, ?_⟩
  rw [Int.tmod_eq_emod (by omega) (by omega)]
  refine forLoop_mem (by omega) ?_ has hdr
  have := nonneg_of_dvd_of_neg_lt (by omega) hdr (by omega)
  omega

/-- The cells written by the diamond step of a round: the cells of the grid whose two
coordinates are both `halfStep` above a multiple of `step`. -/
theorem RoundShape.mem_diamond_targets {size step halfStep : Int}
    (hr : RoundShape size step halfStep) (scale : F) (c : Int × Int) :
    c ∈ (diamondOps size step halfStep scale).map CellOp.target ↔
      0 ≤ c.1 ∧ c.1 < size ∧ 0 ≤ c.2 ∧ c.2 < size ∧
        step ∣ c.1 - halfStep ∧ step ∣ c.2 - halfStep := by
  have h1 := hr.half_pos
  have h2 := hr.step_eq
  constructor
  · intro hc
    obtain ⟨op, hop, rfl⟩ := List.mem_map.mp hc
    obtain ⟨z, hz, x, hx, rfl⟩ := mem_diamondOps hop
    obtain ⟨hz0, hz1, hz2⟩ := hr.diamond_index hz
    obtain ⟨hx0, hx1, hx2⟩ := hr.diamond_index hx
    simp only [CellOp.target, add_sub_cancel_right]
    exact ⟨by omega, by omega, by omega, by omega, hx2, hz2⟩
  · rintro ⟨ha, has, hb, hbs, hda, hdb⟩
    have hz : c.2 - halfStep ∈ forLoop 0 (size - 1) step :=
      forLoop_mem (by omega) (nonneg_of_dvd_of_neg_lt (by omega) hdb (by omega)) (by omega)
        (by rw [sub_zero]; exact hdb)
    have hx : c.1 - halfStep ∈ forLoop 0 (size - 1) step :=
      forLoop_mem (by omega) (nonneg_of_dvd_of_neg_lt (by omega) hda (by omega)) (by omega)
        (by rw [sub_zero]; exact hda)
    refine List.mem_map.mpr ⟨CellOp.diamond step halfStep scale (c.2 - halfStep)
      (c.1 - halfStep), ?_, ?_⟩
    · unfold diamondOps
      exact List.mem_flatMap.mpr ⟨_, hz, List.mem_map.mpr ⟨_, hx, rfl⟩⟩
    · simp [CellOp.target]

/-- The cells written by the square step of a round. -/
theorem RoundShape.mem_square_targets {size step halfStep : Int}
    (hr : RoundShape size step halfStep) (scale : F) (c : Int × Int) :
    c ∈ (squareOps size step halfStep scale).map CellOp.target ↔
      0 ≤ c.1 ∧ c.1 < size ∧ 0 ≤ c.2 ∧ c.2 < size ∧
        halfStep ∣ c.2 ∧ step ∣ c.1 - c.2 - halfStep := by
  constructor
  · intro hc
    obtain ⟨op, hop, rfl⟩ := List.mem_map.mp hc
    obtain ⟨z, hz, x, hx, rfl⟩ := mem_squareOps hop
    obtain ⟨i1, i2, i3, i4, i5, i6⟩ := hr.square_index hz hx
    exact ⟨i3, i4, i1, i2, i5, i6⟩
  · rintro ⟨ha, has, hb, hbs, hdb, hd⟩
    obtain ⟨hz, hx⟩ := hr.mem_square_loops ha has hb hbs hdb hd
    refine List.mem_map.mpr ⟨CellOp.square size halfStep scale c.2 c.1, ?_, rfl⟩
    unfold squareOps
    exact List.mem_flatMap.mpr ⟨_, hz, List.mem_map.mpr ⟨_, hx, rfl⟩⟩

theorem nodup_flatMap_map_pair {α β γ : Type} (l : List α) (g : α → List β) (T : α → β → γ)
    (hl : l.Nodup) (hg : ∀ a ∈ l, (g a).Nodup)
    (hT : ∀ a b a' b', T a b = T a' b' → a = a' ∧ b = b') :
    (l.flatMap (fun a => (g a).map (T a))).Nodup := by
  rw [List.nodup_flatMap]
  refine ⟨fun a ha => (hg a ha).map (fun b b' h => (hT a b a b' h).2), ?_⟩
  refine hl.imp ?_
  intro a a' hne
  intro c hc hc'
  obtain ⟨b, -, rfl⟩ := List.mem_map.mp hc
  obtain ⟨b', -, h⟩ := List.mem_map.mp hc'
  exact hne (hT a' b' a b h).1.symm

theorem RoundShape.diamond_targets_nodup {size step halfStep : Int}
    (hr : RoundShape size step halfStep) (scale : F) :
    ((diamondOps size step halfStep scale).map CellOp.target).Nodup := by
  unfold diamondOps
  rw [List.map_flatMap]
  simp only [List.map_map]
  refine nodup_flatMap_map_pair _ _ (fun z x => (x + halfStep, z + halfStep))
    (forLoop_nodup hr.step_pos _ _) (fun _ _ => forLoop_nodup hr.step_pos _ _) ?_
  intro a b a' b' h
  simp only [Prod.mk.injEq] at h
  omega

theorem RoundShape.square_targets_nodup {size step halfStep : Int}
    (hr : RoundShape size step halfStep) (scale : F) :
    ((squareOps size step halfStep scale).map CellOp.target).Nodup := by
  unfold squareOps
  rw [List.map_flatMap]
  simp only [List.map_map]
  refine nodup_flatMap_map_pair _ _ (fun z x => (x, z))
    (forLoop_nodup hr.half_pos _ _) (fun _ _ => forLoop_nodup hr.step_pos _ _) ?_
  intro a b a' b' h
  simp only [Prod.mk.injEq] at h
  omega

/-- The cells written by a round: the cells of the grid whose coordinates are both multiples
of `halfStep` and not both multiples of `step`. -/
theorem RoundShape.mem_round_targets {size step halfStep : Int}
    (hr : RoundShape size step halfStep) (scale : F) (c : Int × Int)
    (he : Int.tdiv step 2 = halfStep) :
    c ∈ (roundOps size (step, scale)).map CellOp.target ↔
      0 ≤ c.1 ∧ c.1 < size ∧ 0 ≤ c.2 ∧ c.2 < size ∧
        halfStep ∣ c.1 ∧ halfStep ∣ c.2 ∧ ¬ (step ∣ c.1 ∧ step ∣ c.2) := by
  have h1 := hr.half_pos
  have h2 := hr.step_eq
  have hhs : halfStep ∣ step := ⟨2, by omega⟩
  unfold roundOps
  simp only [he]
  rw [List.map_append, List.mem_append, hr.mem_diamond_targets, hr.mem_square_targets]
  constructor
  · rintro (⟨ha, has, hb, hbs, hda, hdb⟩ | ⟨ha, has, hb, hbs, hdb, hd⟩)
    · have d1 : halfStep ∣ c.1 := by
        have := dvd_add (dvd_trans hhs hda) (dvd_refl halfStep)
        simpa using this
      have d2 : halfStep ∣ c.2 := by
        have := dvd_add (dvd_trans hhs hdb) (dvd_refl halfStep)
        simpa using this
      exact ⟨ha, has, hb, hbs, d1, d2, fun h => hr.not_dvd_sub_half h.1 hda⟩
    · have d1 : halfStep ∣ c.1 := by
        have := dvd_add (dvd_add (dvd_trans hhs hd) hdb) (dvd_refl halfStep)
        have e : c.1 - c.2 - halfStep + c.2 + halfStep = c.1 := by ring
        rwa [e] at this
      refine ⟨ha, has, hb, hbs, d1, hdb, ?_⟩
      rintro ⟨s1, s2⟩
      have : step ∣ c.1 - c.2 := dvd_sub s1 s2
      exact hr.not_dvd_sub_half this hd
  · rintro ⟨ha, has, hb, hbs, d1, d2, hn⟩
    rcases hr.half_dvd_cases d1 with s1 | s1 <;> rcases hr.half_dvd_cases d2 with s2 | s2
    · exact absurd ⟨s1, s2⟩ hn
    · right
      refine ⟨ha, has, hb, hbs, d2, ?_⟩
      have := dvd_sub (dvd_sub s1 s2) (dvd_mul_right step 1)
      have e : c.1 - (c.2 - halfStep) - step * 1 = c.1 - c.2 - halfStep := by rw [h2]; ring
      rwa [e] at this
    · right
      refine ⟨ha, has, hb, hbs, d2, ?_⟩
      have := dvd_sub s1 s2
      have e : c.1 - halfStep - c.2 = c.1 - c.2 - halfStep := by ring
      rwa [e] at this
    · left
      exact ⟨ha, has, hb, hbs, s1, s2⟩

theorem RoundShape.round_targets_nodup {size step halfStep : Int}
    (hr : RoundShape size step halfStep) (scale : F) (he : Int.tdiv step 2 = halfStep) :
    ((roundOps size (step, scale)).map CellOp.target).Nodup := by
  unfold roundOps
  simp only [he]
  rw [List.map_append, List.nodup_append]
  refine ⟨hr.diamond_targets_nodup scale, hr.square_targets_nodup scale, ?_⟩
  intro c hd hs
  rw [hr.mem_diamond_targets] at hd
  rw [hr.mem_square_targets] at hs
  obtain ⟨-, -, -, -, hda, hdb⟩ := hd
  obtain ⟨-, -, -, -, -, hq⟩ := hs
  have h3 : step ∣ (c.1 - halfStep) - (c.2 - halfStep) := dvd_sub hda hdb
  have e : c.1 - halfStep - (c.2 - halfStep) = c.1 - c.2 := by ring
  rw [e] at h3
  exact hr.not_dvd_sub_half h3 hq

/-! ## The cells written by the whole loop on a grid of side `2 ^ n + 1` -/

theorem roundSchedule_pow_eq (roughness : F) (n : Nat) (maxHeight : F) :
    roundSchedule roughness (((2 : Int) ^ n + 1 - 1).toNat + 1) (2 ^ n + 1 - 1) maxHeight =
      (List.range n).map (fun i => ((2 : Int) ^ (n - i), maxHeight * roughness ^ i)) := by
  have e1 : ((2 : Int) ^ n + 1 - 1) = 2 ^ n := add_sub_cancel_right _ _
  have hfuel : n < ((2 : Int) ^ n).toNat + 1 := by
    have h1 : ((2 : Int) ^ n).toNat = 2 ^ n := by
      have : ((2 : Int) ^ n) = ((2 ^ n : Nat) : Int) := by push_cast; rfl
      rw [this, Int.toNat_natCast]
    rw [h1]
    have := Nat.lt_two_pow n
    omega
  rw [e1]
  have hsched := roundSchedule_pow roughness n _ maxHeight hfuel
  apply List.ext_getElem?
  intro i
  by_cases hi : i < n
  · rw [hsched.2 i hi, List.getElem?_map, List.getElem?_range hi]
    rfl
  · have hl := hsched.1
    rw [List.getElem?_eq_none (by rw [hl]; omega),
      List.getElem?_eq_none (by rw [List.length_map, List.length_range]; omega)]

theorem loopOps_pow (n : Nat) (roughness maxHeight : F) :
    loopOps ((2 : Int) ^ n + 1) roughness maxHeight =
      (List.range n).flatMap (fun i =>
        roundOps ((2 : Int) ^ n + 1) ((2 : Int) ^ (n - i), maxHeight * roughness ^ i)) := by
  unfold loopOps
  rw [roundSchedule_pow_eq, List.flatMap_map]

theorem pow_dvd_pow_two {j k : Nat} (h : j ≤ k) : (2 : Int) ^ j ∣ 2 ^ k :=
  pow_dvd_pow 2 h

/-- A cell of the grid with both coordinates multiples of `2 ^ n` is a corner. -/
theorem corner_of_top_level {n : Nat} {a b : Int} (ha : 0 ≤ a) (has : a < 2 ^ n + 1)
    (hb : 0 ≤ b) (hbs : b < 2 ^ n + 1) (da : (2 : Int) ^ n ∣ a) (db : (2 : Int) ^ n ∣ b) :
    isCorner (2 ^ n + 1) a b := by
  have hp : (0 : Int) < 2 ^ n := by positivity
  have key : ∀ u : Int, 0 ≤ u → u < 2 ^ n + 1 → (2 : Int) ^ n ∣ u → u = 0 ∨ u = 2 ^ n + 1 - 1 := by
    intro u h0 h1 hd
    obtain ⟨q, rfl⟩ := hd
    have q0 : 0 ≤ q := by
      by_contra hq
      have : (2 : Int) ^ n * q ≤ 2 ^ n * (-1) := mul_le_mul_of_nonneg_left (by omega) (le_of_lt hp)
      omega
    have q1 : q ≤ 1 := by
      by_contra hq
      have : (2 : Int) ^ n * 2 ≤ 2 ^ n * q := mul_le_mul_of_nonneg_left (by omega) (le_of_lt hp)
      omega
    have : q = 0 ∨ q = 1 := by omega
    rcases this with rfl | rfl
    · left; ring
    · right; ring
  exact ⟨key a ha has da, key b hb hbs db⟩

theorem level_exists {n : Nat} {c : Int × Int} (hc : NonCorner (2 ^ n + 1) c) :
    ∀ (d k0 : Nat), k0 + d = n → (2 : Int) ^ k0 ∣ c.1 → (2 : Int) ^ k0 ∣ c.2 →
      ∃ k, k0 ≤ k ∧ k < n ∧ HasLevel k c := by
  intro d
  induction d with
  | zero =>
    intro k0 hk d1 d2
    have : k0 = n := by omega
    subst this
    exact absurd (corner_of_top_level hc.1 hc.2.1 hc.2.2.1 hc.2.2.2.1 d1 d2) hc.2.2.2.2
  | succ d ih =>
    intro k0 hk d1 d2
    by_cases h : (2 : Int) ^ (k0 + 1) ∣ c.1 ∧ (2 : Int) ^ (k0 + 1) ∣ c.2
    · obtain ⟨k, h1, h2, h3⟩ := ih (k0 + 1) (by omega) h.1 h.2
      exact ⟨k, by omega, h2, h3⟩
    · exact ⟨k0, le_refl _, by omega, d1, d2, h⟩

theorem level_unique {j k : Nat} {c : Int × Int} (hj : HasLevel j c) (hk : HasLevel k c) :
    j = k := by
  by_contra hne
  rcases Nat.lt_or_gt_of_ne hne with h | h
  · exact hj.2.2 ⟨dvd_trans (pow_dvd_pow_two h) hk.1, dvd_trans (pow_dvd_pow_two h) hk.2.1⟩
  · exact hk.2.2 ⟨dvd_trans (pow_dvd_pow_two h) hj.1, dvd_trans (pow_dvd_pow_two h) hj.2.1⟩

/-- The cells written in round `i` (from 0) of the loop on the grid of side `2 ^ n + 1`:
the cells of the grid of level `n - 1 - i`. -/
theorem mem_round_targets_pow {n i : Nat} (hi : i < n) (scale : F) (c : Int × Int) :
    c ∈ (roundOps ((2 : Int) ^ n + 1) ((2 : Int) ^ (n - i), scale)).map CellOp.target ↔
      0 ≤ c.1 ∧ c.1 < 2 ^ n + 1 ∧ 0 ≤ c.2 ∧ c.2 < 2 ^ n + 1 ∧ HasLevel (n - 1 - i) c := by
  have hk : n - 1 - i < n := by omega
  have e : n - i = (n - 1 - i) + 1 := by omega
  rw [e, (pow_roundShape hk).mem_round_targets scale c (tdiv_pow_succ _)]
  rfl

theorem round_targets_nodup_pow {n i : Nat} (hi : i < n) (scale : F) :
    ((roundOps ((2 : Int) ^ n + 1) ((2 : Int) ^ (n - i), scale)).map CellOp.target).Nodup := by
  have hk : n - 1 - i < n := by omega
  have e : n - i = (n - 1 - i) + 1 := by omega
  rw [e]
  exact (pow_roundShape hk).round_targets_nodup scale (tdiv_pow_succ _)

theorem not_corner_of_level {n k : Nat} (hk : k < n) {c : Int × Int} (h : HasLevel k c) :
    ¬ isCorner (2 ^ n + 1) c.1 c.2 := by
  intro hcor
  apply h.2.2
  have hd : (2 : Int) ^ (k + 1) ∣ 2 ^ n := pow_dvd_pow_two (by omega)
  have key : ∀ u : Int, u = 0 ∨ u = 2 ^ n + 1 - 1 → (2 : Int) ^ (k + 1) ∣ u := by
    rintro u (rfl | rfl)
    · exact dvd_zero _
    · rw [add_sub_cancel_right]; exact hd
  exact ⟨key _ hcor.1, key _ hcor.2⟩

/-- The cells written by the loop on the grid of side `2 ^ n + 1`: the cells of the grid
that are not corners. -/
theorem mem_loop_targets {n : Nat} (roughness maxHeight : F) (c : Int × Int) :
    c ∈ (loopOps ((2 : Int) ^ n + 1) roughness maxHeight).map CellOp.target ↔
      NonCorner (2 ^ n + 1) c := by
  rw [loopOps_pow, List.map_flatMap, List.mem_flatMap]
  constructor
  · rintro ⟨i, hi, hc⟩
    have hi' : i < n := List.mem_range.mp hi
    rw [mem_round_targets_pow hi'] at hc
    obtain ⟨h1, h2, h3, h4, h5⟩ := hc
    exact ⟨h1, h2, h3, h4, not_corner_of_level (by omega) h5⟩
  · intro hc
    obtain ⟨k, -, hk, hl⟩ := level_exists hc n 0 (by omega) (by simp) (by simp)
    refine ⟨n - 1 - k, List.mem_range.mpr (by omega), ?_⟩
    rw [mem_round_targets_pow (by omega)]
    have e : n - 1 - (n - 1 - k) = k := by omega
    rw [e]
    exact ⟨hc.1, hc.2.1, hc.2.2.1, hc.2.2.2.1, hl⟩

theorem loop_targets_nodup (n : Nat) (roughness maxHeight : F) :
    ((loopOps ((2 : Int) ^ n + 1) roughness maxHeight).map CellOp.target).Nodup := by
  rw [loopOps_pow, List.map_flatMap, List.nodup_flatMap]
  constructor
  · intro i hi
    exact round_targets_nodup_pow (List.mem_range.mp hi) _
  · have hp : (List.range n).Pairwise (fun i j => i < j ∧ j < n) := by
      have h1 := List.pairwise_lt_range n
      have h2 : ∀ j ∈ List.range n, j < n := fun j hj => List.mem_range.mp hj
      exact (List.Pairwise.and_mem.mp h1).imp (fun ⟨_, hb, hab⟩ => ⟨hab, h2 _ hb⟩)
    refine hp.imp ?_
    rintro i j ⟨hij, hj⟩ c hc hc'
    rw [mem_round_targets_pow (by omega)] at hc hc'
    have := level_unique hc.2.2.2.2 hc'.2.2.2.2
    omega

/-- The number of cells of the grid of side `N + 1` that are not corners. -/
theorem card_nonCorner (N : Int) (hN : 0 < N) :
    (((Finset.Icc (0 : Int) N) ×ˢ (Finset.Icc (0 : Int) N)) \
      {((0 : Int), (0 : Int)), (0, N), (N, 0), (N, N)}).card =
        (N + 1).toNat * (N + 1).toNat - 4 := by
  rw [Finset.card_sdiff]
  · rw [Finset.card_product, Int.card_Icc]
    have h4 : ({((0 : Int), (0 : Int)), (0, N), (N, 0), (N, N)} : Finset (Int × Int)).card = 4 := by
      rw [Finset.card_insert_of_not_mem, Finset.card_insert_of_not_mem,
        Finset.card_insert_of_not_mem, Finset.card_singleton]
      · simp [Prod.ext_iff]; omega
      · simp [Prod.ext_iff]; omega
      · simp [Prod.ext_iff]; omega
    rw [h4]
    simp
  · intro c hc
    simp only [Finset.mem_insert, Finset.mem_singleton] at hc
    rw [Finset.mem_product, Finset.mem_Icc, Finset.mem_Icc]
    rcases hc with rfl | rfl | rfl | rfl <;> simp <;> omega

theorem loop_targets_length (n : Nat) (roughness maxHeight : F) :
    (loopOps ((2 : Int) ^ n + 1) roughness maxHeight).length = (2 ^ n + 1) * (2 ^ n + 1) - 4 := by
  have hN : (0 : Int) < 2 ^ n := by positivity
  have h1 := List.toFinset_card_of_nodup (loop_targets_nodup n roughness maxHeight)
  rw [List.length_map] at h1
  rw [← h1]
  have hS : ((loopOps ((2 : Int) ^ n + 1) roughness maxHeight).map CellOp.target).toFinset =
      ((Finset.Icc (0 : Int) (2 ^ n)) ×ˢ (Finset.Icc (0 : Int) (2 ^ n))) \
        {((0 : Int), (0 : Int)), (0, 2 ^ n), (2 ^ n, 0), (2 ^ n, 2 ^ n)} := by
    ext c
    rw [List.mem_toFinset, mem_loop_targets, Finset.mem_sdiff, Finset.mem_product,
      Finset.mem_Icc, Finset.mem_Icc]
    simp only [Finset.mem_insert, Finset.mem_singleton, NonCorner, isCorner, Prod.ext_iff,
      add_sub_cancel_right]
    constructor
    · rintro ⟨a1, a2, a3, a4, a5⟩
      refine ⟨⟨⟨a1, by omega⟩, a3, by omega⟩, ?_⟩
      intro h
      apply a5
      rcases h with h | h | h | h
      · exact ⟨Or.inl h.1, Or.inl h.2⟩
      · exact ⟨Or.inl h.1, Or.inr h.2⟩
      · exact ⟨Or.inr h.1, Or.inl h.2⟩
      · exact ⟨Or.inr h.1, Or.inr h.2⟩
    · rintro ⟨⟨⟨a1, a2⟩, a3, a4⟩, a5⟩
      refine ⟨a1, by omega, a3, by omega, ?_⟩
      rintro ⟨h1 | h1, h2 | h2⟩
      · exact a5 (Or.inl ⟨h1, h2⟩)
      · exact a5 (Or.inr (Or.inl ⟨h1, h2⟩))
      · exact a5 (Or.inr (Or.inr (Or.inl ⟨h1, h2⟩)))
      · exact a5 (Or.inr (Or.inr (Or.inr ⟨h1, h2⟩)))
  rw [hS, card_nonCorner _ hN]
  have : ((2 : Int) ^ n + 1).toNat = 2 ^ n + 1 := by
    have : ((2 : Int) ^ n + 1) = ((2 ^ n + 1 : Nat) : Int) := by push_cast; rfl
    rw [this, Int.toNat_natCast]
  rw [this]

/-! ## What an operation reads was written before -/

theorem append_split {α : Type} {A B pre post : List α} {op : α}
    (h : A ++ B = pre ++ op :: post) :
    (∃ b, A = pre ++ op :: b ∧ post = b ++ B) ∨ (∃ a, pre = A ++ a ∧ B = a ++ op :: post) := by
  rcases List.append_eq_append_iff.mp h with ⟨a', h1, h2⟩ | ⟨c', h1, h2⟩
  · exact Or.inr ⟨a', h1, h2⟩
  · cases c' with
    | nil =>
      refine Or.inr ⟨[], ?_, ?_⟩
      · simpa using h1.symm
      · simpa using h2.symm
    | cons x cs =>
      simp only [List.cons_append, List.cons.injEq] at h2
      obtain ⟨rfl, rfl⟩ := h2
      exact Or.inl ⟨cs, h1, rfl⟩

theorem flatMap_split {ι α : Type} (f : ι → List α) (op : α) (post : List α) :
    ∀ (L : List ι) (pre : List α), L.flatMap f = pre ++ op :: post →
      ∃ L1 i L2 a b, L = L1 ++ i :: L2 ∧ f i = a ++ op :: b ∧ pre = L1.flatMap f ++ a := by
  intro L
  induction L with
  | nil => intro pre h; simp at h
  | cons j L ih =>
    intro pre h
    rw [List.flatMap_cons] at h
    rcases append_split h with ⟨b, h1, -⟩ | ⟨a, h1, h2⟩
    · exact ⟨[], j, L, pre, b, rfl, h1, by simp⟩
    · obtain ⟨L1, i, L2, a', b', e1, e2, e3⟩ := ih a h2
      refine ⟨j :: L1, i, L2, a', b', by rw [e1]; rfl, e2, ?_⟩
      rw [h1, e3, List.flatMap_cons, List.append_assoc]

theorem range_split {n i : Nat} {L1 L2 : List Nat} (h : List.range n = L1 ++ i :: L2) :
    i < n ∧ ∀ j, j < i → j ∈ L1 := by
  have hi : i ∈ List.range n := by rw [h]; simp
  have hin : i < n := List.mem_range.mp hi
  refine ⟨hin, fun j hj => ?_⟩
  have hjm : j ∈ List.range n := List.mem_range.mpr (by omega)
  rw [h] at hjm
  rcases List.mem_append.mp hjm with h1 | h1
  · exact h1
  · have hp := List.pairwise_lt_range n
    rw [h] at hp
    have hp2 := (List.pairwise_append.mp hp).2.1
    rcases List.mem_cons.mp h1 with rfl | h2
    · omega
    · have := List.rel_of_pairwise_cons hp2 h2
      omega

theorem RoundShape.diamond_reads {size step halfStep z x : Int}
    (hr : RoundShape size step halfStep) (hz : z ∈ forLoop 0 (size - 1) step)
    (hx : x ∈ forLoop 0 (size - 1) step) (r : Int × Int) (h : r ∈ diamondReads step x z) :
    0 ≤ r.1 ∧ r.1 < size ∧ 0 ≤ r.2 ∧ r.2 < size ∧ step ∣ r.1 ∧ step ∣ r.2 := by
  obtain ⟨hz0, hz1, hz2⟩ := hr.diamond_index hz
  obtain ⟨hx0, hx1, hx2⟩ := hr.diamond_index hx
  have hs := hr.step_pos
  have a1 : step ∣ x + step := dvd_add hx2 (dvd_refl _)
  have a2 : step ∣ z + step := dvd_add hz2 (dvd_refl _)
  unfold diamondReads at h
  simp only [List.mem_cons, List.mem_singleton, List.not_mem_nil, or_false] at h
  rcases h with rfl | rfl | rfl | rfl
  · exact ⟨hx0, by omega, hz0, by omega, hx2, hz2⟩
  · exact ⟨by omega, by omega, hz0, by omega, a1, hz2⟩
  · exact ⟨hx0, by omega, by omega, by omega, hx2, a2⟩
  · exact ⟨by omega, by omega, by omega, by omega, a1, a2⟩

theorem RoundShape.square_reads {size step halfStep z x : Int}
    (hr : RoundShape size step halfStep) (hz : z ∈ forLoop 0 size halfStep)
    (hx : x ∈ forLoop (Int.tmod (z + halfStep) step) size step) (r : Int × Int)
    (h : r ∈ squareReads size halfStep x z) :
    0 ≤ r.1 ∧ r.1 < size ∧ 0 ≤ r.2 ∧ r.2 < size ∧ halfStep ∣ r.2 ∧ step ∣ r.1 - r.2 := by
  obtain ⟨i1, i2, i3, i4, i5, i6⟩ := hr.square_index hz hx
  have h1 := hr.half_pos
  have h2 := hr.step_eq
  have hin : inGrid size r = true := by
    rw [squareReads_eq (by omega) i3 i4 i1 i2] at h
    exact inGrid_of_mem_inBoundsNeighbours h
  have hb : 0 ≤ r.1 ∧ r.1 < size ∧ 0 ≤ r.2 ∧ r.2 < size := by
    unfold inGrid at hin
    exact of_decide_eq_true hin
  have d1 : step ∣ x - z - halfStep + step := dvd_add i6 (dvd_refl _)
  have d2 : halfStep ∣ z - halfStep := dvd_sub i5 (dvd_refl _)
  have d3 : halfStep ∣ z + halfStep := dvd_add i5 (dvd_refl _)
  refine ⟨hb.1, hb.2.1, hb.2.2.1, hb.2.2.2, ?_⟩
  rcases mem_squareReads h with rfl | rfl | rfl | rfl
  · refine ⟨i5, ?_⟩
    have e : x - halfStep - z = x - z - halfStep := by ring
    simp only [e]
    exact i6
  · refine ⟨i5, ?_⟩
    have e : x + halfStep - z = x - z - halfStep + step := by rw [h2]; ring
    simp only [e]
    exact d1
  · refine ⟨d2, ?_⟩
    have e : x - (z - halfStep) = x - z - halfStep + step := by rw [h2]; ring
    simp only [e]
    exact d1
  · refine ⟨d3, ?_⟩
    have e : x - (z + halfStep) = x - z - halfStep := by ring
    simp only [e]
    exact i6

/-- A cell of the grid of side `2 ^ n + 1` whose coordinates are both multiples of
`2 ^ (k + 1)` is a corner or is written in a round before the round of half step `2 ^ k`. -/
theorem earlier_round_of_dvd {n k : Nat} (hk : k < n) (scale : Nat → F) {r : Int × Int}
    (h0 : 0 ≤ r.1) (h1 : r.1 < 2 ^ n + 1) (h2 : 0 ≤ r.2) (h3 : r.2 < 2 ^ n + 1)
    (d1 : (2 : Int) ^ (k + 1) ∣ r.1) (d2 : (2 : Int) ^ (k + 1) ∣ r.2) :
    isCorner (2 ^ n + 1) r.1 r.2 ∨ ∃ j, j < n - 1 - k ∧
      r ∈ (roundOps ((2 : Int) ^ n + 1) ((2 : Int) ^ (n - j), scale j)).map CellOp.target := by
  by_cases hc : isCorner (2 ^ n + 1) r.1 r.2
  · exact Or.inl hc
  · right
    obtain ⟨k', g1, g2, g3⟩ := level_exists (c := r) ⟨h0, h1, h2, h3, hc⟩ (n - (k + 1)) (k + 1)
      (by omega) d1 d2
    refine ⟨n - 1 - k', by omega, ?_⟩
    rw [mem_round_targets_pow (by omega)]
    have e : n - 1 - (n - 1 - k') = k' := by omega
    rw [e]
    exact ⟨h0, h1, h2, h3, g3⟩

/-- On the grid of side `2 ^ n + 1`, every height that an operation of the loop reads
belongs to a corner or to the cell written by an operation executed before it. -/
theorem loop_reads_earlier (n : Nat) (roughness maxHeight : F) (pre post : List (CellOp F))
    (op : CellOp F)
    (h : loopOps ((2 : Int) ^ n + 1) roughness maxHeight = pre ++ op :: post)
    (r : Int × Int) (hrd : r ∈ op.reads) :
    isCorner (2 ^ n + 1) r.1 r.2 ∨ r ∈ pre.map CellOp.target := by
  rw [loopOps_pow] at h
  obtain ⟨L1, i, L2, a, b, e1, e2, e3⟩ := flatMap_split _ op post _ pre h
  obtain ⟨hin, hL1⟩ := range_split e1
  have hk : n - 1 - i < n := by omega
  have hr := pow_roundShape hk
  have earlier : ∀ j, j < n - 1 - (n - 1 - i) →
      r ∈ (roundOps ((2 : Int) ^ n + 1)
        ((2 : Int) ^ (n - j), maxHeight * roughness ^ j)).map CellOp.target →
      r ∈ pre.map CellOp.target := by
    intro j hj hm
    rw [e3, List.map_append, List.mem_append, List.map_flatMap]
    exact Or.inl (List.mem_flatMap.mpr ⟨j, hL1 j (by omega), hm⟩)
  have en : n - i = (n - 1 - i) + 1 := by omega
  simp only [en, roundOps, tdiv_pow_succ] at e2
  rcases append_split e2 with ⟨b', hD, -⟩ | ⟨a', ha, hS⟩
  · have hop : op ∈ diamondOps ((2 : Int) ^ n + 1) (2 ^ (n - 1 - i + 1)) (2 ^ (n - 1 - i))
        (maxHeight * roughness ^ i) := by rw [hD]; simp
    obtain ⟨z, hz, x, hx, rfl⟩ := mem_diamondOps hop
    obtain ⟨g0, g1, g2, g3, g4, g5⟩ := hr.diamond_reads hz hx r hrd
    rcases earlier_round_of_dvd hk (fun j => maxHeight * roughness ^ j) g0 g1 g2 g3 g4 g5
      with hc | ⟨j, hj, hm⟩
    · exact Or.inl hc
    · exact Or.inr (earlier j (by omega) hm)
  · have hop : op ∈ squareOps ((2 : Int) ^ n + 1) (2 ^ (n - 1 - i + 1)) (2 ^ (n - 1 - i))
        (maxHeight * roughness ^ i) := by rw [hS]; simp
    obtain ⟨z, hz, x, hx, rfl⟩ := mem_squareOps hop
    obtain ⟨g0, g1, g2, g3, g4, g5⟩ := hr.square_reads hz hx r hrd
    rcases hr.half_dvd_cases g4 with s2 | s2
    · have s1 : (2 : Int) ^ (n - 1 - i + 1) ∣ r.1 := by
        have := dvd_add g5 s2
        simpa using this
      rcases earlier_round_of_dvd hk (fun j => maxHeight * roughness ^ j) g0 g1 g2 g3 s1 s2
        with hc | ⟨j, hj, hm⟩
      · exact Or.inl hc
      · exact Or.inr (earlier j (by omega) hm)
    · right
      have s1 : (2 : Int) ^ (n - 1 - i + 1) ∣ r.1 - 2 ^ (n - 1 - i) := by
        have := dvd_add g5 s2
        have e : r.1 - r.2 + (r.2 - 2 ^ (n - 1 - i)) = r.1 - 2 ^ (n - 1 - i) := by ring
        rwa [e] at this
      have hm : r ∈ (diamondOps ((2 : Int) ^ n + 1) (2 ^ (n - 1 - i + 1)) (2 ^ (n - 1 - i))
          (maxHeight * roughness ^ i)).map CellOp.target :=
        (hr.mem_diamond_targets _ r).mpr ⟨g0, g1, g2, g3, s1, s2⟩
      rw [e3, ha, List.map_append, List.map_append]
      exact List.mem_append.mpr (Or.inr (List.mem_append.mpr (Or.inl hm)))

/-- On a square terrain of side `2 ^ n + 1`, every operation of the loop returns and
changes the grid at its target cell and nowhere else. -/
theorem loopOps_writes (n : Nat) (roughness maxHeight : F) (op : CellOp F)
    (hop : op ∈ loopOps ((2 : Int) ^ n + 1) roughness maxHeight) (s : ProceduralTerrain F)
    (hs : s.Square (2 ^ n + 1)) :
    ∃ s' v, op.run s = some s' ∧ s.Writes op.target.1 op.target.2 v (dist s.rng).2 s' := by
  rw [loopOps_pow] at hop
  obtain ⟨i, hi, hr⟩ := List.mem_flatMap.mp hop
  have hin : i < n := List.mem_range.mp hi
  have hk : n - 1 - i < n := by omega
  have hsh := pow_roundShape hk
  have h1 := hsh.half_pos
  have h2 := hsh.step_eq
  have hle : (2 : Int) ^ (n - 1 - i + 1) ≤ 2 ^ n + 1 - 1 :=
    Int.le_of_dvd hsh.size_pos hsh.step_dvd
  have en : n - i = (n - 1 - i) + 1 := by omega
  simp only [en, roundOps, tdiv_pow_succ] at hr
  rcases List.mem_append.mp hr with hd | hq
  · obtain ⟨z, hz, x, hx, rfl⟩ := mem_diamondOps hd
    obtain ⟨hz0, hz1, -⟩ := hsh.diamond_index hz
    obtain ⟨hx0, hx1, -⟩ := hsh.diamond_index hx
    obtain ⟨s', e, w⟩ := diamondCell_writes hs.2.2 (2 ^ (n - 1 - i + 1)) (2 ^ (n - 1 - i))
      (maxHeight * roughness ^ i) (x := x) (z := z)
      (by omega) (by rw [hs.1]; omega) (by omega) (by rw [hs.2.1]; omega)
    exact ⟨s', _, e, w⟩
  · obtain ⟨z, hz, x, hx, rfl⟩ := mem_squareOps hq
    obtain ⟨i1, i2, i3, i4, -, -⟩ := hsh.square_index hz hx
    obtain ⟨s', e, w⟩ := squareCell_writes hs.2.2 (maxHeight * roughness ^ i)
      ((2 : Int) ^ n + 1) (2 ^ (n - 1 - i)) (x := x) (z := z) i3 (by rw [hs.1]; omega) i1
      (by rw [hs.2.1]; omega) (squareReads_ne_nil (by omega))
    exact ⟨s', _, e, w⟩

/-! ## The index count of the mesh -/

theorem sizeToInt_of_le {n : Nat} (h : (n : Int) ≤ INT_MAX) : sizeToInt n = (n : Int) := by
  unfold sizeToInt
  unfold INT_MAX at h
  omega

theorem sizeToInt_ne_of_gt {n : Nat} (h : INT_MAX < (n : Int)) : sizeToInt n ≠ (n : Int) := by
  unfold sizeToInt
  unfold INT_MAX at h
  omega

theorem ProceduralTerrain.ctor_returns (gen : Nat → Nat → F) (now : Nat) {w h : Int}
    (h0 : 0 ≤ w * h) (h1 : w * h ≤ INT_MAX) :
    ∃ t, ProceduralTerrain.ctor gen now w h = some t := by
  have hn : ¬ (w * h < 0 ∨ INT_MAX < w * h) := by omega
  unfold ProceduralTerrain.ctor vecResize
  simp only [if_neg hn]
  exact ⟨_, rfl⟩

/-- What `createMesh` emits on a terrain with `width ≥ 1` and `height ≥ 1` that satisfies the
class invariant. -/
theorem createMesh_spec (t : ProceduralTerrain F) (hw : t.WF) (h1 : 1 ≤ t.width)
    (h2 : 1 ≤ t.height) :
    ∃ t' vertices indices, t.createMesh = some (t', vertices, indices) ∧
      vertices.length = 6 * (t.width * t.height).toNat ∧
      (indices.length : Int) = 6 * (t.width - 1) * (t.height - 1) ∧
      (∀ i ∈ indices, (i : Int) < t.width * t.height) ∧
      t'.indexCount = sizeToInt indices.length ∧
      t'.width = t.width ∧ t'.height = t.height ∧ t'.heightmap = t.heightmap ∧
      t'.normals = t.normals := by
  obtain ⟨vs, ev, hv⟩ := foldlM_length (6 * (t.width - 0).toNat)
    (fun vs z => (forLoop 0 t.width 1).foldlM (fun vs x => meshVertex t z x vs) vs)
    (forLoop 0 t.height 1)
    (fun vs z hz => by
      obtain ⟨hz0, hz1, -⟩ := mem_forLoop (by norm_num) hz
      obtain ⟨vs', e, h⟩ := foldlM_length 6 (fun vs x => meshVertex t z x vs)
        (forLoop 0 t.width 1)
        (fun vs x hx => by
          obtain ⟨hx0, hx1, -⟩ := mem_forLoop (by norm_num) hx
          exact meshVertex_length hw hx0 hx1 hz0 hz1 vs) vs
      exact ⟨vs', e, by rw [h, forLoop_length_one]⟩) []
  have hi := foldl_invariant
    (fun (is : List Nat) (k : Nat) => is.length = 6 * (t.width - 1 - 0).toNat * k ∧
      ∀ i ∈ is, (i : Int) < t.width * t.height)
    (fun is z => (forLoop 0 (t.width - 1) 1).foldl (fun is x => meshQuad t z x is) is)
    (forLoop 0 (t.height - 1) 1)
    (fun is k z hz hP => by
      obtain ⟨hz0, hz1, -⟩ := mem_forLoop (by norm_num) hz
      have := foldl_invariant
        (fun (js : List Nat) (j : Nat) => js.length = is.length + 6 * j ∧
          ∀ i ∈ js, (i : Int) < t.width * t.height)
        (fun is x => meshQuad t z x is) (forLoop 0 (t.width - 1) 1)
        (fun js j x hx hQ => by
          obtain ⟨hx0, hx1, -⟩ := mem_forLoop (by norm_num) hx
          obtain ⟨q1, q2⟩ := meshQuad_spec hx0 hx1 hz0 hz1 js
          exact ⟨by rw [q1, hQ.1]; ring, q2 hQ.2⟩) is 0 ⟨by simp, hP.2⟩
      refine ⟨?_, this.2⟩
      rw [this.1, hP.1, forLoop_length_one]
      ring) [] 0 ⟨by simp, by simp⟩
  rw [forLoop_length_one] at hv hi
  generalize his : (forLoop 0 (t.height - 1) 1).foldl
    (fun is z => (forLoop 0 (t.width - 1) 1).foldl (fun is x => meshQuad t z x is) is) [] = is
    at hi
  refine ⟨{ t with indexCount := sizeToInt is.length }, vs, is, ?_, ?_, ?_, hi.2, rfl, rfl,
    rfl, rfl, rfl⟩
  · unfold ProceduralTerrain.createMesh
    rw [ev, his]
    rfl
  · rw [hv]
    have e1 : (t.width - 0).toNat * (t.height - 0).toNat = (t.width * t.height).toNat := by
      have := Int.toNat_of_nonneg (show 0 ≤ t.width by omega)
      have := Int.toNat_of_nonneg (show 0 ≤ t.height by omega)
      have hm : 0 ≤ t.width * t.height := mul_nonneg (by omega) (by omega)
      zify
      rw [Int.toNat_of_nonneg hm]
      simp only [sub_zero]
      rw [Int.toNat_of_nonneg (show 0 ≤ t.width by omega),
        Int.toNat_of_nonneg (show 0 ≤ t.height by omega)]
    simp only [List.length_nil, zero_add]
    rw [mul_assoc, e1]
  · rw [hi.1]
    push_cast
    rw [Int.toNat_of_nonneg (show 0 ≤ t.width - 1 - 0 by omega),
      Int.toNat_of_nonneg (show 0 ≤ t.height - 1 - 0 by omega)]
    ring

/-! ## What an operation stores -/

theorem ProceduralTerrain.Writes.getHeight_target {t t' : ProceduralTerrain F} {size x z : Int}
    {v : F} {rng : Rng F} (hs : t.Square size) (h : t.Writes x z v rng t') (hx : 0 ≤ x)
    (hxs : x < size) (hz : 0 ≤ z) (hzs : z < size) : t'.getHeight x z = some v := by
  have hs' := h.square hs
  rw [ProceduralTerrain.getHeight_eq_read hs'.2.2,
    ProceduralTerrain.read_eq_cell hx (by rw [hs'.1]; exact hxs) hz (by rw [hs'.2.1]; exact hzs),
    h.cell_eq hs hx hxs hz hzs, if_pos ⟨rfl, rfl⟩]

theorem seedOps_stores (n : Nat) (op : CellOp F) (hop : op ∈ seedOps ((2 : Int) ^ n + 1))
    (s : ProceduralTerrain F) (hs : s.Square (2 ^ n + 1)) :
    isCorner (2 ^ n + 1) op.target.1 op.target.2 ∧ CellOp.written s op = 0 ∧
    ∃ s', op.run s = some s' ∧ s.Writes op.target.1 op.target.2 0 s.rng s' ∧
      s'.getHeight op.target.1 op.target.2 = some 0 := by
  have hp : (0 : Int) < 2 ^ n := by positivity
  unfold seedOps at hop
  simp only [List.mem_cons, List.mem_singleton, List.not_mem_nil, or_false] at hop
  have key : ∀ x z : Int, (x = 0 ∨ x = 2 ^ n + 1 - 1) → (z = 0 ∨ z = 2 ^ n + 1 - 1) →
      isCorner (2 ^ n + 1) x z ∧ CellOp.written s (CellOp.seed x z) = 0 ∧
      ∃ s', (CellOp.seed x z : CellOp F).run s = some s' ∧ s.Writes x z 0 s.rng s' ∧
        s'.getHeight x z = some 0 := by
    intro x z hx hz
    have bx : 0 ≤ x ∧ x < 2 ^ n + 1 := by rcases hx with rfl | rfl <;> omega
    have bz : 0 ≤ z ∧ z < 2 ^ n + 1 := by rcases hz with rfl | rfl <;> omega
    obtain ⟨s', e, w⟩ := ProceduralTerrain.setHeight_writes hs.2.2 (x := x) (z := z) bx.1
      (by rw [hs.1]; exact bx.2) bz.1 (by rw [hs.2.1]; exact bz.2) 0
    exact ⟨⟨hx, hz⟩, rfl, s', e, w, w.getHeight_target hs bx.1 bx.2 bz.1 bz.2⟩
  rcases hop with rfl | rfl | rfl | rfl
  · exact key 0 0 (Or.inl rfl) (Or.inl rfl)
  · exact key 0 _ (Or.inl rfl) (Or.inr rfl)
  · exact key _ 0 (Or.inr rfl) (Or.inl rfl)
  · exact key _ _ (Or.inr rfl) (Or.inr rfl)

/-- On a square terrain of side `2 ^ n + 1`, every operation of the loop reads cells of the
grid, returns, and stores the height `CellOp.written` at its target cell and nowhere else. -/
theorem loopOps_stores (n : Nat) (roughness maxHeight : F) (op : CellOp F)
    (hop : op ∈ loopOps ((2 : Int) ^ n + 1) roughness maxHeight) (s : ProceduralTerrain F)
    (hs : s.Square (2 ^ n + 1)) :
    (∀ r ∈ op.reads, inGrid (2 ^ n + 1) r = true ∧
      s.getHeight r.1 r.2 = some (s.cell r.1 r.2)) ∧
    ∃ s', op.run s = some s' ∧
      s.Writes op.target.1 op.target.2 (CellOp.written s op) (dist s.rng).2 s' ∧
      s'.getHeight op.target.1 op.target.2 = some (CellOp.written s op) := by
  rw [loopOps_pow] at hop
  obtain ⟨i, hi, hr⟩ := List.mem_flatMap.mp hop
  have hin : i < n := List.mem_range.mp hi
  have hk : n - 1 - i < n := by omega
  have hsh := pow_roundShape hk
  have h1 := hsh.half_pos
  have h2 := hsh.step_eq
  have hle : (2 : Int) ^ (n - 1 - i + 1) ≤ 2 ^ n + 1 - 1 :=
    Int.le_of_dvd hsh.size_pos hsh.step_dvd
  have en : n - i = (n - 1 - i) + 1 := by omega
  simp only [en, roundOps, tdiv_pow_succ] at hr
  have hgrid : ∀ r : Int × Int, 0 ≤ r.1 → r.1 < 2 ^ n + 1 → 0 ≤ r.2 → r.2 < 2 ^ n + 1 →
      inGrid (2 ^ n + 1) r = true ∧ s.getHeight r.1 r.2 = some (s.cell r.1 r.2) := by
    intro r a1 a2 a3 a4
    have hg : inGrid (2 ^ n + 1) r = true := by
      unfold inGrid
      exact decide_eq_true ⟨a1, a2, a3, a4⟩
    exact ⟨hg, ProceduralTerrain.getHeight_inGrid hs hg⟩
  rcases List.mem_append.mp hr with hd | hq
  · obtain ⟨z, hz, x, hx, rfl⟩ := mem_diamondOps hd
    obtain ⟨hz0, hz1, -⟩ := hsh.diamond_index hz
    obtain ⟨hx0, hx1, -⟩ := hsh.diamond_index hx
    obtain ⟨s', e, w⟩ := diamondCell_writes hs.2.2 (2 ^ (n - 1 - i + 1)) (2 ^ (n - 1 - i))
      (maxHeight * roughness ^ i) (x := x) (z := z)
      (by omega) (by rw [hs.1]; omega) (by omega) (by rw [hs.2.1]; omega)
    have c1 : s.read x z = s.cell x z :=
      ProceduralTerrain.read_eq_cell hx0 (by rw [hs.1]; omega) hz0 (by rw [hs.2.1]; omega)
    have c2 : s.read (x + 2 ^ (n - 1 - i + 1)) z = s.cell (x + 2 ^ (n - 1 - i + 1)) z :=
      ProceduralTerrain.read_eq_cell (by omega) (by rw [hs.1]; omega) hz0
        (by rw [hs.2.1]; omega)
    have c3 : s.read x (z + 2 ^ (n - 1 - i + 1)) = s.cell x (z + 2 ^ (n - 1 - i + 1)) :=
      ProceduralTerrain.read_eq_cell hx0 (by rw [hs.1]; omega) (by omega)
        (by rw [hs.2.1]; omega)
    have c4 : s.read (x + 2 ^ (n - 1 - i + 1)) (z + 2 ^ (n - 1 - i + 1)) =
        s.cell (x + 2 ^ (n - 1 - i + 1)) (z + 2 ^ (n - 1 - i + 1)) :=
      ProceduralTerrain.read_eq_cell (by omega) (by rw [hs.1]; omega) (by omega)
        (by rw [hs.2.1]; omega)
    have hval : (s.read x z + s.read (x + 2 ^ (n - 1 - i + 1)) z +
        s.read x (z + 2 ^ (n - 1 - i + 1)) +
        s.read (x + 2 ^ (n - 1 - i + 1)) (z + 2 ^ (n - 1 - i + 1))) / 4 +
        |(dist s.rng).1| * (maxHeight * roughness ^ i) =
        CellOp.written s (CellOp.diamond (2 ^ (n - 1 - i + 1)) (2 ^ (n - 1 - i))
          (maxHeight * roughness ^ i) z x) := by
      rw [c1, c2, c3, c4]
      simp only [CellOp.written, CellOp.mean, CellOp.reads, diamondReads, List.map_cons,
        List.map_nil, List.sum_cons, List.sum_nil, List.length_cons, List.length_nil]
      norm_num
      ring
    rw [hval] at w
    refine ⟨fun r hrd => ?_, s', e, w, ?_⟩
    · obtain ⟨g0, g1, g2, g3, -, -⟩ := hsh.diamond_reads hz hx r hrd
      exact hgrid r g0 g1 g2 g3
    · exact w.getHeight_target hs (by simp only [CellOp.target]; omega)
        (by simp only [CellOp.target]; omega) (by simp only [CellOp.target]; omega)
        (by simp only [CellOp.target]; omega)
  · obtain ⟨z, hz, x, hx, rfl⟩ := mem_squareOps hq
    obtain ⟨i1, i2, i3, i4, -, -⟩ := hsh.square_index hz hx
    obtain ⟨s', e, w⟩ := squareCell_writes hs.2.2 (maxHeight * roughness ^ i)
      ((2 : Int) ^ n + 1) (2 ^ (n - 1 - i)) (x := x) (z := z) i3 (by rw [hs.1]; omega) i1
      (by rw [hs.2.1]; omega) (squareReads_ne_nil (by omega))
    have hval : |squareMean ((2 : Int) ^ n + 1) (2 ^ (n - 1 - i)) s x z +
        (dist s.rng).1 * (maxHeight * roughness ^ i)| =
        CellOp.written s (CellOp.square ((2 : Int) ^ n + 1) (2 ^ (n - 1 - i))
          (maxHeight * roughness ^ i) z x) := by
      rw [squareMean_eq_cells hs (by omega) i3 i4 i1 i2]
      simp only [CellOp.written, CellOp.mean, CellOp.reads]
      rw [squareReads_eq (by omega) i3 i4 i1 i2]
    rw [hval] at w
    refine ⟨fun r hrd => ?_, s', e, w, w.getHeight_target hs i3 i4 i1 i2⟩
    obtain ⟨g0, g1, g2, g3, -, -⟩ := hsh.square_reads hz hx r hrd
    exact hgrid r g0 g1 g2 g3

/-! ## Claims on the accessors -/

/-- C1: a read outside the grid returns 0.0 and has a result, for `HeightMap::get_height`
(outside `[0, resolution)` in `x` or `y`, in particular at `(-1, 0)` and `(resolution, 0)`) and
for `ProceduralTerrain::getHeight` (outside `[0, width)` in `x` or `[0, height)` in `z`). -/
theorem get_height_out_of_range (h : HeightMap F) (t : ProceduralTerrain F) (x y x' z' : Int)
    (hout : x < 0 ∨ x ≥ h.get_resolution ∨ y < 0 ∨ y ≥ h.get_resolution)
    (hout' : x' < 0 ∨ x' ≥ t.width ∨ z' < 0 ∨ z' ≥ t.height) :
    h.get_height x y = some 0 ∧
    h.get_height (-1) 0 = some 0 ∧
    h.get_height h.get_resolution 0 = some 0 ∧
    t.getHeight x' z' = some 0 := by
  refine ⟨?_, ?_, ?_, ?_⟩
  · exact if_pos hout
  · exact if_pos (Or.inl (by decide))
  · exact if_pos (Or.inr (Or.inl (le_refl _)))
  · exact if_pos hout'

theorem get_height_out_of_range_witness :
    sampleMap.get_height 2 1 = some 0 ∧
    sampleMap.get_height (-1) 0 = some 0 ∧
    sampleMap.get_height sampleMap.get_resolution 0 = some 0 ∧
    (sampleTerrain 1).getHeight 0 (-1) = some 0 :=
  get_height_out_of_range sampleMap (sampleTerrain 1) 2 1 0 (-1)
    (Or.inr (Or.inl (by decide))) (Or.inr (Or.inr (Or.inl (by decide))))

/-- C2: a write outside the grid has a result and changes nothing: the state after
`set_height(x, y, v)` is the state before it (same elevations, same normals, same
resolution).  The same holds for `ProceduralTerrain::setHeight`. -/
theorem set_height_out_of_range (h : HeightMap F) (t : ProceduralTerrain F) (x y x' z' : Int)
    (v : F) (hout : x < 0 ∨ x ≥ h.get_resolution ∨ y < 0 ∨ y ≥ h.get_resolution)
    (hout' : x' < 0 ∨ x' ≥ t.width ∨ z' < 0 ∨ z' ≥ t.height) :
    h.set_height x y v = some h ∧ t.setHeight x' z' v = some t :=
  ⟨if_pos hout, if_pos hout'⟩

theorem set_height_out_of_range_witness :
    sampleMap.set_height 0 2 7 = some sampleMap ∧
    (sampleTerrain 1).setHeight 3 0 7 = some (sampleTerrain 1) :=
  set_height_out_of_range sampleMap (sampleTerrain 1) 0 2 3 0 7
    (Or.inr (Or.inr (Or.inr (by decide)))) (Or.inr (Or.inl (by decide)))

/-- C3: `get_normal` outside the grid returns the up vector `(0, 1, 0)` and has a result. -/
theorem get_normal_out_of_range (h : HeightMap F) (x y : Int)
    (hout : x < 0 ∨ x ≥ h.get_resolution ∨ y < 0 ∨ y ≥ h.get_resolution) :
    h.get_normal x y = some (Vec3.mk 0 1 0) :=
  if_pos hout

theorem get_normal_out_of_range_witness :
    sampleMap.get_normal (-1) 0 = some (Vec3.mk 0 1 0) :=
  get_normal_out_of_range sampleMap (-1) 0 (Or.inl (by decide))

/-- C4: on a height map that satisfies the class invariant, an in-range `set_height(x, y, v)`
has a result, and `get_height(x, y)` on that result returns exactly `v`. -/
theorem get_height_set_height (h : HeightMap F) (hw : h.WF) (x y : Int) (v : F)
    (hx : 0 ≤ x) (hxr : x < h.get_resolution) (hy : 0 ≤ y) (hyr : y < h.get_resolution) :
    ∃ h', h.set_height x y v = some h' ∧ h'.get_height x y = some v := by
  have hin : ¬ (x < 0 ∨ x ≥ h._resolution ∨ y < 0 ∨ y ≥ h._resolution) := by
    simp only [HeightMap.get_resolution] at hxr hyr
    omega
  have hlt : (h._index x y).toNat < h._height_data.length :=
    toNat_index_lt hw.1 hx hxr hy hyr
  have hset : vecSet h._height_data (h._index x y) v =
      some (h._height_data.set (h._index x y).toNat v) :=
    vecSet_isSome h._height_data v (index_nonneg hx hxr hy) hlt
  refine ⟨{ h with _height_data := h._height_data.set (h._index x y).toNat v }, ?_, ?_⟩
  · unfold HeightMap.set_height
    rw [if_neg hin, hset]
    rfl
  · unfold HeightMap.get_height
    rw [if_neg hin]
    exact vecGet_vecSet_self hset

theorem get_height_set_height_witness :
    ∃ h', sampleMap.set_height 1 0 7 = some h' ∧ h'.get_height 1 0 = some 7 :=
  get_height_set_height sampleMap ⟨rfl, rfl⟩ 1 0 7 (by decide) (by decide) (by decide)
    (by decide)

/-- C5: the elevation grid is row-major.  On a height map of resolution `r` that satisfies
the class invariant (an in-range coordinate exists, so `r ≥ 1`), the index `y * r + x` of an
in-range `(x, y)` lies in `[0, r * r)`, two in-range coordinates with the same index are
equal, and the entry of `get_data()` at that index exists and is what `get_height(x, y)`
returns. -/
theorem index_row_major (h : HeightMap F) (hw : h.WF) (x y : Int)
    (hx : 0 ≤ x) (hxr : x < h.get_resolution) (hy : 0 ≤ y) (hyr : y < h.get_resolution) :
    0 ≤ h._index x y ∧ h._index x y < h.get_resolution * h.get_resolution ∧
    (∀ x' y' : Int, 0 ≤ x' → x' < h.get_resolution → 0 ≤ y' → y' < h.get_resolution →
      h._index x y = h._index x' y' → x = x' ∧ y = y') ∧
    ∃ v, h.get_data[(h._index x y).toNat]? = some v ∧ h.get_height x y = some v := by
  have hin : ¬ (x < 0 ∨ x ≥ h._resolution ∨ y < 0 ∨ y ≥ h._resolution) := by
    simp only [HeightMap.get_resolution] at hxr hyr
    omega
  have h0 : 0 ≤ h._index x y := index_nonneg hx hxr hy
  have hlt : (h._index x y).toNat < h._height_data.length :=
    toNat_index_lt hw.1 hx hxr hy hyr
  refine ⟨h0, index_lt hx hxr hyr, ?_, ?_⟩
  · intro x' y' hx' hxr' _ _ he
    exact index_inj hx hxr hx' hxr' he
  · refine ⟨h._height_data.get ⟨_, hlt⟩, ?_, ?_⟩
    · simp [HeightMap.get_data, List.getElem?_eq_getElem hlt]
    · unfold HeightMap.get_height
      rw [if_neg hin]
      exact vecGet_isSome _ h0 hlt

theorem index_row_major_witness :
    0 ≤ sampleMap._index 1 1 ∧
    sampleMap._index 1 1 < sampleMap.get_resolution * sampleMap.get_resolution ∧
    (∀ x' y' : Int, 0 ≤ x' → x' < sampleMap.get_resolution → 0 ≤ y' →
      y' < sampleMap.get_resolution →
      sampleMap._index 1 1 = sampleMap._index x' y' → (1 : Int) = x' ∧ (1 : Int) = y') ∧
    ∃ v, sampleMap.get_data[(sampleMap._index 1 1).toNat]? = some v ∧
      sampleMap.get_height 1 1 = some v :=
  index_row_major sampleMap ⟨rfl, rfl⟩ 1 1 (by decide) (by decide) (by decide) (by decide)

/-- C6, as stated, fails: the constructor has no check of its argument.  With resolution 0
it returns an object with two empty arrays, and with resolution -1 an object that holds one
elevation and one normal. -/
theorem ctor_nonpositive_resolution_returns :
    (HeightMap.ctor 0 : Option (HeightMap ℚ)) =
      some { _resolution := 0, _height_data := [], _normals := [] } ∧
    (HeightMap.ctor (-1) : Option (HeightMap ℚ)) =
      some { _resolution := -1, _height_data := [0], _normals := [Vec3.mk 0 1 0] } := by
  constructor
  · rw [HeightMap.ctor_eq (by decide)]
    rfl
  · rw [HeightMap.ctor_eq (by decide)]
    rfl

/-- C6, amended: constructing a `HeightMap` with a resolution `r ≤ 0` whose square fits an
`int` does not fail.  The constructor returns an object of resolution `r` that holds `r * r`
elevations 0.0 and `r * r` normals `(0, 1, 0)` and satisfies the class invariant; on it every
coordinate is out of range, so every `get_height` returns 0.0, every `get_normal` returns
`(0, 1, 0)` and every `set_height` returns the object unchanged. -/
theorem ctor_nonpositive_resolution (r : Int) (hr : r ≤ 0) (hfit : r * r ≤ INT_MAX) :
    ∃ h : HeightMap F, HeightMap.ctor r = some h ∧ h.get_resolution = r ∧ h.WF ∧
      h.get_data = List.replicate (r * r).toNat 0 ∧
      h._normals = List.replicate (r * r).toNat (Vec3.mk 0 1 0) ∧
      ∀ (x y : Int) (v : F), h.get_height x y = some 0 ∧
        h.get_normal x y = some (Vec3.mk 0 1 0) ∧ h.set_height x y v = some h := by
  refine ⟨_, HeightMap.ctor_eq hfit, rfl, ?_, rfl, rfl, ?_⟩
  · simp [HeightMap.WF]
  · intro x y v
    have hout : x < 0 ∨ x ≥ r ∨ y < 0 ∨ y ≥ r := by omega
    exact ⟨if_pos hout, if_pos hout, if_pos hout⟩

theorem ctor_nonpositive_resolution_witness :
    ∃ h : HeightMap ℚ, HeightMap.ctor (-2) = some h ∧ h.get_resolution = -2 ∧ h.WF ∧
      h.get_data = List.replicate ((-2 : Int) * (-2)).toNat 0 ∧
      h._normals = List.replicate ((-2 : Int) * (-2)).toNat (Vec3.mk 0 1 0) ∧
      ∀ (x y : Int) (v : ℚ), h.get_height x y = some 0 ∧
        h.get_normal x y = some (Vec3.mk 0 1 0) ∧ h.set_height x y v = some h :=
  ctor_nonpositive_resolution (-2) (by decide) (by decide)

/-! ## Claims on diamond-square generation -/

/-- C7: on a square terrain of side `2 ^ n + 1`, `n ≥ 1`, that satisfies the class invariant,
for every roughness, every maxHeight and every generator state (every sequence of draws),
`generateDiamondSquare` returns and the four corners `(0,0)`, `(0,size-1)`, `(size-1,0)`,
`(size-1,size-1)` of the result hold exactly the 0 they were seeded with; no cell written
by a diamond step (`(x + halfStep, z + halfStep)`) or by a square step (`(x, z)`) of any
round is a corner. -/
theorem corners_keep_seed (n : Nat) (hn : 1 ≤ n) (normalize : Vec3 F → Vec3 F)
    (t : ProceduralTerrain F) (hs : t.Square (2 ^ n + 1)) (roughness maxHeight : F) :
    (∃ t', t.generateDiamondSquare normalize roughness maxHeight = some t' ∧
      t'.getHeight 0 0 = some 0 ∧ t'.getHeight 0 (2 ^ n + 1 - 1) = some 0 ∧
      t'.getHeight (2 ^ n + 1 - 1) 0 = some 0 ∧
      t'.getHeight (2 ^ n + 1 - 1) (2 ^ n + 1 - 1) = some 0) ∧
    (∀ k : Nat, k < n →
      (∀ z ∈ forLoop 0 (2 ^ n + 1 - 1) (2 ^ (k + 1)),
        ∀ x ∈ forLoop 0 (2 ^ n + 1 - 1) (2 ^ (k + 1)),
          ¬ isCorner (2 ^ n + 1) (x + 2 ^ k) (z + 2 ^ k)) ∧
      (∀ z ∈ forLoop 0 (2 ^ n + 1) (2 ^ k),
        ∀ x ∈ forLoop (Int.tmod (z + 2 ^ k) (2 ^ (k + 1))) (2 ^ n + 1) (2 ^ (k + 1)),
          ¬ isCorner (2 ^ n + 1) x z)) := by
  constructor
  · obtain ⟨t', t2, e, hc, f1, f2, f3, hw⟩ := generateDiamondSquare_invariant hn
      roughness maxHeight normalize
      (fun _ _ t => CornersZero (2 ^ n + 1) t)
      (fun k scale t hk ht => cornersZero_round (pow_roundShape hk) scale t ht)
      (fun _ t ht => ht.1.2.2) hs
      (fun t0 s0 _ hcells => ⟨s0, fun a b ha has hb hbs hab => by
        rw [hcells a b ha has hb hbs, if_pos hab]⟩)
    have hpos : (0 : Int) < 2 ^ n := by positivity
    have hread : ∀ a b : Int, 0 ≤ a → a < 2 ^ n + 1 → 0 ≤ b → b < 2 ^ n + 1 →
        isCorner (2 ^ n + 1) a b → t'.getHeight a b = some 0 := by
      intro a b ha has hb hbs hab
      have hw' : t'.width = 2 ^ n + 1 := f2.trans hc.1.1
      have hh' : t'.height = 2 ^ n + 1 := f3.trans hc.1.2.1
      rw [ProceduralTerrain.getHeight_eq_read hw,
        ProceduralTerrain.read_eq_cell ha (by omega) hb (by omega)]
      have : t'.cell a b = t2.cell a b := by
        simp only [ProceduralTerrain.cell, f1, f2]
      rw [this, hc.2 a b ha has hb hbs hab]
    refine ⟨t', e, ?_, ?_, ?_, ?_⟩
    · exact hread 0 0 (le_refl _) (by omega) (le_refl _) (by omega) ⟨Or.inl rfl, Or.inl rfl⟩
    · exact hread 0 _ (le_refl _) (by omega) (by omega) (by omega) ⟨Or.inl rfl, Or.inr rfl⟩
    · exact hread _ 0 (by omega) (by omega) (le_refl _) (by omega) ⟨Or.inr rfl, Or.inl rfl⟩
    · exact hread _ _ (by omega) (by omega) (by omega) (by omega) ⟨Or.inr rfl, Or.inr rfl⟩
  · intro k hk
    have hr := pow_roundShape hk
    constructor
    · intro z _ x hx
      obtain ⟨hx0, hx1, -⟩ := hr.diamond_index hx
      exact hr.not_corner_diamond hx0 hx1
    · intro z hz x hx
      obtain ⟨-, -, -, -, -, hd⟩ := hr.square_index hz hx
      exact hr.not_corner_square hd

theorem corners_keep_seed_witness :
    (∃ t', (sampleTerrain 1).generateDiamondSquare (fun v => v) (1 / 2) 1 = some t' ∧
      t'.getHeight 0 0 = some 0 ∧ t'.getHeight 0 (2 ^ 1 + 1 - 1) = some 0 ∧
      t'.getHeight (2 ^ 1 + 1 - 1) 0 = some 0 ∧
      t'.getHeight (2 ^ 1 + 1 - 1) (2 ^ 1 + 1 - 1) = some 0) ∧
    (∀ k : Nat, k < 1 →
      (∀ z ∈ forLoop 0 (2 ^ 1 + 1 - 1) (2 ^ (k + 1)),
        ∀ x ∈ forLoop 0 (2 ^ 1 + 1 - 1) (2 ^ (k + 1)),
          ¬ isCorner (2 ^ 1 + 1) (x + 2 ^ k) (z + 2 ^ k)) ∧
      (∀ z ∈ forLoop 0 (2 ^ 1 + 1) (2 ^ k),
        ∀ x ∈ forLoop (Int.tmod (z + 2 ^ k) (2 ^ (k + 1))) (2 ^ 1 + 1) (2 ^ (k + 1)),
          ¬ isCorner (2 ^ 1 + 1) x z)) :=
  corners_keep_seed 1 (le_refl _) (fun v => v) (sampleTerrain 1) ⟨rfl, rfl, rfl, rfl⟩ (1 / 2) 1

/-- C8, as stated, fails.  On the 5 x 5 grid, with roughness 1/2, maxHeight 1 and every draw
equal to 9/10, the generated grid holds 129/80 at `(2, 1)`; on the 3 x 3 grid it holds 6/5
at `(1, 0)`.  Both exceed maxHeight. -/
theorem height_above_maxHeight :
    ((sampleTerrain5 (9 / 10)).generateDiamondSquare (fun v => v) (1 / 2) 1).map
        (fun t => t.heightmap) =
      some [0, 51 / 40, 6 / 5, 51 / 40, 0,
            51 / 40, 51 / 40, 129 / 80, 51 / 40, 51 / 40,
            6 / 5, 129 / 80, 9 / 10, 129 / 80, 6 / 5,
            51 / 40, 51 / 40, 129 / 80, 51 / 40, 51 / 40,
            0, 51 / 40, 6 / 5, 51 / 40, 0] ∧
    ((sampleTerrain5 (9 / 10)).generateDiamondSquare (fun v => v) (1 / 2) 1).bind
        (fun t => t.getHeight 2 1) = some (129 / 80) ∧
    ((sampleTerrain (9 / 10)).generateDiamondSquare (fun v => v) (1 / 2) 1).bind
        (fun t => t.getHeight 1 0) = some (6 / 5) ∧
    ¬ ((129 : ℚ) / 80 ≤ 1) ∧ ¬ ((6 : ℚ) / 5 ≤ 1) := by
  refine ⟨?_, ?_, ?_, by norm_num, by norm_num⟩
  · with_unfolding_all rfl
  · with_unfolding_all rfl
  · with_unfolding_all rfl

/-- C8, amended: on a square grid of side `2 ^ n + 1`, `n ≥ 1` (whatever it holds before
the call), with roughness 1/2, maxHeight `≥ 0` and every draw in `[-1, 1]`,
`generateDiamondSquare` returns (so no height is the result of a division by zero) and
every cell of the generated grid holds a height `h` with `0 ≤ h ≤ 4 * maxHeight`. -/
theorem heights_within_four_maxHeight (n : Nat) (hn : 1 ≤ n) (normalize : Vec3 F → Vec3 F)
    (t : ProceduralTerrain F) (hs : t.Square (2 ^ n + 1)) (hd : DrawsBounded t)
    (maxHeight : F) (hM : 0 ≤ maxHeight) :
    ∃ t', t.generateDiamondSquare normalize (1 / 2) maxHeight = some t' ∧
      ∀ x z : Int, 0 ≤ x → x < 2 ^ n + 1 → 0 ≤ z → z < 2 ^ n + 1 →
        ∃ h, t'.getHeight x z = some h ∧ 0 ≤ h ∧ h ≤ 4 * maxHeight := by
  obtain ⟨t', t2, e, ⟨s2, -, hsc, B, -, hB4, hc⟩, f1, f2, f3, hw⟩ :=
    generateDiamondSquare_invariant hn (1 / 2 : F) maxHeight normalize
      (fun k scale t => t.Square (2 ^ n + 1) ∧ DrawsBounded t ∧ 0 ≤ scale ∧
        ∃ B : F, 0 ≤ B ∧ B + 4 * scale ≤ 4 * maxHeight ∧
          LatticeWithin (2 ^ n + 1) (2 ^ k) 0 B t)
      (by
        intro k scale t hk ⟨hs, hd, hsc, B, hB, hB4, hc⟩
        obtain ⟨t1, e1, t2, e2, s2, d2, c2⟩ :=
          lattice_round (pow_roundShape hk) hsc hB t hs hd hc
        exact ⟨t1, e1, t2, e2, s2, d2, by positivity, B + 2 * scale, by positivity,
          by linarith, c2⟩)
      (fun _ t ht => ht.1.2.2) hs
      (by
        intro t0 s0 hrng hcells
        refine ⟨s0, ?_, hM, 0, le_refl _, by linarith, ?_⟩
        · intro k
          rw [hrng]
          exact hd k
        · intro a b ha has hb hbs hda hdb
          have hpos : (0 : Int) < 2 ^ n := by positivity
          have hcorner : isCorner (2 ^ n + 1) a b := by
            obtain ⟨p, hp⟩ := hda
            obtain ⟨q, hq⟩ := hdb
            have hp' : p = 0 ∨ p = 1 := by
              have h0 : 0 ≤ p := by
                by_contra hneg
                have : (2 : Int) ^ n * p ≤ 2 ^ n * (-1) :=
                  mul_le_mul_of_nonneg_left (by omega) (le_of_lt hpos)
                omega
              have h1 : p ≤ 1 := by
                by_contra hneg
                have : (2 : Int) ^ n * 2 ≤ 2 ^ n * p :=
                  mul_le_mul_of_nonneg_left (by omega) (le_of_lt hpos)
                omega
              omega
            have hq' : q = 0 ∨ q = 1 := by
              have h0 : 0 ≤ q := by
                by_contra hneg
                have : (2 : Int) ^ n * q ≤ 2 ^ n * (-1) :=
                  mul_le_mul_of_nonneg_left (by omega) (le_of_lt hpos)
                omega
              have h1 : q ≤ 1 := by
                by_contra hneg
                have : (2 : Int) ^ n * 2 ≤ 2 ^ n * q :=
                  mul_le_mul_of_nonneg_left (by omega) (le_of_lt hpos)
                omega
              omega
            unfold isCorner
            constructor
            · rcases hp' with rfl | rfl
              · left; rw [hp]; ring
              · right; rw [hp]; ring
            · rcases hq' with rfl | rfl
              · left; rw [hq]; ring
              · right; rw [hq]; ring
          rw [hcells a b ha has hb hbs, if_pos hcorner]
          exact ⟨le_refl _, le_refl _⟩)
  refine ⟨t', e, ?_⟩
  intro x z hx hxs hz hzs
  have hw' : t'.width = 2 ^ n + 1 := f2.trans s2.1
  have hh' : t'.height = 2 ^ n + 1 := f3.trans s2.2.1
  refine ⟨t'.cell x z, ?_, ?_⟩
  · rw [ProceduralTerrain.getHeight_eq_read hw,
      ProceduralTerrain.read_eq_cell hx (by omega) hz (by omega)]
  · have : t'.cell x z = t2.cell x z := by
      simp only [ProceduralTerrain.cell, f1, f2]
    rw [this]
    have := hc x z hx hxs hz hzs (by rw [pow_zero]; exact one_dvd _)
      (by rw [pow_zero]; exact one_dvd _)
    exact ⟨this.1, by linarith [this.2]⟩

theorem heights_within_four_maxHeight_witness :
    ∃ t', (sampleTerrain (9 / 10)).generateDiamondSquare (fun v => v) (1 / 2) 1 = some t' ∧
      ∀ x z : Int, 0 ≤ x → x < 2 ^ 1 + 1 → 0 ≤ z → z < 2 ^ 1 + 1 →
        ∃ h, t'.getHeight x z = some h ∧ 0 ≤ h ∧ h ≤ 4 * 1 :=
  heights_within_four_maxHeight 1 (le_refl _) (fun v => v) (sampleTerrain (9 / 10))
    ⟨rfl, rfl, rfl, rfl⟩
    (fun _ => by simp only [sampleTerrain]; rw [abs_le]; constructor <;> norm_num)
    1 (by norm_num)

/-- C9: on a square terrain of side `2 ^ n + 1` that satisfies the class invariant, in the
round with `halfStep = 2 ^ k` and `step = 2 ^ (k + 1)`, `k < n`: at every cell `(x, z)` that
the square step visits, the coordinates it reads are exactly the in-bounds subset of the four
neighbours at distance `halfStep`; each of them lies inside the grid, so `getHeight` returns
the stored entry and not the out-of-range 0; the sum and the count are the sum and the
number of these entries, the average is their quotient, and the count is 4 for an interior
cell and 3 (hence 2 or 3) for a cell on the border; the body of the square step returns
and stores at `(x, z)`, and nowhere else, the absolute value of that average plus
`draw * scale`.  At every corner `(x, z)` that the diamond step visits, the four corners
`(x, z)`, `(x + step, z)`, `(x, z + step)`, `(x + step, z + step)` that it reads lie inside
the grid as well, `getHeight` returns their stored entries, and the body of the diamond step
returns and stores at the centre, and nowhere else, the quarter of the sum of these four
entries plus `fabs(draw) * scale`. -/
theorem square_step_averages_in_bounds (n k : Nat) (hk : k < n) (t : ProceduralTerrain F)
    (hs : t.Square (2 ^ n + 1)) :
    (∀ z ∈ forLoop 0 (2 ^ n + 1) (2 ^ k),
      ∀ x ∈ forLoop (Int.tmod (z + 2 ^ k) (2 ^ (k + 1))) (2 ^ n + 1) (2 ^ (k + 1)),
        squareReads (2 ^ n + 1) (2 ^ k) x z = inBoundsNeighbours (2 ^ n + 1) (2 ^ k) x z ∧
        (∀ p ∈ squareReads (2 ^ n + 1) (2 ^ k) x z,
          inGrid (2 ^ n + 1) p = true ∧ t.getHeight p.1 p.2 = some (t.cell p.1 p.2)) ∧
        squareSum (2 ^ n + 1) (2 ^ k) t z x =
          some (((inBoundsNeighbours (2 ^ n + 1) (2 ^ k) x z).map
              (fun p => t.cell p.1 p.2)).sum,
            ((inBoundsNeighbours (2 ^ n + 1) (2 ^ k) x z).length : Int)) ∧
        squareAverage (2 ^ n + 1) (2 ^ k) t z x =
          some (((inBoundsNeighbours (2 ^ n + 1) (2 ^ k) x z).map
              (fun p => t.cell p.1 p.2)).sum /
            (((inBoundsNeighbours (2 ^ n + 1) (2 ^ k) x z).length : Int) : F)) ∧
        ((0 < x ∧ x < 2 ^ n + 1 - 1 ∧ 0 < z ∧ z < 2 ^ n + 1 - 1) →
          (inBoundsNeighbours (2 ^ n + 1) (2 ^ k) x z).length = 4) ∧
        (¬ (0 < x ∧ x < 2 ^ n + 1 - 1 ∧ 0 < z ∧ z < 2 ^ n + 1 - 1) →
          (inBoundsNeighbours (2 ^ n + 1) (2 ^ k) x z).length = 3) ∧
        ∀ scale : F, ∃ t', squareCell (2 ^ n + 1) (2 ^ k) scale t z x = some t' ∧
          t.Writes x z
            |((inBoundsNeighbours (2 ^ n + 1) (2 ^ k) x z).map
                (fun p => t.cell p.1 p.2)).sum /
              (((inBoundsNeighbours (2 ^ n + 1) (2 ^ k) x z).length : Int) : F) +
              (dist t.rng).1 * scale| (dist t.rng).2 t') ∧
    (∀ z ∈ forLoop 0 (2 ^ n + 1 - 1) (2 ^ (k + 1)),
      ∀ x ∈ forLoop 0 (2 ^ n + 1 - 1) (2 ^ (k + 1)),
        (∀ p ∈ diamondReads (2 ^ (k + 1)) x z,
          inGrid (2 ^ n + 1) p = true ∧ t.getHeight p.1 p.2 = some (t.cell p.1 p.2)) ∧
        (0 ≤ x ∧ x + 2 ^ (k + 1) < 2 ^ n + 1 ∧ 0 ≤ z ∧ z + 2 ^ (k + 1) < 2 ^ n + 1) ∧
        t.getHeight x z = some (t.cell x z) ∧
        t.getHeight (x + 2 ^ (k + 1)) z = some (t.cell (x + 2 ^ (k + 1)) z) ∧
        t.getHeight x (z + 2 ^ (k + 1)) = some (t.cell x (z + 2 ^ (k + 1))) ∧
        t.getHeight (x + 2 ^ (k + 1)) (z + 2 ^ (k + 1)) =
          some (t.cell (x + 2 ^ (k + 1)) (z + 2 ^ (k + 1))) ∧
        ∀ scale : F, ∃ t', diamondCell (2 ^ (k + 1)) (2 ^ k) scale t z x = some t' ∧
          t.Writes (x + 2 ^ k) (z + 2 ^ k)
            ((t.cell x z + t.cell (x + 2 ^ (k + 1)) z + t.cell x (z + 2 ^ (k + 1)) +
              t.cell (x + 2 ^ (k + 1)) (z + 2 ^ (k + 1))) / 4 +
              |(dist t.rng).1| * scale) (dist t.rng).2 t') := by
  have hr := pow_roundShape hk
  have hh := hr.half_pos
  constructor
  · intro z hz x hx
    obtain ⟨hz0, hz1, hx0, hx1, hzd, hd⟩ := hr.square_index hz hx
    have hle : (2 : Int) ^ (k + 1) ≤ 2 ^ n + 1 - 1 := Int.le_of_dvd hr.size_pos hr.step_dvd
    have hse := hr.step_eq
    have hne : squareReads (2 ^ n + 1) (2 ^ k) x z ≠ [] := squareReads_ne_nil (by omega)
    have heq : squareReads (2 ^ n + 1) (2 ^ k) x z =
        inBoundsNeighbours (2 ^ n + 1) (2 ^ k) x z :=
      squareReads_eq (by omega) hx0 hx1 hz0 hz1
    have hin : ∀ p ∈ squareReads (2 ^ n + 1) (2 ^ k) x z, inGrid (2 ^ n + 1) p = true := by
      intro p hp
      rw [heq] at hp
      exact inGrid_of_mem_inBoundsNeighbours hp
    have hmean : squareMean (2 ^ n + 1) (2 ^ k) t x z =
        ((inBoundsNeighbours (2 ^ n + 1) (2 ^ k) x z).map (fun p => t.cell p.1 p.2)).sum /
          (((inBoundsNeighbours (2 ^ n + 1) (2 ^ k) x z).length : Int) : F) :=
      squareMean_eq_cells hs (by omega) hx0 hx1 hz0 hz1
    have hlen := hr.squareReads_length hx0 hx1 hz0 hz1 hzd hd
    rw [heq] at hlen
    refine ⟨heq, fun p hp => ⟨hin p hp, ProceduralTerrain.getHeight_inGrid hs (hin p hp)⟩,
      ?_, ?_, hlen.1, hlen.2, ?_⟩
    · rw [squareSum_eq hs.2.2, heq]
      congr 3
      apply List.map_congr_left
      intro p hp
      have := inGrid_of_mem_inBoundsNeighbours hp
      simp only [inGrid, decide_eq_true_eq] at this
      exact ProceduralTerrain.read_eq_cell this.1 (by rw [hs.1]; exact this.2.1) this.2.2.1
        (by rw [hs.2.1]; exact this.2.2.2)
    · rw [squareAverage_eq hs.2.2 hne, hmean]
    · intro scale
      obtain ⟨t', e, w⟩ := squareCell_writes hs.2.2 scale ((2 : Int) ^ n + 1) (2 ^ k)
        (x := x) (z := z) hx0 (by rw [hs.1]; exact hx1) hz0 (by rw [hs.2.1]; exact hz1) hne
      rw [hmean] at w
      exact ⟨t', e, w⟩
  · intro z hz x hx
    obtain ⟨hz0, hz1, -⟩ := hr.diamond_index hz
    obtain ⟨hx0, hx1, -⟩ := hr.diamond_index hx
    have hse := hr.step_eq
    have hle : (2 : Int) ^ (k + 1) ≤ 2 ^ n + 1 - 1 := Int.le_of_dvd hr.size_pos hr.step_dvd
    have hg : ∀ a b : Int, 0 ≤ a → a < 2 ^ n + 1 → 0 ≤ b → b < 2 ^ n + 1 →
        inGrid (2 ^ n + 1) (a, b) = true ∧ t.getHeight a b = some (t.cell a b) ∧
        t.read a b = t.cell a b := by
      intro a b a0 a1 b0 b1
      have hin : inGrid (2 ^ n + 1) (a, b) = true := by
        unfold inGrid
        exact decide_eq_true ⟨a0, a1, b0, b1⟩
      exact ⟨hin, ProceduralTerrain.getHeight_inGrid hs hin,
        ProceduralTerrain.read_eq_cell a0 (by rw [hs.1]; exact a1) b0 (by rw [hs.2.1]; exact b1)⟩
    have g1 := hg x z hx0 (by omega) hz0 (by omega)
    have g2 := hg (x + 2 ^ (k + 1)) z (by omega) (by omega) hz0 (by omega)
    have g3 := hg x (z + 2 ^ (k + 1)) hx0 (by omega) (by omega) (by omega)
    have g4 := hg (x + 2 ^ (k + 1)) (z + 2 ^ (k + 1)) (by omega) (by omega) (by omega)
      (by omega)
    refine ⟨?_, ⟨hx0, by omega, hz0, by omega⟩, g1.2.1, g2.2.1, g3.2.1, g4.2.1, ?_⟩
    · intro p hp
      unfold diamondReads at hp
      simp only [List.mem_cons, List.mem_singleton, List.not_mem_nil, or_false] at hp
      rcases hp with rfl | rfl | rfl | rfl
      · exact ⟨g1.1, g1.2.1⟩
      · exact ⟨g2.1, g2.2.1⟩
      · exact ⟨g3.1, g3.2.1⟩
      · exact ⟨g4.1, g4.2.1⟩
    · intro scale
      obtain ⟨t', e, w⟩ := diamondCell_writes hs.2.2 (2 ^ (k + 1)) (2 ^ k) scale
        (x := x) (z := z) (by omega) (by rw [hs.1]; omega) (by omega) (by rw [hs.2.1]; omega)
      rw [g1.2.2, g2.2.2, g3.2.2, g4.2.2] at w
      exact ⟨t', e, w⟩

theorem square_step_averages_in_bounds_witness :
    (∀ z ∈ forLoop 0 (2 ^ 1 + 1) (2 ^ 0),
      ∀ x ∈ forLoop (Int.tmod (z + 2 ^ 0) (2 ^ (0 + 1))) (2 ^ 1 + 1) (2 ^ (0 + 1)),
        squareReads (2 ^ 1 + 1) (2 ^ 0) x z = inBoundsNeighbours (2 ^ 1 + 1) (2 ^ 0) x z ∧
        (∀ p ∈ squareReads (2 ^ 1 + 1) (2 ^ 0) x z,
          inGrid (2 ^ 1 + 1) p = true ∧ (sampleTerrain 1).getHeight p.1 p.2 = some ((sampleTerrain 1).cell p.1 p.2)) ∧
        squareSum (2 ^ 1 + 1) (2 ^ 0) (sampleTerrain 1) z x =
          some (((inBoundsNeighbours (2 ^ 1 + 1) (2 ^ 0) x z).map
              (fun p => (sampleTerrain 1).cell p.1 p.2)).sum,
            ((inBoundsNeighbours (2 ^ 1 + 1) (2 ^ 0) x z).length : Int)) ∧
        squareAverage (2 ^ 1 + 1) (2 ^ 0) (sampleTerrain 1) z x =
          some (((inBoundsNeighbours (2 ^ 1 + 1) (2 ^ 0) x z).map
              (fun p => (sampleTerrain 1).cell p.1 p.2)).sum /
            (((inBoundsNeighbours (2 ^ 1 + 1) (2 ^ 0) x z).length : Int) : ℚ)) ∧
        ((0 < x ∧ x < 2 ^ 1 + 1 - 1 ∧ 0 < z ∧ z < 2 ^ 1 + 1 - 1) →
          (inBoundsNeighbours (2 ^ 1 + 1) (2 ^ 0) x z).length = 4) ∧
        (¬ (0 < x ∧ x < 2 ^ 1 + 1 - 1 ∧ 0 < z ∧ z < 2 ^ 1 + 1 - 1) →
          (inBoundsNeighbours (2 ^ 1 + 1) (2 ^ 0) x z).length = 3) ∧
        ∀ scale : ℚ, ∃ t', squareCell (2 ^ 1 + 1) (2 ^ 0) scale (sampleTerrain 1) z x = some t' ∧
          (sampleTerrain 1).Writes x z
            |((inBoundsNeighbours (2 ^ 1 + 1) (2 ^ 0) x z).map
                (fun p => (sampleTerrain 1).cell p.1 p.2)).sum /
              (((inBoundsNeighbours (2 ^ 1 + 1) (2 ^ 0) x z).length : Int) : ℚ) +
              (dist (sampleTerrain 1).rng).1 * scale| (dist (sampleTerrain 1).rng).2 t') ∧
    (∀ z ∈ forLoop 0 (2 ^ 1 + 1 - 1) (2 ^ (0 + 1)),
      ∀ x ∈ forLoop 0 (2 ^ 1 + 1 - 1) (2 ^ (0 + 1)),
        (∀ p ∈ diamondReads (2 ^ (0 + 1)) x z,
          inGrid (2 ^ 1 + 1) p = true ∧ (sampleTerrain 1).getHeight p.1 p.2 = some ((sampleTerrain 1).cell p.1 p.2)) ∧
        (0 ≤ x ∧ x + 2 ^ (0 + 1) < 2 ^ 1 + 1 ∧ 0 ≤ z ∧ z + 2 ^ (0 + 1) < 2 ^ 1 + 1) ∧
        (sampleTerrain 1).getHeight x z = some ((sampleTerrain 1).cell x z) ∧
        (sampleTerrain 1).getHeight (x + 2 ^ (0 + 1)) z = some ((sampleTerrain 1).cell (x + 2 ^ (0 + 1)) z) ∧
        (sampleTerrain 1).getHeight x (z + 2 ^ (0 + 1)) = some ((sampleTerrain 1).cell x (z + 2 ^ (0 + 1))) ∧
        (sampleTerrain 1).getHeight (x + 2 ^ (0 + 1)) (z + 2 ^ (0 + 1)) =
          some ((sampleTerrain 1).cell (x + 2 ^ (0 + 1)) (z + 2 ^ (0 + 1))) ∧
        ∀ scale : ℚ, ∃ t', diamondCell (2 ^ (0 + 1)) (2 ^ 0) scale (sampleTerrain 1) z x = some t' ∧
          (sampleTerrain 1).Writes (x + 2 ^ 0) (z + 2 ^ 0)
            (((sampleTerrain 1).cell x z + (sampleTerrain 1).cell (x + 2 ^ (0 + 1)) z + (sampleTerrain 1).cell x (z + 2 ^ (0 + 1)) +
              (sampleTerrain 1).cell (x + 2 ^ (0 + 1)) (z + 2 ^ (0 + 1))) / 4 +
              |(dist (sampleTerrain 1).rng).1| * scale) (dist (sampleTerrain 1).rng).2 t') :=
  square_step_averages_in_bounds 1 0 (by decide) (sampleTerrain 1) ⟨rfl, rfl, rfl, rfl⟩

/-- C10: the height grid that generation produces is a function of the seed of the
generator, the grid size, the roughness and maxHeight.  The seed is the value that the
constructor passes to `rng.seed` (the clock reading), and the generator is a function `gen`
of the seed.  Two runs (constructor, then `generateDiamondSquare`) with the seeds `now₁` and
`now₂`, the same size, roughness and maxHeight produce identical height grids as soon as
the two seeds yield the same draws, which holds in particular when the two runs are given
the same seed (`now₁ = now₂`).  The same holds for the method on two existing objects that
hold the same grid and will draw the same values: both calls return or neither does, and
the height grids they leave are identical, whatever the normals, the index count and the
past draws of the two objects. -/
theorem same_draws_same_grid (gen : Nat → Nat → F) (normalize : Vec3 F → Vec3 F)
    (now₁ now₂ : Nat) (size : Int) (roughness maxHeight : F)
    (h : ∀ k, gen now₁ k = gen now₂ k)
    (t₁ t₂ : ProceduralTerrain F) (ht : SameGrid t₁ t₂) :
    generateTerrain gen normalize now₁ size roughness maxHeight =
      generateTerrain gen normalize now₂ size roughness maxHeight ∧
    (t₁.generateDiamondSquare normalize roughness maxHeight).map (fun t => t.heightmap) =
      (t₂.generateDiamondSquare normalize roughness maxHeight).map (fun t => t.heightmap) := by
  constructor
  · have hrun : BothOrNeither SameGrid
        ((ProceduralTerrain.ctor gen now₁ size size).bind
          (fun t => t.generateDiamondSquare normalize roughness maxHeight))
        ((ProceduralTerrain.ctor gen now₂ size size).bind
          (fun t => t.generateDiamondSquare normalize roughness maxHeight)) :=
      BothOrNeither.bind (sameGrid_ctor gen now₁ now₂ size size h)
        (fun a b hab => sameGrid_generateDiamondSquare hab normalize normalize _ _)
    have hmap := hrun.map_heightmap
    unfold generateTerrain
    simp only [Option.bind_eq_bind, Option.pure_def]
    simp only [Option.map_eq_bind, Option.bind_assoc, Function.comp_def] at hmap
    exact hmap
  · exact (sameGrid_generateDiamondSquare ht normalize normalize _ _).map_heightmap

theorem same_draws_same_grid_witness :
    generateTerrain sampleGen (fun v => v) 0 3 (1 / 2) 1 =
      generateTerrain sampleGen (fun v => v) 2 3 (1 / 2) 1 ∧
    ((sampleTerrain 1).generateDiamondSquare (fun v => v) (1 / 2) 1).map
        (fun t => t.heightmap) =
      (sampleTerrainUsed.generateDiamondSquare (fun v => v) (1 / 2) 1).map
        (fun t => t.heightmap) :=
  same_draws_same_grid sampleGen (fun v => v) 0 2 3 (1 / 2) 1 (fun _ => rfl)
    (sampleTerrain 1) sampleTerrainUsed ⟨rfl, rfl, rfl, rfl, fun _ => rfl⟩

/-! ## Claims on the normals -/

/-- C11: on every terrain that satisfies the class invariant, for every content of its
height grid, `calculateNormals` returns and afterwards every stored normal is a unit vector
(squared length 1), where `glm::normalize` divides by a square root `sqrt` (exact real
arithmetic).  Every normal of the array is overwritten when the dimensions are not negative;
with two negative dimensions no loop pass is made and the normals stay what they were, unit
vectors since the constructor.  The vector that is normalised at a cell always has `y`
component 2, so its squared length is at least 4, its length at least 2, and the division
is never by zero. -/
theorem normals_unit_length (sqrt : F → F) (hs : IsSqrt sqrt) (t : ProceduralTerrain F)
    (hw : t.WF) (hpre : (0 ≤ t.width ∧ 0 ≤ t.height) ∨ ∀ n ∈ t.normals, dot n n = 1) :
    ∃ t', t.calculateNormals (glmNormalize sqrt) = some t' ∧
      (∀ n ∈ t'.normals, dot n n = 1) ∧
      ∀ x z : Int, (slopeVector t x z).y = 2 ∧
        4 ≤ dot (slopeVector t x z) (slopeVector t x z) ∧
        2 ≤ sqrt (dot (slopeVector t x z) (slopeVector t x z)) ∧
        sqrt (dot (slopeVector t x z) (slopeVector t x z)) ≠ 0 := by
  obtain ⟨t', e, -, f2, f3, -, hw', hstored, hmem⟩ :=
    calculateNormals_stored hw (glmNormalize sqrt)
  have hunit : ∀ x z : Int,
      dot (glmNormalize sqrt (slopeVector t x z)) (glmNormalize sqrt (slopeVector t x z)) = 1 :=
    fun x z => (glmNormalize_slope hs _ _).2.2.2
  refine ⟨t', e, ?_, fun x z => ⟨rfl, (glmNormalize_slope hs _ _).1,
    (glmNormalize_slope hs _ _).2.1, (glmNormalize_slope hs _ _).2.2.1⟩⟩
  intro n hn
  rcases hpre with ⟨hw0, hh0⟩ | hold
  · obtain ⟨i, hi, rfl⟩ := List.mem_iff_getElem.mp hn
    have hlen : t'.normals.length = (t.width * t.height).toNat := by
      rw [hw'.2, f2, f3]
    have hpos : 0 < t.width * t.height := by
      by_contra hneg
      have : (t.width * t.height).toNat = 0 := by omega
      omega
    have hwpos : 0 < t.width := by
      rcases eq_or_lt_of_le hw0 with h0 | h0
      · rw [← h0, zero_mul] at hpos
        exact absurd hpos (lt_irrefl _)
      · exact h0
    obtain ⟨c1, c2, c3, c4, c5⟩ := index_split (w := t.width) (h := t.height) (i := (i : Int)) hwpos (by omega) (by omega)
    have hget := hstored _ _ c1 c2 c3 c4
    rw [c5] at hget
    unfold vecGet at hget
    rw [if_neg (by omega), Int.toNat_natCast, List.getElem?_eq_getElem hi] at hget
    rw [Option.some.inj hget]
    exact hunit _ _
  · rcases hmem n hn with h | ⟨x, z, rfl⟩
    · exact hold n h
    · exact hunit x z

theorem normals_unit_length_witness :
    ∃ t', (plateauTerrain (5 : ℝ) 0).calculateNormals (glmNormalize Real.sqrt) = some t' ∧
      (∀ n ∈ t'.normals, dot n n = 1) ∧
      ∀ x z : Int, (slopeVector (plateauTerrain (5 : ℝ) 0) x z).y = 2 ∧
        4 ≤ dot (slopeVector (plateauTerrain (5 : ℝ) 0) x z)
          (slopeVector (plateauTerrain (5 : ℝ) 0) x z) ∧
        2 ≤ Real.sqrt (dot (slopeVector (plateauTerrain (5 : ℝ) 0) x z)
          (slopeVector (plateauTerrain (5 : ℝ) 0) x z)) ∧
        Real.sqrt (dot (slopeVector (plateauTerrain (5 : ℝ) 0) x z)
          (slopeVector (plateauTerrain (5 : ℝ) 0) x z)) ≠ 0 :=
  normals_unit_length Real.sqrt (fun a ha => ⟨Real.sqrt_nonneg a, Real.mul_self_sqrt ha⟩)
    (plateauTerrain (5 : ℝ) 0) ⟨rfl, rfl⟩ (Or.inl ⟨by decide, by decide⟩)

/-- C12, as stated, fails.  On the 3 x 3 grid that holds the height 5 everywhere, at the
border cell `(0, 1)` the left neighbour `(-1, 1)` lies outside the grid; `getHeight` returns
0 for it, not the height 5 of the border cell, and the vector that is normalised is
`(0 - 5, 2, 5 - 5) = (-5, 2, 0)`.  Replicate-clamped access gives `(0, 2, 0)`. -/
theorem border_normal_not_clamped :
    (plateauTerrain (5 : ℚ) 0).getHeight (-1) 1 = some 0 ∧
    (plateauTerrain (5 : ℚ) 0).getHeight 0 1 = some 5 ∧
    ((plateauTerrain (5 : ℚ) 0).calculateNormals (fun v => v)).bind
        (fun t => vecGet t.normals (1 * 3 + 0)) = some (Vec3.mk (-5) 2 0) ∧
    clampedSlopeVector (plateauTerrain (5 : ℚ) 0) 0 1 = Vec3.mk 0 2 0 ∧
    (Vec3.mk (-5) 2 0 : Vec3 ℚ) ≠ Vec3.mk 0 2 0 := by
  refine ⟨?_, ?_, ?_, ?_, by decide⟩
  · with_unfolding_all rfl
  · with_unfolding_all rfl
  · with_unfolding_all rfl
  · with_unfolding_all rfl

/-- C12, amended: `calculateNormals` uses central differences at every cell, with the 0.0
that `getHeight` returns outside the grid.  On every terrain that satisfies the class
invariant, for every grid content and every cell `(x, z)` of the grid, the stored normal is
the normalisation of `(hL - hR, 2, hD - hU)`, where the height used for a neighbour inside
the grid is its grid entry and the height used for a neighbour outside the grid (`x = 0`,
`x = width - 1`, `z = 0` or `z = height - 1`) is 0. -/
theorem border_normals_use_zero (normalize : Vec3 F → Vec3 F) (t : ProceduralTerrain F)
    (hw : t.WF) (x z : Int) (hx : 0 ≤ x) (hxw : x < t.width) (hz : 0 ≤ z)
    (hzh : z < t.height) :
    ∃ t', t.calculateNormals normalize = some t' ∧
      vecGet t'.normals (z * t.width + x) = some (normalize (Vec3.mk
        ((if x = 0 then 0 else t.cell (x - 1) z) -
          (if x = t.width - 1 then 0 else t.cell (x + 1) z)) 2
        ((if z = 0 then 0 else t.cell x (z - 1)) -
          (if z = t.height - 1 then 0 else t.cell x (z + 1))))) := by
  obtain ⟨t', e, -, -, -, -, -, hstored, -⟩ := calculateNormals_stored hw normalize
  refine ⟨t', e, ?_⟩
  rw [hstored x z hx hxw hz hzh]
  have r1 : t.read (x - 1) z = if x = 0 then 0 else t.cell (x - 1) z := by
    unfold ProceduralTerrain.read
    by_cases h : x = 0
    · rw [if_pos h, if_pos (by omega)]
    · rw [if_neg h, if_neg (by omega)]
  have r2 : t.read (x + 1) z = if x = t.width - 1 then 0 else t.cell (x + 1) z := by
    unfold ProceduralTerrain.read
    by_cases h : x = t.width - 1
    · rw [if_pos h, if_pos (by omega)]
    · rw [if_neg h, if_neg (by omega)]
  have r3 : t.read x (z - 1) = if z = 0 then 0 else t.cell x (z - 1) := by
    unfold ProceduralTerrain.read
    by_cases h : z = 0
    · rw [if_pos h, if_pos (by omega)]
    · rw [if_neg h, if_neg (by omega)]
  have r4 : t.read x (z + 1) = if z = t.height - 1 then 0 else t.cell x (z + 1) := by
    unfold ProceduralTerrain.read
    by_cases h : z = t.height - 1
    · rw [if_pos h, if_pos (by omega)]
    · rw [if_neg h, if_neg (by omega)]
  simp only [slopeVector, r1, r2, r3, r4]

theorem border_normals_use_zero_witness :
    ∃ t', (plateauTerrain (5 : ℚ) 0).calculateNormals (fun v => v) = some t' ∧
      vecGet t'.normals (1 * (plateauTerrain (5 : ℚ) 0).width + 0) = some ((fun v => v)
        (Vec3.mk
        ((if (0 : Int) = 0 then 0 else (plateauTerrain (5 : ℚ) 0).cell (0 - 1) 1) -
          (if (0 : Int) = (plateauTerrain (5 : ℚ) 0).width - 1 then 0
            else (plateauTerrain (5 : ℚ) 0).cell (0 + 1) 1)) 2
        ((if (1 : Int) = 0 then 0 else (plateauTerrain (5 : ℚ) 0).cell 0 (1 - 1)) -
          (if (1 : Int) = (plateauTerrain (5 : ℚ) 0).height - 1 then 0
            else (plateauTerrain (5 : ℚ) 0).cell 0 (1 + 1))))) :=
  border_normals_use_zero (fun v => v) (plateauTerrain (5 : ℚ) 0) ⟨rfl, rfl⟩ 0 1
    (by decide) (by decide) (by decide) (by decide)

/-! ## Claims on the noise generator and on erosion -/

/-- C13: for every `t`, `_fade(t)`, computed in the Horner form
`t * t * t * (t * (t * 6 - 15) + 10)` of the source, equals the smootherstep polynomial
`6 t^5 - 15 t^4 + 10 t^3` (exact arithmetic). -/
theorem fade_eq_smootherstep (t : F) :
    NoiseGenerator._fade t = 6 * t ^ 5 - 15 * t ^ 4 + 10 * t ^ 3 := by
  unfold NoiseGenerator._fade
  ring

/-- C14, on the code: every noise function raises.  The constructor calls
`_initialize_permutation_table`, whose body is a `throw`, so no `NoiseGenerator` can be
constructed, for any seed; and on any object and for all arguments `perlin`, `simplex`, `fbm`
(2D and 3D), `ridged_multi` and `worley` raise `std::runtime_error` without returning a
value. -/
theorem noise_sampling_raises (seed : Nat) (g : NoiseGenerator) (x y z frequency : F)
    (octaves : Int) (persistence lacunarity : F) :
    NoiseGenerator.ctor seed =
      Except.error "NoiseGenerator::_initialize_permutation_table not implemented" ∧
    g.perlin x y frequency = Except.error "NoiseGenerator::perlin not implemented" ∧
    g.perlin3 x y z frequency = Except.error "NoiseGenerator::perlin not implemented" ∧
    g.simplex x y frequency = Except.error "NoiseGenerator::simplex not implemented" ∧
    g.simplex3 x y z frequency = Except.error "NoiseGenerator::simplex not implemented" ∧
    g.fbm x y octaves persistence lacunarity frequency =
      Except.error "NoiseGenerator::fbm not implemented" ∧
    g.fbm3 x y z octaves persistence lacunarity frequency =
      Except.error "NoiseGenerator::fbm not implemented" ∧
    g.ridged_multi x y octaves persistence lacunarity frequency =
      Except.error "NoiseGenerator::ridged_multi not implemented" ∧
    g.worley x y frequency = Except.error "NoiseGenerator::worley not implemented" :=
  ⟨rfl, rfl, rfl, rfl, rfl, rfl, rfl, rfl, rfl⟩

/-- C15, on the code: the 2D `fbm` returns no value at all, for any arguments: so there is
no `v` of which a range could hold. -/
theorem fbm_returns_no_value (g : NoiseGenerator) (x y : F) (octaves : Int)
    (persistence lacunarity frequency : F) :
    ¬ ∃ v : F, g.fbm x y octaves persistence lacunarity frequency = Except.ok v := by
  rintro ⟨v, hv⟩
  simp [NoiseGenerator.fbm, throw, throwThe, MonadExceptOf.throw] at hv

/-- C16, on the code: `_apply_thermal_erosion` raises for every height map and every talus
angle; the pass never completes, and no grid results whose sum could be compared. -/
theorem thermal_erosion_raises (h : HeightMap F) (talus_angle : F) :
    h._apply_thermal_erosion talus_angle =
      Except.error "HeightMap::_apply_thermal_erosion not implemented" ∧
    ¬ ∃ h' : HeightMap F, h._apply_thermal_erosion talus_angle = Except.ok h' := by
  refine ⟨rfl, ?_⟩
  rintro ⟨h', hh⟩
  simp [HeightMap._apply_thermal_erosion, throw, throwThe, MonadExceptOf.throw] at hh

/-! ## Claims on the steps and the rounds of generation -/

/-- C17, as stated, fails: the offset is not the draw times the scale but the absolute
value of the draw times the scale.  On the 3 x 3 grid of zeros, with scale 1 and the draw
-1/2, the diamond step at `(0, 0)` writes `0 + |-1/2| * 1 = 1/2` to the centre `(1, 1)`,
not `0 + (-1/2) * 1 = -1/2`. -/
theorem diamond_offset_not_draw :
    (diamondCell 2 1 1 (sampleTerrain (-1 / 2)) 0 0).bind (fun t => t.getHeight 1 1) =
      some (1 / 2) ∧
    (dist (sampleTerrain (-1 / 2)).rng).1 = -1 / 2 ∧
    ((sampleTerrain (-1 / 2)).cell 0 0 + (sampleTerrain (-1 / 2)).cell 2 0 +
      (sampleTerrain (-1 / 2)).cell 0 2 + (sampleTerrain (-1 / 2)).cell 2 2) / 4 +
      (dist (sampleTerrain (-1 / 2)).rng).1 * 1 = -1 / 2 ∧
    (1 / 2 : ℚ) ≠ -1 / 2 := by
  refine ⟨?_, ?_, ?_, by norm_num⟩
  · with_unfolding_all rfl
  · with_unfolding_all rfl
  · with_unfolding_all rfl

/-- C17, amended: in the round with `step = 2 ^ (k + 1)` and `halfStep = 2 ^ k` on a square
terrain of side `2 ^ n + 1`, for every square with top-left corner `(x, z)` that the diamond
step visits, the step returns and sets the cell `(x + halfStep, z + halfStep)` to the
average of the square's four corner heights (their sum divided by 4) plus an offset equal
to the absolute value of a random draw times the current scale; so, for a draw in
`[-1, 1]`, the written value differs from that average by at most the current scale in
magnitude, and for a scale `≥ 0` it is not below the average. -/
theorem diamond_step_value (n k : Nat) (hk : k < n) (scale : F) (t : ProceduralTerrain F)
    (hs : t.Square (2 ^ n + 1))
    (z : Int) (hz : z ∈ forLoop 0 (2 ^ n + 1 - 1) (2 ^ (k + 1)))
    (x : Int) (hx : x ∈ forLoop 0 (2 ^ n + 1 - 1) (2 ^ (k + 1))) :
    ∃ t' v, diamondCell (2 ^ (k + 1)) (2 ^ k) scale t z x = some t' ∧
      t'.getHeight (x + 2 ^ k) (z + 2 ^ k) = some v ∧
      v = (t.cell x z + t.cell (x + 2 ^ (k + 1)) z + t.cell x (z + 2 ^ (k + 1)) +
          t.cell (x + 2 ^ (k + 1)) (z + 2 ^ (k + 1))) / 4 + |(dist t.rng).1| * scale ∧
      (|(dist t.rng).1| ≤ 1 →
        |v - (t.cell x z + t.cell (x + 2 ^ (k + 1)) z + t.cell x (z + 2 ^ (k + 1)) +
          t.cell (x + 2 ^ (k + 1)) (z + 2 ^ (k + 1))) / 4| ≤ |scale|) ∧
      (0 ≤ scale →
        (t.cell x z + t.cell (x + 2 ^ (k + 1)) z + t.cell x (z + 2 ^ (k + 1)) +
          t.cell (x + 2 ^ (k + 1)) (z + 2 ^ (k + 1))) / 4 ≤ v) := by
  have hr := pow_roundShape hk
  have h1 := hr.half_pos
  have h2 := hr.step_eq
  obtain ⟨hz0, hz1, -⟩ := hr.diamond_index hz
  obtain ⟨hx0, hx1, -⟩ := hr.diamond_index hx
  obtain ⟨t', e, w⟩ := diamondCell_writes hs.2.2 (2 ^ (k + 1)) (2 ^ k) scale (x := x) (z := z)
    (by omega) (by rw [hs.1]; omega) (by omega) (by rw [hs.2.1]; omega)
  have c1 : t.read x z = t.cell x z :=
    ProceduralTerrain.read_eq_cell hx0 (by rw [hs.1]; omega) hz0 (by rw [hs.2.1]; omega)
  have c2 : t.read (x + 2 ^ (k + 1)) z = t.cell (x + 2 ^ (k + 1)) z :=
    ProceduralTerrain.read_eq_cell (by omega) (by rw [hs.1]; omega) hz0 (by rw [hs.2.1]; omega)
  have c3 : t.read x (z + 2 ^ (k + 1)) = t.cell x (z + 2 ^ (k + 1)) :=
    ProceduralTerrain.read_eq_cell hx0 (by rw [hs.1]; omega) (by omega) (by rw [hs.2.1]; omega)
  have c4 : t.read (x + 2 ^ (k + 1)) (z + 2 ^ (k + 1)) =
      t.cell (x + 2 ^ (k + 1)) (z + 2 ^ (k + 1)) :=
    ProceduralTerrain.read_eq_cell (by omega) (by rw [hs.1]; omega) (by omega)
      (by rw [hs.2.1]; omega)
  rw [c1, c2, c3, c4] at w
  refine ⟨t', _, e, ?_, rfl, ?_, ?_⟩
  · rw [ProceduralTerrain.getHeight_eq_read w.2.2.2.2.2.1,
      ProceduralTerrain.read_eq_cell (by omega) (by rw [w.1, hs.1]; omega) (by omega)
        (by rw [w.2.1, hs.2.1]; omega),
      w.cell_eq hs (by omega) (by omega) (by omega) (by omega), if_pos ⟨rfl, rfl⟩]
  · intro hd
    rw [add_sub_cancel_left, abs_mul, abs_abs]
    calc |(dist t.rng).1| * |scale| ≤ 1 * |scale| :=
          mul_le_mul_of_nonneg_right hd (abs_nonneg _)
      _ = |scale| := one_mul _
  · intro hsc
    have := mul_nonneg (abs_nonneg (dist t.rng).1) hsc
    linarith

theorem diamond_step_value_witness :
    ∃ t' v, diamondCell (2 ^ (0 + 1)) (2 ^ 0) 1 (sampleTerrain (-1 / 2)) 0 0 = some t' ∧
      t'.getHeight (0 + 2 ^ 0) (0 + 2 ^ 0) = some v ∧
      v = ((sampleTerrain (-1 / 2)).cell 0 0 +
          (sampleTerrain (-1 / 2)).cell (0 + 2 ^ (0 + 1)) 0 +
          (sampleTerrain (-1 / 2)).cell 0 (0 + 2 ^ (0 + 1)) +
          (sampleTerrain (-1 / 2)).cell (0 + 2 ^ (0 + 1)) (0 + 2 ^ (0 + 1))) / 4 +
          |(dist (sampleTerrain (-1 / 2)).rng).1| * 1 ∧
      (|(dist (sampleTerrain (-1 / 2)).rng).1| ≤ 1 →
        |v - ((sampleTerrain (-1 / 2)).cell 0 0 +
          (sampleTerrain (-1 / 2)).cell (0 + 2 ^ (0 + 1)) 0 +
          (sampleTerrain (-1 / 2)).cell 0 (0 + 2 ^ (0 + 1)) +
          (sampleTerrain (-1 / 2)).cell (0 + 2 ^ (0 + 1)) (0 + 2 ^ (0 + 1))) / 4| ≤
            |(1 : ℚ)|) ∧
      ((0 : ℚ) ≤ 1 →
        ((sampleTerrain (-1 / 2)).cell 0 0 +
          (sampleTerrain (-1 / 2)).cell (0 + 2 ^ (0 + 1)) 0 +
          (sampleTerrain (-1 / 2)).cell 0 (0 + 2 ^ (0 + 1)) +
          (sampleTerrain (-1 / 2)).cell (0 + 2 ^ (0 + 1)) (0 + 2 ^ (0 + 1))) / 4 ≤ v) :=
  diamond_step_value 1 0 (by decide) 1 (sampleTerrain (-1 / 2)) ⟨rfl, rfl, rfl, rfl⟩
    0 (by decide) 0 (by decide)

/-- C18, as stated, fails: the square step writes the absolute value of the average plus the
offset.  On the 3 x 3 grid of zeros with every draw -1 and scale 1, after the diamond step
the centre holds 1; at the cell `(1, 0)` the average of the in-bounds neighbours `(0, 0)`,
`(2, 0)` and `(1, 1)` is 1/3 and the offset is `-1 * 1`, so the average plus the offset is
-2/3, but the value written is `|1/3 - 1| = 2/3`. -/
theorem square_value_not_sum :
    ((diamondStep 3 2 1 1 (sampleTerrain (-1))).bind
        (fun t => squareAverage 3 1 t 0 1)) = some (1 / 3) ∧
    ((diamondStep 3 2 1 1 (sampleTerrain (-1))).bind
        (fun t => some (dist t.rng).1)) = some (-1) ∧
    (((diamondStep 3 2 1 1 (sampleTerrain (-1))).bind
        (fun t => squareCell 3 1 1 t 0 1)).bind (fun t => t.getHeight 1 0)) = some (2 / 3) ∧
    (2 / 3 : ℚ) ≠ 1 / 3 + (-1) * 1 := by
  refine ⟨?_, ?_, ?_, by norm_num⟩
  · with_unfolding_all rfl
  · with_unfolding_all rfl
  · with_unfolding_all rfl

/-- C18, amended: in the round with `step = 2 ^ (k + 1)` and `halfStep = 2 ^ k` on a square
terrain of side `2 ^ n + 1`, for every cell `(x, z)` that the square step visits and every
random draw `r`, the step returns and the value written to the cell is the absolute value
of the average of its in-bounds neighbours plus the random offset `r * scale`; it equals
the average plus the offset whenever that sum is not negative. -/
theorem square_step_value (n k : Nat) (hk : k < n) (scale : F) (t : ProceduralTerrain F)
    (hs : t.Square (2 ^ n + 1))
    (z : Int) (hz : z ∈ forLoop 0 (2 ^ n + 1) (2 ^ k))
    (x : Int) (hx : x ∈ forLoop (Int.tmod (z + 2 ^ k) (2 ^ (k + 1))) (2 ^ n + 1) (2 ^ (k + 1))) :
    ∃ t' v, squareCell (2 ^ n + 1) (2 ^ k) scale t z x = some t' ∧
      t'.getHeight x z = some v ∧
      v = |((inBoundsNeighbours (2 ^ n + 1) (2 ^ k) x z).map
              (fun p => t.cell p.1 p.2)).sum /
            (((inBoundsNeighbours (2 ^ n + 1) (2 ^ k) x z).length : Int) : F) +
          (dist t.rng).1 * scale| ∧
      (0 ≤ ((inBoundsNeighbours (2 ^ n + 1) (2 ^ k) x z).map
              (fun p => t.cell p.1 p.2)).sum /
            (((inBoundsNeighbours (2 ^ n + 1) (2 ^ k) x z).length : Int) : F) +
          (dist t.rng).1 * scale →
        v = ((inBoundsNeighbours (2 ^ n + 1) (2 ^ k) x z).map
              (fun p => t.cell p.1 p.2)).sum /
            (((inBoundsNeighbours (2 ^ n + 1) (2 ^ k) x z).length : Int) : F) +
          (dist t.rng).1 * scale) := by
  have hr := pow_roundShape hk
  have h1 := hr.half_pos
  have h2 := hr.step_eq
  have hle : (2 : Int) ^ (k + 1) ≤ 2 ^ n + 1 - 1 := Int.le_of_dvd hr.size_pos hr.step_dvd
  obtain ⟨hz0, hz1, hx0, hx1, -, -⟩ := hr.square_index hz hx
  have hne : squareReads (2 ^ n + 1) (2 ^ k) x z ≠ [] := squareReads_ne_nil (by omega)
  obtain ⟨t', e, w⟩ := squareCell_writes hs.2.2 scale (2 ^ n + 1) (2 ^ k) (x := x) (z := z)
    hx0 (by rw [hs.1]; omega) hz0 (by rw [hs.2.1]; omega) hne
  have hmean : squareMean (2 ^ n + 1) (2 ^ k) t x z =
      ((inBoundsNeighbours (2 ^ n + 1) (2 ^ k) x z).map (fun p => t.cell p.1 p.2)).sum /
        (((inBoundsNeighbours (2 ^ n + 1) (2 ^ k) x z).length : Int) : F) :=
    squareMean_eq_cells hs (by omega) hx0 hx1 hz0 hz1
  rw [hmean] at w
  refine ⟨t', _, e, ?_, rfl, fun h0 => abs_of_nonneg h0⟩
  rw [ProceduralTerrain.getHeight_eq_read w.2.2.2.2.2.1,
    ProceduralTerrain.read_eq_cell hx0 (by rw [w.1, hs.1]; omega) hz0
      (by rw [w.2.1, hs.2.1]; omega),
    w.cell_eq hs hx0 hx1 hz0 hz1, if_pos ⟨rfl, rfl⟩]

theorem square_step_value_witness :
    ∃ t' v, squareCell (2 ^ 1 + 1) (2 ^ 0) 1 (sampleTerrain (-1)) 0 1 = some t' ∧
      t'.getHeight 1 0 = some v ∧
      v = |((inBoundsNeighbours (2 ^ 1 + 1) (2 ^ 0) 1 0).map
              (fun p => (sampleTerrain (-1)).cell p.1 p.2)).sum /
            (((inBoundsNeighbours (2 ^ 1 + 1) (2 ^ 0) 1 0).length : Int) : ℚ) +
          (dist (sampleTerrain (-1)).rng).1 * 1| ∧
      (0 ≤ ((inBoundsNeighbours (2 ^ 1 + 1) (2 ^ 0) 1 0).map
              (fun p => (sampleTerrain (-1)).cell p.1 p.2)).sum /
            (((inBoundsNeighbours (2 ^ 1 + 1) (2 ^ 0) 1 0).length : Int) : ℚ) +
          (dist (sampleTerrain (-1)).rng).1 * 1 →
        v = ((inBoundsNeighbours (2 ^ 1 + 1) (2 ^ 0) 1 0).map
              (fun p => (sampleTerrain (-1)).cell p.1 p.2)).sum /
            (((inBoundsNeighbours (2 ^ 1 + 1) (2 ^ 0) 1 0).length : Int) : ℚ) +
          (dist (sampleTerrain (-1)).rng).1 * 1) :=
  square_step_value 1 0 (by decide) 1 (sampleTerrain (-1)) ⟨rfl, rfl, rfl, rfl⟩
    0 (by decide) 1 (by decide)

/-- C19: the displacement amplitude shrinks geometrically.  The loop of
`generateDiamondSquare` is the succession of its rounds, each of which passes its scale to
the diamond step and to the square step; the round number `k` (from 0) is entered with
`scale = maxHeight * roughness ^ k`.  For a roughness in `(0, 1)`, maxHeight `> 0` and a
draw in `[-1, 1]`, the offset of the diamond step (`|draw| * scale`) and the offset of the
square step (`draw * scale`) of round `k` have magnitude at most
`maxHeight * roughness ^ k`, and this bound is strictly smaller in round `k + 1`.  These are
the offsets that the bodies of the two steps apply: on every square terrain of that side
whose next draw is in `[-1, 1]`, the body of the diamond step of round `k` with an in-grid
centre returns and stores there the mean of the four heights it read plus
`fabs(draw) * scale`, which differs from that mean by at most `maxHeight * roughness ^ k`;
the body of the square step at an in-grid cell returns and stores there
`fabs(avg + draw * scale)`, where `avg` is the average it computed, and the stored height
differs from `fabs(avg)` by at most `maxHeight * roughness ^ k`. -/
theorem scale_shrinks_geometrically (roughness maxHeight : F) (hr0 : 0 < roughness)
    (hr1 : roughness < 1) (hM : 0 < maxHeight) (size : Int) (t : ProceduralTerrain F)
    (k : Nat) (p : Int × F)
    (hp : (roundSchedule roughness ((size - 1).toNat + 1) (size - 1) maxHeight)[k]? = some p) :
    diamondSquareLoop size roughness ((size - 1).toNat + 1) (size - 1) maxHeight t =
      (roundSchedule roughness ((size - 1).toNat + 1) (size - 1) maxHeight).foldlM
        (roundBody size) t ∧
    (∀ s : ProceduralTerrain F, roundBody size s p =
      (diamondStep size p.1 (Int.tdiv p.1 2) p.2 s).bind
        (squareStep size p.1 (Int.tdiv p.1 2) p.2)) ∧
    p.2 = maxHeight * roughness ^ k ∧
    (∀ draw : F, |draw| ≤ 1 →
      |(|draw| * p.2)| ≤ maxHeight * roughness ^ k ∧
      |draw * p.2| ≤ maxHeight * roughness ^ k) ∧
    maxHeight * roughness ^ (k + 1) < maxHeight * roughness ^ k ∧
    (∀ s : ProceduralTerrain F, s.Square size → |(dist s.rng).1| ≤ 1 → ∀ z x : Int,
      0 ≤ x + Int.tdiv p.1 2 → x + Int.tdiv p.1 2 < size →
      0 ≤ z + Int.tdiv p.1 2 → z + Int.tdiv p.1 2 < size →
      ∃ s', diamondCell p.1 (Int.tdiv p.1 2) p.2 s z x = some s' ∧
        s'.cell (x + Int.tdiv p.1 2) (z + Int.tdiv p.1 2) =
          (s.read x z + s.read (x + p.1) z + s.read x (z + p.1) +
            s.read (x + p.1) (z + p.1)) / 4 + |(dist s.rng).1| * p.2 ∧
        |s'.cell (x + Int.tdiv p.1 2) (z + Int.tdiv p.1 2) -
          (s.read x z + s.read (x + p.1) z + s.read x (z + p.1) +
            s.read (x + p.1) (z + p.1)) / 4| ≤ maxHeight * roughness ^ k) ∧
    (∀ s : ProceduralTerrain F, s.Square size → |(dist s.rng).1| ≤ 1 → ∀ z x : Int,
      0 ≤ x → x < size → 0 ≤ z → z < size →
      ∃ avg s', squareAverage size (Int.tdiv p.1 2) s z x = some avg ∧
        squareCell size (Int.tdiv p.1 2) p.2 s z x = some s' ∧
        s'.cell x z = |avg + (dist s.rng).1 * p.2| ∧
        |(dist s.rng).1 * p.2| ≤ maxHeight * roughness ^ k ∧
        |s'.cell x z - (|avg|)| ≤ maxHeight * roughness ^ k) := by
  have hscale := roundSchedule_scale roughness _ _ _ k p hp
  have hpos : 0 < maxHeight * roughness ^ k := mul_pos hM (pow_pos hr0 k)
  have hmem := roundSchedule_mem roughness _ _ _ p (List.getElem?_mem hp)
  have hoff : ∀ draw : F, |draw| ≤ 1 →
      |(|draw| * p.2)| ≤ maxHeight * roughness ^ k ∧
      |draw * p.2| ≤ maxHeight * roughness ^ k := by
    intro draw hd
    have h1 : |(|draw| * p.2)| = |draw| * (maxHeight * roughness ^ k) := by
      rw [hscale, abs_mul, abs_abs, abs_of_pos hpos]
    have h2 : |draw * p.2| = |draw| * (maxHeight * roughness ^ k) := by
      rw [hscale, abs_mul, abs_of_pos hpos]
    have : |draw| * (maxHeight * roughness ^ k) ≤ 1 * (maxHeight * roughness ^ k) :=
      mul_le_mul_of_nonneg_right hd (le_of_lt hpos)
    rw [one_mul] at this
    rw [h1, h2]
    exact ⟨this, this⟩
  refine ⟨diamondSquareLoop_eq_fold size roughness _ _ _ t (Nat.lt_succ_self _),
    fun s => rfl, hscale, hoff, ?_, ?_, ?_⟩
  · rw [pow_succ]
    nlinarith [hpos]
  · intro s hs hd z x hx hxs hz hzs
    obtain ⟨s', e, w⟩ := diamondCell_writes hs.2.2 p.1 (Int.tdiv p.1 2) p.2 (x := x) (z := z)
      hx (by rw [hs.1]; exact hxs) hz (by rw [hs.2.1]; exact hzs)
    have hc := w.cell_eq hs hx hxs hz hzs
    rw [if_pos ⟨rfl, rfl⟩] at hc
    refine ⟨s', e, hc, ?_⟩
    rw [hc, add_sub_cancel_left]
    exact (hoff _ hd).1
  · intro s hs hd z x hx hxs hz hzs
    have hne : squareReads size (Int.tdiv p.1 2) x z ≠ [] := by
      intro h0
      have := squareReads_two_le hmem.1 hmem.2.1 x z
      rw [h0] at this
      simp at this
    obtain ⟨s', e, w⟩ := squareCell_writes hs.2.2 p.2 size (Int.tdiv p.1 2) (x := x) (z := z)
      hx (by rw [hs.1]; exact hxs) hz (by rw [hs.2.1]; exact hzs) hne
    have hc := w.cell_eq hs hx hxs hz hzs
    rw [if_pos ⟨rfl, rfl⟩] at hc
    refine ⟨_, s', squareAverage_eq hs.2.2 hne, e, hc, (hoff _ hd).2, ?_⟩
    rw [hc]
    refine le_trans (abs_abs_sub_abs_le _ _) ?_
    rw [add_sub_cancel_left]
    exact (hoff _ hd).2

theorem scale_shrinks_geometrically_witness :
    diamondSquareLoop 5 (1 / 2) (((5 : Int) - 1).toNat + 1) (5 - 1) 1 (sampleTerrain5 1) =
      (roundSchedule (1 / 2) (((5 : Int) - 1).toNat + 1) (5 - 1) 1).foldlM
        (roundBody 5) (sampleTerrain5 1) ∧
    (∀ s : ProceduralTerrain ℚ, roundBody 5 s ((2 : Int), (1 / 2 : ℚ)) =
      (diamondStep 5 ((2 : Int), (1 / 2 : ℚ)).1 (Int.tdiv ((2 : Int), (1 / 2 : ℚ)).1 2) ((2 : Int), (1 / 2 : ℚ)).2 s).bind
        (squareStep 5 ((2 : Int), (1 / 2 : ℚ)).1 (Int.tdiv ((2 : Int), (1 / 2 : ℚ)).1 2) ((2 : Int), (1 / 2 : ℚ)).2)) ∧
    ((2 : Int), (1 / 2 : ℚ)).2 = 1 * (1 / 2) ^ 1 ∧
    (∀ draw : ℚ, |draw| ≤ 1 →
      |(|draw| * ((2 : Int), (1 / 2 : ℚ)).2)| ≤ 1 * (1 / 2) ^ 1 ∧
      |draw * ((2 : Int), (1 / 2 : ℚ)).2| ≤ 1 * (1 / 2) ^ 1) ∧
    (1 : ℚ) * (1 / 2) ^ (1 + 1) < 1 * (1 / 2) ^ 1 ∧
    (∀ s : ProceduralTerrain ℚ, s.Square 5 → |(dist s.rng).1| ≤ 1 → ∀ z x : Int,
      0 ≤ x + Int.tdiv ((2 : Int), (1 / 2 : ℚ)).1 2 → x + Int.tdiv ((2 : Int), (1 / 2 : ℚ)).1 2 < 5 →
      0 ≤ z + Int.tdiv ((2 : Int), (1 / 2 : ℚ)).1 2 → z + Int.tdiv ((2 : Int), (1 / 2 : ℚ)).1 2 < 5 →
      ∃ s', diamondCell ((2 : Int), (1 / 2 : ℚ)).1 (Int.tdiv ((2 : Int), (1 / 2 : ℚ)).1 2) ((2 : Int), (1 / 2 : ℚ)).2 s z x = some s' ∧
        s'.cell (x + Int.tdiv ((2 : Int), (1 / 2 : ℚ)).1 2) (z + Int.tdiv ((2 : Int), (1 / 2 : ℚ)).1 2) =
          (s.read x z + s.read (x + ((2 : Int), (1 / 2 : ℚ)).1) z + s.read x (z + ((2 : Int), (1 / 2 : ℚ)).1) +
            s.read (x + ((2 : Int), (1 / 2 : ℚ)).1) (z + ((2 : Int), (1 / 2 : ℚ)).1)) / 4 + |(dist s.rng).1| * ((2 : Int), (1 / 2 : ℚ)).2 ∧
        |s'.cell (x + Int.tdiv ((2 : Int), (1 / 2 : ℚ)).1 2) (z + Int.tdiv ((2 : Int), (1 / 2 : ℚ)).1 2) -
          (s.read x z + s.read (x + ((2 : Int), (1 / 2 : ℚ)).1) z + s.read x (z + ((2 : Int), (1 / 2 : ℚ)).1) +
            s.read (x + ((2 : Int), (1 / 2 : ℚ)).1) (z + ((2 : Int), (1 / 2 : ℚ)).1)) / 4| ≤ 1 * (1 / 2) ^ 1) ∧
    (∀ s : ProceduralTerrain ℚ, s.Square 5 → |(dist s.rng).1| ≤ 1 → ∀ z x : Int,
      0 ≤ x → x < 5 → 0 ≤ z → z < 5 →
      ∃ avg s', squareAverage 5 (Int.tdiv ((2 : Int), (1 / 2 : ℚ)).1 2) s z x = some avg ∧
        squareCell 5 (Int.tdiv ((2 : Int), (1 / 2 : ℚ)).1 2) ((2 : Int), (1 / 2 : ℚ)).2 s z x = some s' ∧
        s'.cell x z = |avg + (dist s.rng).1 * ((2 : Int), (1 / 2 : ℚ)).2| ∧
        |(dist s.rng).1 * ((2 : Int), (1 / 2 : ℚ)).2| ≤ 1 * (1 / 2) ^ 1 ∧
        |s'.cell x z - (|avg|)| ≤ 1 * (1 / 2) ^ 1) :=
  scale_shrinks_geometrically (1 / 2) 1 (by norm_num) (by norm_num) (by norm_num) 5
    (sampleTerrain5 1) 1 (2, 1 / 2) (by with_unfolding_all rfl)

/-- C21: after `generateDiamondSquare` returns (it does, on every terrain that satisfies the
class invariant), the normal grid is consistent with the final heights.  For every cell
`(x, z)` of the grid the stored normal is the normalisation of `(hL - hR, 2, hD - hU)`, where
`hL`, `hR`, `hD`, `hU` are what `getHeight` returns at `(x-1, z)`, `(x+1, z)`, `(x, z-1)`,
`(x, z+1)` on the grid held at return; for an interior cell these are the grid entries of the
four neighbours.  So no normal is left from before the generation. -/
theorem normals_match_final_heights (normalize : Vec3 F → Vec3 F) (roughness maxHeight : F)
    (t : ProceduralTerrain F) (hw : t.WF) :
    ∃ t', t.generateDiamondSquare normalize roughness maxHeight = some t' ∧
      ∀ x z : Int, 0 ≤ x → x < t'.width → 0 ≤ z → z < t'.height →
        ∃ hL hR hD hU : F, t'.getHeight (x - 1) z = some hL ∧
          t'.getHeight (x + 1) z = some hR ∧ t'.getHeight x (z - 1) = some hD ∧
          t'.getHeight x (z + 1) = some hU ∧
          vecGet t'.normals (z * t'.width + x) =
            some (normalize (Vec3.mk (hL - hR) 2 (hD - hU))) ∧
          (0 < x → x < t'.width - 1 → 0 < z → z < t'.height - 1 →
            hL = t'.cell (x - 1) z ∧ hR = t'.cell (x + 1) z ∧
            hD = t'.cell x (z - 1) ∧ hU = t'.cell x (z + 1)) := by
  have hstep : ∀ (s : ProceduralTerrain F) (op : CellOp F),
      op ∈ runOps t.width roughness maxHeight → Sized t.width t.height s →
      ∃ s', op.run s = some s' ∧ Sized t.width t.height s' := by
    intro s op hop hs
    obtain ⟨s', e, h1, -⟩ := runOps_step t.width hop s hs
    exact ⟨s', e, h1⟩
  obtain ⟨s, e, hs⟩ := foldlM_invariant _ _ _ hstep t ⟨hw, rfl, rfl⟩
  obtain ⟨t', e', hh, hwid, hhei, -, hw', hstored, -⟩ := calculateNormals_stored hs.1 normalize
  refine ⟨t', ?_, ?_⟩
  · rw [generateDiamondSquare_eq_runAll]
    unfold runAll
    rw [e]
    exact e'
  · intro x z hx hxw hz hzh
    have hr : ∀ a b : Int, s.read a b = t'.read a b :=
      fun a b => (read_congr hh hwid hhei a b).symm
    refine ⟨t'.read (x - 1) z, t'.read (x + 1) z, t'.read x (z - 1), t'.read x (z + 1),
      ProceduralTerrain.getHeight_eq_read hw' _ _, ProceduralTerrain.getHeight_eq_read hw' _ _,
      ProceduralTerrain.getHeight_eq_read hw' _ _, ProceduralTerrain.getHeight_eq_read hw' _ _,
      ?_, ?_⟩
    · rw [hwid, hstored x z hx (by omega) hz (by omega)]
      simp only [slopeVector, hr]
    · intro h1 h2 h3 h4
      exact ⟨ProceduralTerrain.read_eq_cell (by omega) (by omega) hz hzh,
        ProceduralTerrain.read_eq_cell (by omega) (by omega) hz hzh,
        ProceduralTerrain.read_eq_cell hx hxw (by omega) (by omega),
        ProceduralTerrain.read_eq_cell hx hxw (by omega) (by omega)⟩

theorem normals_match_final_heights_witness :
    ∃ t', (sampleTerrain 1).generateDiamondSquare (fun v => v) (1 / 2) 1 = some t' ∧
      ∀ x z : Int, 0 ≤ x → x < t'.width → 0 ≤ z → z < t'.height →
        ∃ hL hR hD hU : ℚ, t'.getHeight (x - 1) z = some hL ∧
          t'.getHeight (x + 1) z = some hR ∧ t'.getHeight x (z - 1) = some hD ∧
          t'.getHeight x (z + 1) = some hU ∧
          vecGet t'.normals (z * t'.width + x) =
            some ((fun v => v) (Vec3.mk (hL - hR) 2 (hD - hU))) ∧
          (0 < x → x < t'.width - 1 → 0 < z → z < t'.height - 1 →
            hL = t'.cell (x - 1) z ∧ hR = t'.cell (x + 1) z ∧
            hD = t'.cell x (z - 1) ∧ hU = t'.cell x (z + 1)) :=
  normals_match_final_heights (fun v => v) (1 / 2) 1 (sampleTerrain 1) ⟨rfl, rfl⟩

/-- C22, on the code: the grid size on which the application runs `generateDiamondSquare`
does not satisfy the size requirement.  The default `Config::terrain.size` is 256, which is
not of the form `2 ^ n + 1`; neither are the ends 64 and 512 of the "Resolution" slider, and
of the sizes that the slider can select only 65, 129 and 257 are.  On the default grid the
loop runs with the steps 255, 127, 63, 31, 15, 7, 3, of which none is twice its half step,
and no write of the run goes to the cell `(2, 2)`: the grid is not filled. -/
theorem application_size_not_pow_plus_one (roughness maxHeight : F) :
    ¬ IsPowPlusOne terrainSizeDefault ∧
    ¬ IsPowPlusOne resolutionSliderMin ∧ ¬ IsPowPlusOne resolutionSliderMax ∧
    (∀ s : Int, resolutionSliderMin ≤ s ∧ s ≤ resolutionSliderMax ∧ IsPowPlusOne s ↔
      s = 65 ∨ s = 129 ∨ s = 257) ∧
    (roundSchedule roughness ((terrainSizeDefault - 1).toNat + 1) (terrainSizeDefault - 1)
      maxHeight).map (fun p => p.1) = [255, 127, 63, 31, 15, 7, 3] ∧
    ∀ op ∈ runOps terrainSizeDefault roughness maxHeight, op.target ≠ (2, 2) := by
  refine ⟨?_, ?_, ?_, ?_, roundSchedule_default roughness maxHeight,
    fun op hop => default_grid_skips roughness maxHeight op hop⟩
  · intro h
    have := (isPowPlusOne_slider 256 (by norm_num) (by norm_num)).mp h
    omega
  · intro h
    have := (isPowPlusOne_slider 64 (by norm_num) (by norm_num)).mp h
    omega
  · intro h
    have := (isPowPlusOne_slider 512 (by norm_num) (by norm_num)).mp h
    omega
  · intro s
    unfold resolutionSliderMin resolutionSliderMax
    constructor
    · rintro ⟨h1, h2, h3⟩
      exact (isPowPlusOne_slider s h1 h2).mp h3
    · intro h
      refine ⟨by omega, by omega, ?_⟩
      exact (isPowPlusOne_slider s (by omega) (by omega)).mpr h

/-! ## A frame claim on HeightMap -/

/-- C23: on a height map that satisfies the class invariant, an in-range
`set_height(x, y, v)` returns and changes only the addressed elevation: `get_height` at
every other coordinate, `get_normal` at every coordinate, `get_resolution` and the sizes of
both arrays (`resolution * resolution` entries each) are what they were, and the normal
array is not touched. -/
theorem set_height_frame (h : HeightMap F) (hw : h.WF) (x y : Int) (v : F)
    (hx : 0 ≤ x) (hxr : x < h.get_resolution) (hy : 0 ≤ y) (hyr : y < h.get_resolution) :
    ∃ h', h.set_height x y v = some h' ∧
      (∀ x' y' : Int, ¬ (x' = x ∧ y' = y) → h'.get_height x' y' = h.get_height x' y') ∧
      (∀ x' y' : Int, h'.get_normal x' y' = h.get_normal x' y') ∧
      h'._normals = h._normals ∧
      h'.get_resolution = h.get_resolution ∧
      h'.get_data.length = h.get_data.length ∧
      h'.get_data.length = (h.get_resolution * h.get_resolution).toNat ∧
      h'._normals.length = (h.get_resolution * h.get_resolution).toNat := by
  have hin : ¬ (x < 0 ∨ x ≥ h._resolution ∨ y < 0 ∨ y ≥ h._resolution) := by
    simp only [HeightMap.get_resolution] at hxr hyr
    omega
  have hlt : (h._index x y).toNat < h._height_data.length :=
    toNat_index_lt hw.1 hx hxr hy hyr
  have hset : vecSet h._height_data (h._index x y) v =
      some (h._height_data.set (h._index x y).toNat v) :=
    vecSet_isSome h._height_data v (index_nonneg hx hxr hy) hlt
  refine ⟨{ h with _height_data := h._height_data.set (h._index x y).toNat v }, ?_, ?_, ?_,
    rfl, rfl, ?_, ?_, hw.2⟩
  · unfold HeightMap.set_height
    rw [if_neg hin, hset]
    rfl
  · intro x' y' hne
    unfold HeightMap.get_height
    by_cases hout : x' < 0 ∨ x' ≥ h._resolution ∨ y' < 0 ∨ y' ≥ h._resolution
    · rw [if_pos hout, if_pos hout]
    · rw [if_neg hout, if_neg hout]
      have hx0 : 0 ≤ x' := by omega
      have hx1 : x' < h._resolution := by omega
      have hy0 : 0 ≤ y' := by omega
      apply vecGet_vecSet_ne hset (index_nonneg hx0 hx1 hy0)
      intro he
      have := index_inj hx hxr hx0 hx1 he
      exact hne ⟨this.1.symm, this.2.symm⟩
  · intro x' y'
    rfl
  · simp [HeightMap.get_data]
  · simp only [HeightMap.get_data, List.length_set]
    exact hw.1

theorem set_height_frame_witness :
    ∃ h', sampleMap.set_height 1 0 7 = some h' ∧
      (∀ x' y' : Int, ¬ (x' = 1 ∧ y' = 0) →
        h'.get_height x' y' = sampleMap.get_height x' y') ∧
      (∀ x' y' : Int, h'.get_normal x' y' = sampleMap.get_normal x' y') ∧
      h'._normals = sampleMap._normals ∧
      h'.get_resolution = sampleMap.get_resolution ∧
      h'.get_data.length = sampleMap.get_data.length ∧
      h'.get_data.length = (sampleMap.get_resolution * sampleMap.get_resolution).toNat ∧
      h'._normals.length = (sampleMap.get_resolution * sampleMap.get_resolution).toNat :=
  set_height_frame sampleMap ⟨rfl, rfl⟩ 1 0 7 (by decide) (by decide) (by decide) (by decide)

/-! ## Claims on the run as a whole -/

/-- C24: `generateDiamondSquare` never produces a negative elevation.  On a terrain of any
size that satisfies the class invariant and holds no negative height, for every
`maxHeight ≥ 0`, every `roughness ≥ 0` and every sequence of random draws, the run is the
execution of its writes one after the other; after every one of them (after every prefix of
the sequence of writes) the grid holds no negative height, and the call returns a terrain
whose grid holds no negative height. -/
theorem heights_never_negative (normalize : Vec3 F → Vec3 F) (roughness maxHeight : F)
    (t : ProceduralTerrain F) (hw : t.WF) (h0 : NonNeg t) (hM : 0 ≤ maxHeight)
    (hr : 0 ≤ roughness) :
    t.generateDiamondSquare normalize roughness maxHeight =
      (runAll (runOps t.width roughness maxHeight) t).bind
        (fun t => t.calculateNormals normalize) ∧
    (∀ k : Nat, ∃ s, runAll ((runOps t.width roughness maxHeight).take k) t = some s ∧
      NonNeg s) ∧
    ∃ t', t.generateDiamondSquare normalize roughness maxHeight = some t' ∧ NonNeg t' ∧
      ∀ x z : Int, ∃ v, t'.getHeight x z = some v ∧ 0 ≤ v := by
  have hstep : ∀ (s : ProceduralTerrain F) (op : CellOp F),
      op ∈ runOps t.width roughness maxHeight → Sized t.width t.height s ∧ NonNeg s →
      ∃ s', op.run s = some s' ∧ Sized t.width t.height s' ∧ NonNeg s' := by
    intro s op hop hs
    obtain ⟨s', e, h1, h2⟩ := runOps_step t.width hop s hs.1
    exact ⟨s', e, h1, h2 hr hM hs.2⟩
  have hinit : Sized t.width t.height t ∧ NonNeg t := ⟨⟨hw, rfl, rfl⟩, h0⟩
  refine ⟨generateDiamondSquare_eq_runAll normalize t roughness maxHeight, ?_, ?_⟩
  · intro k
    obtain ⟨s, e, -, hn⟩ := foldlM_take_invariant _ _ _ hstep t hinit k
    exact ⟨s, e, hn⟩
  · obtain ⟨s, e, hs, hn⟩ := foldlM_invariant _ _ _ hstep t hinit
    obtain ⟨t', e', hh, -, -, -, hw'⟩ := ProceduralTerrain.calculateNormals_spec hs.1 normalize
    have hn' : NonNeg t' := by
      unfold NonNeg
      rw [hh]
      exact hn
    refine ⟨t', ?_, hn', fun x z => ⟨t'.read x z, ProceduralTerrain.getHeight_eq_read hw' x z,
      read_nonneg hn' x z⟩⟩
    rw [generateDiamondSquare_eq_runAll]
    unfold runAll
    rw [e]
    exact e'

theorem heights_never_negative_witness :
    (sampleTerrain4 (-1)).generateDiamondSquare (fun v => v) (1 / 2) 1 =
      (runAll (runOps (sampleTerrain4 (-1)).width (1 / 2) 1) (sampleTerrain4 (-1))).bind
        (fun t => t.calculateNormals (fun v => v)) ∧
    (∀ k : Nat, ∃ s, runAll ((runOps (sampleTerrain4 (-1)).width (1 / 2) 1).take k)
        (sampleTerrain4 (-1)) = some s ∧ NonNeg s) ∧
    ∃ t', (sampleTerrain4 (-1)).generateDiamondSquare (fun v => v) (1 / 2) 1 = some t' ∧
      NonNeg t' ∧ ∀ x z : Int, ∃ v, t'.getHeight x z = some v ∧ 0 ≤ v :=
  heights_never_negative (fun v => v) (1 / 2) 1 (sampleTerrain4 (-1)) ⟨rfl, rfl⟩
    (by intro v hv; rw [List.eq_of_mem_replicate hv]) (by norm_num) (by norm_num)

/-- C25: on a square terrain of side `2 ^ n + 1` (`n ≥ 1`) that satisfies the class
invariant, `generateDiamondSquare` returns, and it is the execution, one after the other, of
the four corner writes and of the operations `loopOps` of the loop, followed by
`calculateNormals`.  Every corner write stores 0 at its corner.  Every operation of the
loop, on every square terrain of that side, reads with `getHeight` cells that lie in the
grid, returns, and stores at its target cell, and nowhere else, the height computed from
the heights it read and from the next draw (`CellOp.written`), which `getHeight` returns at
the target afterwards; no two operations have the same target, the targets are exactly the
cells of the grid that are not corners, and there are `size ^ 2 - 4` of them: every
non-corner cell is assigned exactly once.  The operations of round `i` (from 0), whose half step is
`2 ^ (n - 1 - i)`, assign the cells for which that half step is the largest power of two
dividing both coordinates.  Every height that an operation reads belongs to a corner or to
the target of an operation executed before it. -/
theorem every_cell_assigned_once (n : Nat) (normalize : Vec3 F → Vec3 F)
    (roughness maxHeight : F) (t : ProceduralTerrain F) (hs : t.Square (2 ^ n + 1)) :
    (∃ t', t.generateDiamondSquare normalize roughness maxHeight = some t') ∧
    t.generateDiamondSquare normalize roughness maxHeight =
      (runAll (seedOps (2 ^ n + 1) ++ loopOps (2 ^ n + 1) roughness maxHeight) t).bind
        (fun t => t.calculateNormals normalize) ∧
    (∀ op ∈ seedOps ((2 : Int) ^ n + 1), ∀ s : ProceduralTerrain F, s.Square (2 ^ n + 1) →
      isCorner (2 ^ n + 1) op.target.1 op.target.2 ∧ CellOp.written s op = 0 ∧
      ∃ s', op.run s = some s' ∧ s.Writes op.target.1 op.target.2 0 s.rng s' ∧
        s'.getHeight op.target.1 op.target.2 = some 0) ∧
    (∀ op ∈ loopOps ((2 : Int) ^ n + 1) roughness maxHeight, ∀ s : ProceduralTerrain F,
      s.Square (2 ^ n + 1) →
      (∀ r ∈ op.reads, inGrid (2 ^ n + 1) r = true ∧
        s.getHeight r.1 r.2 = some (s.cell r.1 r.2)) ∧
      ∃ s', op.run s = some s' ∧
        s.Writes op.target.1 op.target.2 (CellOp.written s op) (dist s.rng).2 s' ∧
        s'.getHeight op.target.1 op.target.2 = some (CellOp.written s op)) ∧
    ((loopOps ((2 : Int) ^ n + 1) roughness maxHeight).map CellOp.target).Nodup ∧
    (∀ c : Int × Int, c ∈ (loopOps ((2 : Int) ^ n + 1) roughness maxHeight).map CellOp.target ↔
      NonCorner (2 ^ n + 1) c) ∧
    (loopOps ((2 : Int) ^ n + 1) roughness maxHeight).length =
      (2 ^ n + 1) * (2 ^ n + 1) - 4 ∧
    loopOps ((2 : Int) ^ n + 1) roughness maxHeight =
      (List.range n).flatMap (fun i =>
        roundOps ((2 : Int) ^ n + 1) ((2 : Int) ^ (n - i), maxHeight * roughness ^ i)) ∧
    (∀ i : Nat, i < n → Int.tdiv ((2 : Int) ^ (n - i)) 2 = 2 ^ (n - 1 - i) ∧
      ∀ op ∈ roundOps ((2 : Int) ^ n + 1) ((2 : Int) ^ (n - i), maxHeight * roughness ^ i),
        HasLevel (n - 1 - i) op.target) ∧
    (∀ (pre post : List (CellOp F)) (op : CellOp F),
      loopOps ((2 : Int) ^ n + 1) roughness maxHeight = pre ++ op :: post →
      ∀ r ∈ op.reads, isCorner (2 ^ n + 1) r.1 r.2 ∨ r ∈ pre.map CellOp.target) := by
  have hrun := generateDiamondSquare_eq_runAll normalize t roughness maxHeight
  rw [hs.1] at hrun
  refine ⟨?_, hrun,
    fun op hop s hsq => seedOps_stores n op hop s hsq,
    fun op hop s hsq => loopOps_stores n roughness maxHeight op hop s hsq,
    loop_targets_nodup n roughness maxHeight,
    fun c => mem_loop_targets roughness maxHeight c,
    loop_targets_length n roughness maxHeight,
    loopOps_pow n roughness maxHeight, ?_,
    fun pre post op h r hr => loop_reads_earlier n roughness maxHeight pre post op h r hr⟩
  · obtain ⟨t', e, -⟩ := generateDiamondSquare_total hs.2.2 normalize roughness maxHeight
    exact ⟨t', e⟩
  · intro i hi
    have en : n - i = (n - 1 - i) + 1 := by omega
    refine ⟨by rw [en]; exact tdiv_pow_succ _, fun op hop => ?_⟩
    have hm : op.target ∈ (roundOps ((2 : Int) ^ n + 1)
        ((2 : Int) ^ (n - i), maxHeight * roughness ^ i)).map CellOp.target :=
      List.mem_map_of_mem _ hop
    rw [mem_round_targets_pow hi] at hm
    exact hm.2.2.2.2

theorem every_cell_assigned_once_witness :
    (∃ t', (sampleTerrain5 1).generateDiamondSquare (fun v => v) (1 / 2) 1 = some t') ∧
    (sampleTerrain5 1).generateDiamondSquare (fun v => v) (1 / 2) 1 =
      (runAll (seedOps (2 ^ 2 + 1) ++ loopOps (2 ^ 2 + 1) (1 / 2) 1) (sampleTerrain5 1)).bind
        (fun t => t.calculateNormals (fun v => v)) ∧
    (∀ op ∈ seedOps ((2 : Int) ^ 2 + 1), ∀ s : ProceduralTerrain ℚ, s.Square (2 ^ 2 + 1) →
      isCorner (2 ^ 2 + 1) op.target.1 op.target.2 ∧ CellOp.written s op = 0 ∧
      ∃ s', op.run s = some s' ∧ s.Writes op.target.1 op.target.2 0 s.rng s' ∧
        s'.getHeight op.target.1 op.target.2 = some 0) ∧
    (∀ op ∈ loopOps ((2 : Int) ^ 2 + 1) (1 / 2 : ℚ) 1, ∀ s : ProceduralTerrain ℚ,
      s.Square (2 ^ 2 + 1) →
      (∀ r ∈ op.reads, inGrid (2 ^ 2 + 1) r = true ∧
        s.getHeight r.1 r.2 = some (s.cell r.1 r.2)) ∧
      ∃ s', op.run s = some s' ∧
        s.Writes op.target.1 op.target.2 (CellOp.written s op) (dist s.rng).2 s' ∧
        s'.getHeight op.target.1 op.target.2 = some (CellOp.written s op)) ∧
    ((loopOps ((2 : Int) ^ 2 + 1) (1 / 2 : ℚ) 1).map CellOp.target).Nodup ∧
    (∀ c : Int × Int, c ∈ (loopOps ((2 : Int) ^ 2 + 1) (1 / 2 : ℚ) 1).map CellOp.target ↔
      NonCorner (2 ^ 2 + 1) c) ∧
    (loopOps ((2 : Int) ^ 2 + 1) (1 / 2 : ℚ) 1).length = (2 ^ 2 + 1) * (2 ^ 2 + 1) - 4 ∧
    loopOps ((2 : Int) ^ 2 + 1) (1 / 2 : ℚ) 1 =
      (List.range 2).flatMap (fun i =>
        roundOps ((2 : Int) ^ 2 + 1) ((2 : Int) ^ (2 - i), 1 * (1 / 2) ^ i)) ∧
    (∀ i : Nat, i < 2 → Int.tdiv ((2 : Int) ^ (2 - i)) 2 = 2 ^ (2 - 1 - i) ∧
      ∀ op ∈ roundOps ((2 : Int) ^ 2 + 1) ((2 : Int) ^ (2 - i), (1 : ℚ) * (1 / 2) ^ i),
        HasLevel (2 - 1 - i) op.target) ∧
    (∀ (pre post : List (CellOp ℚ)) (op : CellOp ℚ),
      loopOps ((2 : Int) ^ 2 + 1) (1 / 2 : ℚ) 1 = pre ++ op :: post →
      ∀ r ∈ op.reads, isCorner (2 ^ 2 + 1) r.1 r.2 ∨ r ∈ pre.map CellOp.target) :=
  every_cell_assigned_once 2 (fun v => v) (1 / 2) 1 (sampleTerrain5 1)
    ⟨rfl, rfl, rfl, rfl⟩

/-- C26: the division `avg /= count` of the square step never divides by zero.  For every
grid size (of the form `2 ^ n + 1` or not), in every round of the loop and at every cell
`(x, z)`, so at every cell that the square step visits, the four guarded additions return,
and the count is the number of guards that hold, which is at least 2 (one of the two tests on
`x` and one of the two tests on `z` succeed, as `2 * halfStep ≤ size - 1`); so the division
is defined. -/
theorem square_count_at_least_two (size : Int) (roughness maxHeight : F)
    (t : ProceduralTerrain F) (hw : t.WF) (k : Nat) (p : Int × F)
    (hp : (roundSchedule roughness ((size - 1).toNat + 1) (size - 1) maxHeight)[k]? = some p)
    (z x : Int) :
    ∃ acc, squareSum size (Int.tdiv p.1 2) t z x = some acc ∧
      acc.2 = ((squareReads size (Int.tdiv p.1 2) x z).length : Int) ∧
      2 ≤ acc.2 ∧ acc.2 ≠ 0 ∧
      squareAverage size (Int.tdiv p.1 2) t z x = some (acc.1 / (acc.2 : F)) := by
  obtain ⟨p1, p2, -⟩ := roundSchedule_mem _ _ _ _ p (List.getElem?_mem hp)
  have h2 := squareReads_two_le p1 p2 x z
  have h2i : (2 : Int) ≤ ((squareReads size (Int.tdiv p.1 2) x z).length : Int) := by
    exact_mod_cast h2
  refine ⟨_, squareSum_eq hw size _ z x, rfl, h2i, ?_, ?_⟩
  · show ((squareReads size (Int.tdiv p.1 2) x z).length : Int) ≠ 0
    omega
  · unfold squareAverage
    rw [squareSum_eq hw]
    simp only [Option.bind_eq_bind, Option.some_bind]
    rw [if_neg (by omega)]
    rfl

theorem square_count_at_least_two_witness :
    ∃ acc, squareSum 4 (Int.tdiv ((3 : Int), (1 : ℚ)).1 2) (sampleTerrain4 1) 0 1 = some acc ∧
      acc.2 = ((squareReads 4 (Int.tdiv ((3 : Int), (1 : ℚ)).1 2) 1 0).length : Int) ∧
      2 ≤ acc.2 ∧ acc.2 ≠ 0 ∧
      squareAverage 4 (Int.tdiv ((3 : Int), (1 : ℚ)).1 2) (sampleTerrain4 1) 0 1 =
        some (acc.1 / (acc.2 : ℚ)) :=
  square_count_at_least_two 4 (1 / 2) 1 (sampleTerrain4 1) ⟨rfl, rfl⟩ 0 (3, 1)
    (by with_unfolding_all rfl) 0 1

/-! ## Claims on the mesh -/

/-- C27, as stated, fails: `indexCount` is an `int`, and the number of emitted indices need
not fit one.  The constructor accepts the size 18920 x 18920 (`18920 * 18920` fits an `int`);
on that terrain `createMesh` emits `6 * 18919 * 18919 = 2147571366` indices, more than
`INT_MAX = 2147483647`, and the value stored in `indexCount` is `-2147395930`. -/
theorem index_count_overflows :
    ∃ t : ProceduralTerrain ℚ, ProceduralTerrain.ctor sampleGen 0 18920 18920 = some t ∧
      1 ≤ t.width ∧ 1 ≤ t.height ∧
      ∃ t' vertices indices, t.createMesh = some (t', vertices, indices) ∧
        (indices.length : Int) = 2147571366 ∧ t'.indexCount = -2147395930 ∧
        t'.indexCount ≠ (indices.length : Int) := by
  obtain ⟨t, ht⟩ := ProceduralTerrain.ctor_returns sampleGen 0 (w := 18920) (h := 18920)
    (by norm_num) (by unfold INT_MAX; norm_num)
  obtain ⟨hw, e1, e2, -⟩ := ProceduralTerrain.ctor_invariant ht
  obtain ⟨t', vs, is, e, -, hl, -, hc, -⟩ := createMesh_spec t hw (by omega) (by omega)
  rw [e1, e2] at hl
  norm_num at hl
  have hn : is.length = 2147571366 := by exact_mod_cast hl
  have hv : t'.indexCount = -2147395930 := by
    rw [hc, hn]
    unfold sizeToInt
    norm_num
  refine ⟨t, ht, by omega, by omega, t', vs, is, e, hl, hv, ?_⟩
  rw [hv, hl]
  norm_num

/-- C27, amended: on every terrain with `width ≥ 1` and `height ≥ 1` that satisfies the class
invariant, `createMesh` returns; it emits `6 * width * height` floats (`width * height`
vertices of 6 floats each) and exactly `6 * (width - 1) * (height - 1)` indices, and every
emitted index is smaller than `width * height`.  The value of `indexCount` afterwards is
the number of emitted indices converted to `int`: it equals that number when the number is
at most `INT_MAX`, and differs from it otherwise. -/
theorem createMesh_counts (t : ProceduralTerrain F) (hw : t.WF) (h1 : 1 ≤ t.width)
    (h2 : 1 ≤ t.height) :
    ∃ t' vertices indices, t.createMesh = some (t', vertices, indices) ∧
      vertices.length = 6 * (t.width * t.height).toNat ∧
      (indices.length : Int) = 6 * (t.width - 1) * (t.height - 1) ∧
      (∀ i ∈ indices, (i : Int) < t.width * t.height) ∧
      t'.indexCount = sizeToInt indices.length ∧
      ((indices.length : Int) ≤ INT_MAX → t'.indexCount = (indices.length : Int)) ∧
      (INT_MAX < (indices.length : Int) → t'.indexCount ≠ (indices.length : Int)) ∧
      t'.width = t.width ∧ t'.height = t.height ∧ t'.heightmap = t.heightmap ∧
      t'.normals = t.normals := by
  obtain ⟨t', vs, is, e, a1, a2, a3, a4, a5, a6, a7, a8⟩ := createMesh_spec t hw h1 h2
  exact ⟨t', vs, is, e, a1, a2, a3, a4, fun h => a4.trans (sizeToInt_of_le h),
    fun h => by rw [a4]; exact sizeToInt_ne_of_gt h, a5, a6, a7, a8⟩

theorem createMesh_counts_witness :
    ∃ t' vertices indices, (sampleTerrain 1).createMesh = some (t', vertices, indices) ∧
      vertices.length = 6 * ((sampleTerrain 1).width * (sampleTerrain 1).height).toNat ∧
      (indices.length : Int) =
        6 * ((sampleTerrain 1).width - 1) * ((sampleTerrain 1).height - 1) ∧
      (∀ i ∈ indices, (i : Int) < (sampleTerrain 1).width * (sampleTerrain 1).height) ∧
      t'.indexCount = sizeToInt indices.length ∧
      ((indices.length : Int) ≤ INT_MAX → t'.indexCount = (indices.length : Int)) ∧
      (INT_MAX < (indices.length : Int) → t'.indexCount ≠ (indices.length : Int)) ∧
      t'.width = (sampleTerrain 1).width ∧ t'.height = (sampleTerrain 1).height ∧
      t'.heightmap = (sampleTerrain 1).heightmap ∧
      t'.normals = (sampleTerrain 1).normals :=
  createMesh_counts (sampleTerrain 1) ⟨rfl, rfl⟩ (by decide) (by decide)

/-! ## Claims on the scene configuration -/

/-- C28, on the code: the colour loop of `SceneConfig::validate` runs with the indices 0, 1,
2 and 3 (`i < 4`), and the index 3 is outside the four 3-element colour arrays.  The passes
with the indices 0, 1, 2 have a result; the pass with index 3 reads `base_color[3]`, which
has none, so neither the loop nor `validate` has a defined result, for any configuration. -/
theorem color_loop_out_of_bounds (fmod : F → F → F) (sqrt : F → F) (ceilLog2 : Int → Int)
    (c : SceneConfig F) :
    colorLoopIndices = [0, 1, 2, 3] ∧
    c.terrain.base_color.get 3 = none ∧ c.lighting.ambient_color.get 3 = none ∧
    c.lighting.sun_color.get 3 = none ∧ c.lighting.fog_color.get 3 = none ∧
    (∃ c', [(0 : Int), 1, 2].foldlM clampColorsAt c = some c') ∧
    clampColorsAt c 3 = none ∧ clampColors c = none ∧
    SceneConfig.validate fmod sqrt ceilLog2 c = none := by
  refine ⟨by decide, rfl, rfl, rfl, rfl, ?_, clampColorsAt_three c, clampColors_none c, ?_⟩
  · obtain ⟨c0, e0⟩ := clampColorsAt_inRange c 0 (Or.inl rfl)
    obtain ⟨c1, e1⟩ := clampColorsAt_inRange c0 1 (Or.inr (Or.inl rfl))
    obtain ⟨c2, e2⟩ := clampColorsAt_inRange c1 2 (Or.inr (Or.inr rfl))
    exact ⟨c2, by simp only [List.foldlM_cons, List.foldlM_nil, e0, e1, e2,
      Option.bind_eq_bind, Option.some_bind, Option.pure_def]⟩
  · unfold SceneConfig.validate
    simp only [clampColors_none]
    rfl

/-- C29, on the code: `validate` is not idempotent, it never accepts a configuration.  The
statement on `terrain.lod_levels` sets `valid = false` in both of its branches
(`lod_levels < 1`, and `else if (lod_levels > 0)`), so after the scalar checks `valid` is
false for every configuration, in a first call and in a second call alike, and no call
returns true.  The first call leaves `lod_levels` at 1 (when it was below 1) or at 8; when
it left 1, the second call changes the field to 8. -/
theorem validate_never_accepts (fmod : F → F → F) (sqrt : F → F) (ceilLog2 : Int → Int)
    (c : SceneConfig F) :
    (validateSettings fmod ceilLog2 c).1 = false ∧
    (validateSettings fmod ceilLog2 (validateSettings fmod ceilLog2 c).2).1 = false ∧
    (validateSettings fmod ceilLog2 c).2.terrain.lod_levels =
      (if c.terrain.lod_levels < 1 then 1 else 8) ∧
    (validateSettings fmod ceilLog2
      (validateSettings fmod ceilLog2 c).2).2.terrain.lod_levels = 8 ∧
    (validateSettings fmod ceilLog2
      (SceneConfig.defaults : SceneConfig F)).2.terrain.lod_levels = 8 ∧
    (∀ r, SceneConfig.validate fmod sqrt ceilLog2 c ≠ some (true, r)) ∧
    (∀ r₁ r₂, SceneConfig.validate fmod sqrt ceilLog2 c = some r₁ →
      SceneConfig.validate fmod sqrt ceilLog2 r₁.2 ≠ some (true, r₂)) := by
  refine ⟨validateSettings_false _ _ _, validateSettings_false _ _ _,
    validateSettings_lod _ _ _, ?_, ?_, ?_, ?_⟩
  · rw [validateSettings_lod, validateSettings_lod]
    split <;> simp
  · rw [validateSettings_lod]
    simp [SceneConfig.defaults]
  · intro r h
    have := validate_false fmod sqrt ceilLog2 c _ h
    simp at this
  · intro r₁ r₂ _ h
    have := validate_false fmod sqrt ceilLog2 r₁.2 _ h
    simp at this

/-! ## Claims on the fade curve -/

/-- C30: `_fade(0) = 0`, `_fade(1) = 1`, and `_fade` is monotone on `[0, 1]`: for
`0 ≤ s ≤ t ≤ 1`, `_fade(s) ≤ _fade(t)`, so both values lie in `[0, 1]` (exact arithmetic);
and `_lerp(a, b, 0) = a`, `_lerp(a, b, 1) = b` for all `a`, `b`. -/
theorem fade_monotone_on_unit (s t a b : F) (hs : 0 ≤ s) (hst : s ≤ t) (ht : t ≤ 1) :
    NoiseGenerator._fade (0 : F) = 0 ∧ NoiseGenerator._fade (1 : F) = 1 ∧
    NoiseGenerator._fade s ≤ NoiseGenerator._fade t ∧
    0 ≤ NoiseGenerator._fade s ∧ NoiseGenerator._fade s ≤ 1 ∧
    0 ≤ NoiseGenerator._fade t ∧ NoiseGenerator._fade t ≤ 1 ∧
    NoiseGenerator._lerp a b 0 = a ∧ NoiseGenerator._lerp a b 1 = b := by
  have f0 : NoiseGenerator._fade (0 : F) = 0 := by unfold NoiseGenerator._fade; ring
  have f1 : NoiseGenerator._fade (1 : F) = 1 := by unfold NoiseGenerator._fade; ring
  have m1 := fade_mono hs
  have m2 := fade_mono hst
  have m3 := fade_mono ht
  have m4 := fade_mono (le_trans hs hst)
  have m5 := fade_mono (le_trans hst ht)
  rw [f0] at m1 m4
  rw [f1] at m3 m5
  refine ⟨f0, f1, m2, m1, m5, m4, m3, ?_, ?_⟩
  · unfold NoiseGenerator._lerp; ring
  · unfold NoiseGenerator._lerp; ring

theorem fade_monotone_on_unit_witness :
    NoiseGenerator._fade (0 : ℚ) = 0 ∧ NoiseGenerator._fade (1 : ℚ) = 1 ∧
    NoiseGenerator._fade (1 / 4 : ℚ) ≤ NoiseGenerator._fade (1 / 2 : ℚ) ∧
    0 ≤ NoiseGenerator._fade (1 / 4 : ℚ) ∧ NoiseGenerator._fade (1 / 4 : ℚ) ≤ 1 ∧
    0 ≤ NoiseGenerator._fade (1 / 2 : ℚ) ∧ NoiseGenerator._fade (1 / 2 : ℚ) ≤ 1 ∧
    NoiseGenerator._lerp (3 : ℚ) 7 0 = 3 ∧ NoiseGenerator._lerp (3 : ℚ) 7 1 = 7 :=
  fade_monotone_on_unit (1 / 4) (1 / 2) 3 7 (by norm_num) (by norm_num) (by norm_num)

end Parbati
